import Mathlib

/-!
# Surelog file partitioner (`AnalyzeFile`)

A shallow embedding of `src/src/SourceCompile/AnalyzeFile.cpp`:

* `checkSLlineDirective_` / `setSLlineDirective_` : the provenance stack,
* the keyword scan of `AnalyzeFile::analyze` (source lines 148-371),
* the gate and the split loop of `AnalyzeFile::analyze` (source lines 373-678),

an embedding of `CompileHelper::compileBuiltinTypespec` of
`src/src/DesignCompile/CompileType.cpp` (the signedness of the built-in
types), and two models written from the specification, where the sources hold
declarations only: the expansion of macros by `PreprocessFile` and the validity
check of the parse cache.

Conventions of the embedding.

* A `std::string` is a `List Char`; a `std::vector` is a `List`.
* `unsigned int` values are natural numbers.  The unsigned subtractions whose
  result can wrap (`m_toLine - m_fromLine`, `m_toLine - fromLine`, and the
  line arithmetic of the directives) are `sub32`, a subtraction modulo
  `2 ^ 32`.  The other additions are plain: a text is taken to have fewer than
  `2 ^ 32 - 1` lines and characters.
* An access `v[i]` outside the bounds of a vector is undefined behaviour in
  the source; the embedding ends with `Outcome.fault` there.
* The two loops of the split whose termination is not structural take a fuel
  argument; `Outcome.outOfFuel` is the result when it runs out.
* Collaborators whose code is not part of the sources (symbol table, file
  system, `StringUtils`) are the fields of `Env`.
-/

namespace Surelog

/-! ## Characters and strings -/

/-- The double quote character. -/
def dquote : Char := Char.ofNat 34

/-- The backslash character. -/
def backslash : Char := Char.ofNat 92

/-- The carriage return character. -/
def carriageReturn : Char := Char.ofNat 13

/-- The line feed character. -/
def lineFeed : Char := Char.ofNat 10

/-- Subtraction of two `unsigned int` values: the result wraps modulo `2 ^ 32`. -/
def sub32 (a b : Nat) : Nat := (a + 2 ^ 32 - b % 2 ^ 32) % 2 ^ 32

/-- The test `islower(c) || isupper(c) || c == '_'` of the keyword scan. -/
def isIdentChar (c : Char) : Bool := c.isLower || c.isUpper || c == '_'

/-- The rest of `s` after the leading `p`, when `s` starts with `p`. -/
def dropLeading : List Char → List Char → Option (List Char)
  | [], s => some s
  | _ :: _, [] => none
  | p :: ps, c :: cs => if p = c then dropLeading ps cs else none

/-- Whether `p` occurs in `s` (`std::string::find(p) != npos`). -/
def containsSub (p : List Char) : List Char → Bool
  | [] => p.isEmpty
  | c :: cs => (dropLeading p (c :: cs)).isSome || containsSub p cs

/-- The character class `[a-zA-Z_0-9:\*]` of `import_regex`. -/
def isImportNameChar (c : Char) : Bool :=
  c.isLower || c.isUpper || c == '_' || c.isDigit || c == ':' || c == '*'

/-- Whether `import_regex`, that is `import[ ]+[a-zA-Z_0-9:\*]+[ ]*;`, matches
at the very start of `s`.  The three repetitions are over disjoint character
sets, so the match is the greedy one. -/
def importMatchAt (s : List Char) : Bool :=
  match dropLeading "import".toList s with
  | none => false
  | some r =>
    let r1 := r.dropWhile (fun c => c == ' ')
    let r2 := r1.dropWhile isImportNameChar
    let r3 := r2.dropWhile (fun c => c == ' ')
    decide (r1.length < r.length) && decide (r2.length < r1.length) &&
      (match r3 with
       | c :: _ => c == ';'
       | [] => false)

/-- The call `std::regex_search(line, pieces_match, import_regex)`. -/
def importSearch : List Char → Bool
  | [] => false
  | c :: cs => importMatchAt (c :: cs) || importSearch cs

/-- The lines `std::getline` reads from a text: the pieces between line feeds;
a text that ends in a line feed has no empty last line. -/
def getLinesAux : List Char → List Char → List (List Char)
  | [], [] => []
  | [], c :: cur => [(c :: cur).reverse]
  | x :: xs, cur =>
    if x = lineFeed then cur.reverse :: getLinesAux xs [] else getLinesAux xs (x :: cur)

/-- Removes the trailing carriage returns and line feeds of a line
(source lines 110-113). -/
def stripEol (line : List Char) : List Char :=
  (line.reverse.dropWhile (fun c => c == carriageReturn || c == lineFeed)).reverse

/-! ## Data model -/

/-- The construct kinds of `DesignElement::ElemType` that the scan records. -/
inductive ElemType where
  | Package | Module | Class | Interface | Program | Config | Checker | Primitive
  deriving DecidableEq, Repr

/-- A `FileChunk`: kind and extents of a recorded construct. -/
structure FileChunk where
  m_chunkType : ElemType
  m_fromLine : Nat
  m_toLine : Nat
  m_startChar : Nat
  m_endChar : Nat
  deriving DecidableEq, Repr

abbrev SymbolId := Nat
abbrev PathId := Nat

/-- The invalid symbol id. -/
def BadSymbolId : SymbolId := 0

/-- The invalid path id. -/
def BadPathId : PathId := 0

/-- The `IncludeFileInfo::Context` enumeration. -/
inductive Context where
  | NONE | INCLUDE | MACRO
  deriving DecidableEq, Repr

/-- The `IncludeFileInfo::Action` enumeration. -/
inductive Action where
  | NONE | PUSH | POP
  deriving DecidableEq, Repr

/-- An `IncludeFileInfo`, with the fields in the order of its constructor (the
order of `PreprocessFile::addIncludeFileInfo`). -/
structure IncludeFileInfo where
  m_context : Context
  m_sectionStartLine : Nat
  m_sectionSymbolId : SymbolId
  m_sectionFileId : PathId
  m_originalStartLine : Nat
  m_originalStartColumn : Nat
  m_originalEndLine : Nat
  m_originalEndColumn : Nat
  m_action : Action
  deriving DecidableEq, Repr

/-- The collaborators of `AnalyzeFile` whose code is not part of the sources. -/
structure Env where
  /-- `SymbolTable::getSymbol` -/
  getSymbol : SymbolId → List Char
  /-- `SymbolTable::registerSymbol` -/
  registerSymbol : List Char → SymbolId
  /-- `FileSystem::toPath` -/
  toPath : PathId → List Char
  /-- `FileSystem::toPathId` -/
  toPathId : List Char → PathId
  /-- `FileSystem::getChunkFile` -/
  getChunkFile : PathId → Nat → PathId
  /-- `FileSystem::readLines`: the lines of a file -/
  readLines : PathId → List (List Char)
  /-- `StringUtils::unquoted` -/
  unquoted : List Char → List Char
  /-- `StringUtils::tokenize` -/
  tokenize : List Char → List Char → List (List Char)
  /-- The numeric value of `IncludeFileInfo::Action::PUSH` -/
  actionPush : Nat
  /-- The numeric value of `IncludeFileInfo::Action::POP` -/
  actionPop : Nat

/-! ## The provenance stack: `SLline` directives -/

/-- The test of `isspace` in the "C" locale, which delimits the tokens read by
`operator>>`. -/
def isSpaceChar (c : Char) : Bool :=
  c == ' ' || (9 ≤ c.toNat && c.toNat ≤ 13)

/-- A `std::stringstream` being read: what is left of its text, and whether an
extraction has failed (after which every extraction fails). -/
structure IStream where
  rest : List Char
  failed : Bool
  deriving DecidableEq, Repr

/-- The extraction `ss >> word` of a `std::string`: skips white space and reads
up to the next white space.  Nothing is read from a failed or exhausted
stream, and the (empty) target string stays as it is. -/
def IStream.readWord (ss : IStream) : List Char × IStream :=
  if ss.failed then ([], ss)
  else
    let r := ss.rest.dropWhile isSpaceChar
    let w := r.takeWhile (fun c => !isSpaceChar c)
    if w.isEmpty then ([], { rest := [], failed := true })
    else (w, { rest := r.dropWhile (fun c => !isSpaceChar c), failed := false })

/-- The value of a run of decimal digits, most significant first. -/
def digitsValue (ds : List Char) : Nat :=
  ds.foldl (fun acc d => 10 * acc + (d.toNat - '0'.toNat)) 0

/-- The extraction `ss >> n` of an `unsigned int` that is `0` before the
extraction: skips white space, reads an optional sign and decimal digits.
Without a digit the extraction fails and `n` is `0`; a value that does not fit
gives the largest `unsigned int` and fails; a negated value wraps. -/
def IStream.readUnsigned (ss : IStream) : Nat × IStream :=
  if ss.failed then (0, ss)
  else
    let r := ss.rest.dropWhile isSpaceChar
    let negative := (match r with
      | c :: _ => c == '-'
      | [] => false)
    let r1 := (match r with
      | c :: cs => if c == '-' || c == '+' then cs else c :: cs
      | [] => [])
    let ds := r1.takeWhile Char.isDigit
    let r2 := r1.dropWhile Char.isDigit
    if ds.isEmpty then (0, { rest := r2, failed := true })
    else
      let v := digitsValue ds
      if 2 ^ 32 ≤ v then (2 ^ 32 - 1, { rest := r2, failed := true })
      else (if negative then sub32 0 v else v, { rest := r2, failed := false })

/-- The method `AnalyzeFile::checkSLlineDirective_` (source lines 36-78), on the
stack `m_includeFileInfo` (top first).  `none` is the out-of-range access
`parts[0]` or `parts[1]`. -/
def checkSLlineDirective_ (env : Env) (stack : List IncludeFileInfo) (line : List Char)
    (lineNb : Nat) : Option (List IncludeFileInfo) :=
  let (keyword, ss1) := IStream.readWord { rest := line, failed := false }
  if keyword = "SLline".toList then
    let (sectionStartLine, ss2) := ss1.readUnsigned
    let (text0, ss3) := ss2.readWord
    let text := env.unquoted text0
    match env.tokenize text "^".toList with
    | p0 :: p1 :: _ =>
      let symbol := env.unquoted p0
      let file := env.unquoted p1
      let info : IncludeFileInfo :=
        { m_context := Context.NONE, m_sectionStartLine := sectionStartLine,
          m_sectionSymbolId := env.registerSymbol symbol,
          m_sectionFileId := env.toPathId file,
          m_originalStartLine := 0, m_originalStartColumn := 0,
          m_originalEndLine := 0, m_originalEndColumn := 0, m_action := Action.NONE }
      let (action, _) := ss3.readUnsigned
      if action = env.actionPush then
        some ({ info with m_originalStartLine := lineNb, m_action := Action.PUSH } :: stack)
      else if action = env.actionPop then
        match stack.tail with
        | [] => some []
        | top :: below =>
          some ({ top with
                  m_sectionSymbolId := info.m_sectionSymbolId
                  m_sectionFileId := info.m_sectionFileId
                  m_originalStartLine := lineNb
                  m_sectionStartLine := sub32 info.m_sectionStartLine 1
                  m_action := Action.POP } :: below)
      else some stack
    | _ => none
  else some stack

/-- The method `AnalyzeFile::setSLlineDirective_` (source lines 80-95). -/
def setSLlineDirective_ (env : Env) (stack : List IncludeFileInfo) (lineNb : Nat) :
    List Char :=
  match stack with
  | info :: _ =>
    let origFromLine := (sub32 lineNb info.m_originalStartLine + info.m_sectionStartLine) % 2 ^ 32
    "SLline ".toList ++ Nat.toDigits 10 origFromLine ++ " ".toList ++
      env.getSymbol info.m_sectionSymbolId ++ "^".toList ++
      env.toPath info.m_sectionFileId ++ " 1".toList ++ [lineFeed]
  | [] => []

/-! ## The keyword scan of `AnalyzeFile::analyze` -/

/-- The local variables of the scan (source lines 120-146), and the package
names handed to `Design::addOrderedPackage`, in call order. -/
structure ScanState where
  fileChunks : List FileChunk := []
  inPackage : Bool := false
  inClass : Int := 0
  inModule : Int := 0
  inProgram : Bool := false
  inInterface : Int := 0
  inConfig : Bool := false
  inChecker : Bool := false
  inPrimitive : Bool := false
  inComment : Bool := false
  inString : Bool := false
  lineNb : Nat := 0
  charNb : Nat := 0
  startLine : Nat := 0
  startChar : Nat := 0
  indexPackage : Nat := 0
  indexModule : Nat := 0
  nbPackage : Int := 0
  nbClass : Int := 0
  nbModule : Int := 0
  nbProgram : Int := 0
  nbInterface : Int := 0
  nbConfig : Int := 0
  nbChecker : Int := 0
  nbPrimitive : Int := 0
  prev_keyword : List Char := []
  prev_prev_keyword : List Char := []
  fileLevelImportSection : List Char := []
  orderedPackages : List (List Char) := []
  deriving DecidableEq, Repr

/-- The variables declared anew for every line (source lines 149-153). -/
structure LineState where
  inLineComment : Bool := false
  cp : Char := Char.ofNat 0
  keyword : List Char := []
  deriving DecidableEq, Repr

/-- The assignments `fileChunks[idx].m_toLine = lineNb; fileChunks[idx].m_endChar = charNb`. -/
def closeChunk : List FileChunk → Nat → Nat → Nat → List FileChunk
  | [], _, _, _ => []
  | c :: cs, 0, lineNb, charNb => { c with m_toLine := lineNb, m_endChar := charNb } :: cs
  | c :: cs, idx + 1, lineNb, charNb => c :: closeChunk cs idx lineNb charNb

/-- The package name read after the keyword (source lines 179-183): the
characters up to the first `;` or `:`, without the spaces. -/
def packageNameOf : List Char → List Char
  | [] => []
  | c :: cs =>
    if c = ';' then []
    else if c = ':' then []
    else if c ≠ ' ' then c :: packageNameOf cs
    else packageNameOf cs

/-- The update of the comment and string flags for the character `c`
(source lines 157-165). -/
def commentStep (c : Char) (s : ScanState) (ls : LineState) : ScanState × LineState :=
  if ls.cp == '/' && c == '*' then
    (if !ls.inLineComment then { s with inComment := true } else s, ls)
  else if ls.cp == '/' && c == '/' then
    (s, if !s.inComment && !s.inString then { ls with inLineComment := true } else ls)
  else if ls.cp == '*' && c == '/' then
    ({ s with inComment := false }, ls)
  else if ls.cp != backslash && c == dquote then
    (if !ls.inLineComment && !s.inComment then { s with inString := !s.inString } else s, ls)
  else (s, ls)

/-- Source lines 176-192: the keyword `package`.  `c` is `line[i]` and `after`
the characters of the line behind it. -/
def onPackage (kw : List Char) (c : Char) (after : List Char) (s : ScanState) : ScanState :=
  if kw = "package".toList then
    let packageName := if c = ' ' then packageNameOf after else []
    let chunks := s.fileChunks ++
      [{ m_chunkType := ElemType.Package, m_fromLine := s.lineNb, m_toLine := 0,
         m_startChar := s.charNb, m_endChar := 0 }]
    { s with
      orderedPackages :=
        if packageName.isEmpty then s.orderedPackages else s.orderedPackages ++ [packageName]
      inPackage := true
      startLine := s.lineNb
      startChar := s.charNb
      fileChunks := chunks
      indexPackage := chunks.length - 1 }
  else s

/-- Source lines 193-205: the keyword `endpackage`. -/
def onEndpackage (kw : List Char) (s : ScanState) : ScanState :=
  if kw = "endpackage".toList then
    let s1 := if s.inPackage then
        { s with fileChunks := closeChunk s.fileChunks s.indexPackage s.lineNb s.charNb
                 nbPackage := s.nbPackage + 1 }
      else s
    { s1 with inPackage := false }
  else s

/-- Source lines 206-215: the keyword `module`. -/
def onModule (kw : List Char) (s : ScanState) : ScanState :=
  if kw = "module".toList then
    let s1 := if s.inModule = 0 then
        let chunks := s.fileChunks ++
          [{ m_chunkType := ElemType.Module, m_fromLine := s.lineNb, m_toLine := 0,
             m_startChar := s.charNb, m_endChar := 0 }]
        { s with startLine := s.lineNb, startChar := s.charNb, fileChunks := chunks
                 indexModule := chunks.length - 1 }
      else s
    { s1 with inModule := s1.inModule + 1 }
  else s

/-- Source lines 216-223: the keyword `endmodule`. -/
def onEndmodule (kw : List Char) (s : ScanState) : ScanState :=
  if kw = "endmodule".toList then
    let s1 := if s.inModule = 1 then
        { s with fileChunks := closeChunk s.fileChunks s.indexModule s.lineNb s.charNb
                 nbModule := s.nbModule + 1 }
      else s
    { s1 with inModule := s1.inModule - 1 }
  else s

/-- Source lines 270-276: the keyword `class`, unless it follows `typedef`. -/
def onClass (kw : List Char) (s : ScanState) : ScanState :=
  if kw = "class".toList ∧ s.prev_keyword ≠ "typedef".toList then
    let s1 := if s.inClass = 0 then { s with startLine := s.lineNb, startChar := s.charNb }
      else s
    { s1 with inClass := s1.inClass + 1 }
  else s

/-- The chunk `(kind, startLine, lineNb, startChar, charNb)` appended when a
construct other than a package or a module closes. -/
def pushChunk (kind : ElemType) (s : ScanState) : List FileChunk :=
  s.fileChunks ++
    [{ m_chunkType := kind, m_fromLine := s.startLine, m_toLine := s.lineNb,
       m_startChar := s.startChar, m_endChar := s.charNb }]

/-- Source lines 277-284: the keyword `endclass`. -/
def onEndclass (kw : List Char) (s : ScanState) : ScanState :=
  if kw = "endclass".toList then
    let s1 := if s.inClass = 1 then
        { s with fileChunks := pushChunk ElemType.Class s, nbClass := s.nbClass + 1 }
      else s
    { s1 with inClass := s1.inClass - 1 }
  else s

/-- Source lines 285-291: the keyword `interface`. -/
def onInterface (kw : List Char) (s : ScanState) : ScanState :=
  if kw = "interface".toList then
    let s1 := if s.inInterface = 0 then
        { s with startLine := s.lineNb, startChar := s.charNb }
      else s
    { s1 with inInterface := s1.inInterface + 1 }
  else s

/-- Source lines 292-299: the keyword `endinterface`. -/
def onEndinterface (kw : List Char) (s : ScanState) : ScanState :=
  if kw = "endinterface".toList then
    let s1 := if s.inInterface = 1 then
        { s with fileChunks := pushChunk ElemType.Interface s
                 nbInterface := s.nbInterface + 1 }
      else s
    { s1 with inInterface := s1.inInterface - 1 }
  else s

/-- Source lines 300-304: the keyword `config`. -/
def onConfig (kw : List Char) (s : ScanState) : ScanState :=
  if kw = "config".toList then
    { s with startLine := s.lineNb, startChar := s.charNb, inConfig := true }
  else s

/-- Source lines 305-312: the keyword `endconfig`. -/
def onEndconfig (kw : List Char) (s : ScanState) : ScanState :=
  if kw = "endconfig".toList then
    let s1 := if s.inConfig then
        { s with fileChunks := pushChunk ElemType.Config s, nbConfig := s.nbConfig + 1 }
      else s
    { s1 with inConfig := false }
  else s

/-- Source lines 313-317: the keyword `checker`. -/
def onChecker (kw : List Char) (s : ScanState) : ScanState :=
  if kw = "checker".toList then
    { s with startLine := s.lineNb, startChar := s.charNb, inChecker := true }
  else s

/-- Source lines 318-325: the keyword `endchecker`. -/
def onEndchecker (kw : List Char) (s : ScanState) : ScanState :=
  if kw = "endchecker".toList then
    let s1 := if s.inChecker then
        { s with fileChunks := pushChunk ElemType.Checker s, nbChecker := s.nbChecker + 1 }
      else s
    { s1 with inChecker := false }
  else s

/-- Source lines 326-330: the keyword `program`. -/
def onProgram (kw : List Char) (s : ScanState) : ScanState :=
  if kw = "program".toList then
    { s with startLine := s.lineNb, startChar := s.charNb, inProgram := true }
  else s

/-- Source lines 331-338: the keyword `endprogram`. -/
def onEndprogram (kw : List Char) (s : ScanState) : ScanState :=
  if kw = "endprogram".toList then
    let s1 := if s.inProgram then
        { s with fileChunks := pushChunk ElemType.Program s, nbProgram := s.nbProgram + 1 }
      else s
    { s1 with inProgram := false }
  else s

/-- Source lines 339-343: the keyword `primitive`. -/
def onPrimitive (kw : List Char) (s : ScanState) : ScanState :=
  if kw = "primitive".toList then
    { s with startLine := s.lineNb, startChar := s.charNb, inPrimitive := true }
  else s

/-- Source lines 344-351: the keyword `endprimitive`. -/
def onEndprimitive (kw : List Char) (s : ScanState) : ScanState :=
  if kw = "endprimitive".toList then
    let s1 := if s.inPrimitive then
        { s with fileChunks := pushChunk ElemType.Primitive s
                 nbPrimitive := s.nbPrimitive + 1 }
      else s
    { s1 with inPrimitive := false }
  else s

/-- Source lines 352-357: the keyword is remembered as the previous one. -/
def rememberKeyword (kw : List Char) (s : ScanState) : ScanState :=
  if kw.isEmpty then s
  else
    { s with
      prev_prev_keyword := if s.prev_keyword.isEmpty then s.prev_prev_keyword else s.prev_keyword
      prev_keyword := kw }

/-- Source lines 176-357 in their order: what the scan does with the word `kw`
that ends at the character `c`. -/
def keywordActions (kw : List Char) (c : Char) (after : List Char) (s : ScanState) :
    ScanState :=
  let s := onPackage kw c after s
  let s := onEndpackage kw s
  let s := onModule kw s
  let s := onEndmodule kw s
  let s := onClass kw s
  let s := onEndclass kw s
  let s := onInterface kw s
  let s := onEndinterface kw s
  let s := onConfig kw s
  let s := onEndconfig kw s
  let s := onChecker kw s
  let s := onEndchecker kw s
  let s := onProgram kw s
  let s := onEndprogram kw s
  let s := onPrimitive kw s
  let s := onEndprimitive kw s
  rememberKeyword kw s

/-- One turn of the character loop (source lines 154-362) for the character `c`
followed in its line by `after`. -/
def scanChar (c : Char) (after : List Char) (s : ScanState) (ls : LineState) :
    ScanState × LineState :=
  let s := { s with charNb := s.charNb + 1 }
  let (s, ls) := commentStep c s ls
  let (s, ls) :=
    if !s.inComment && !ls.inLineComment && !s.inString then
      if isIdentChar c && !after.isEmpty then
        (s, { ls with keyword := ls.keyword ++ [c] })
      else
        let kw := if isIdentChar c && after.isEmpty then ls.keyword ++ [c] else ls.keyword
        (keywordActions kw c after s, { ls with keyword := [] })
    else (s, ls)
  (s, { ls with cp := c })

/-- The character loop over (the rest of) a line. -/
def scanChars : List Char → ScanState → LineState → ScanState × LineState
  | [], s, ls => (s, ls)
  | c :: after, s, ls =>
    let r := scanChar c after s ls
    scanChars after r.1 r.2

/-- One turn of the line loop (source lines 148-371). -/
def scanLine (s : ScanState) (line : List Char) : ScanState :=
  let s := { s with lineNb := s.lineNb + 1 }
  let s := (scanChars line s {}).1
  if !s.inPackage && s.inClass == 0 && s.inModule == 0 && !s.inProgram &&
      s.inInterface == 0 && !s.inConfig && !s.inChecker && !s.inPrimitive &&
      !s.inComment && !s.inString then
    if importSearch line then
      { s with fileLevelImportSection := s.fileLevelImportSection ++ line }
    else s
  else s

/-- The scan of all lines, the filler line included (source line 148 iterates
over the whole of `allLines`). -/
def scan (allLines : List (List Char)) : ScanState :=
  allLines.foldl scanLine {}

/-- The vector `allLines` (source lines 102-116): the filler line, then the
lines of the text, or the lines of the preprocessed file when there is no text. -/
def mkAllLines (env : Env) (m_ppFileId : PathId) (m_text : List Char) : List (List Char) :=
  "FILLER LINE".toList ::
    (if m_text.isEmpty then env.readLines m_ppFileId
     else (getLinesAux m_text []).map stripEol)

/-! ## The gate and the split of `AnalyzeFile::analyze` -/

/-- The error definitions reported by `AnalyzeFile`. -/
inductive ErrorDefinition where
  | PA_CANNOT_SPLIT_FILE
  deriving DecidableEq, Repr

/-- One call `fileSystem->writeContent(splitFileId, content)`, together with
the line range `[fromLine, toLine)` of `allLines` that was copied into it and
the value `splitted` had when the content was begun (`false` outside the loop
that breaks up a package or module). -/
structure Fragment where
  file : PathId
  content : List Char
  fromLine : Nat
  toLine : Nat
  splitted : Bool
  deriving DecidableEq, Repr

/-- What `AnalyzeFile::analyze` is given: the members set by the constructor and
the two command line options it reads. -/
structure Config where
  m_ppFileId : PathId
  m_fileId : PathId
  m_nbChunks : Nat
  m_text : List Char
  /-- `m_clp->getNbLinesForFileSpliting()` -/
  nbLinesForFileSpliting : Nat
  /-- `m_clp->getNbMaxProcesses()` -/
  nbMaxProcesses : Nat

/-- The members `analyze` changes, and what it hands to its collaborators: the
chunk files written, the errors reported, the packages registered. -/
structure Analyzer where
  m_splitFiles : List PathId := []
  m_lineOffsets : List Nat := []
  /-- The stack `m_includeFileInfo`, top first. -/
  m_includeFileInfo : List IncludeFileInfo := []
  written : List Fragment := []
  errors : List (ErrorDefinition × PathId) := []
  orderedPackages : List (List Char) := []
  deriving DecidableEq, Repr

/-- The ways a run of `analyze` ends. -/
inductive Outcome where
  /-- The return of source line 379: the text is handed over whole. -/
  | whole (a : Analyzer)
  /-- The split loop ran to its end (source line 678). -/
  | split (a : Analyzer)
  /-- One of the returns that report `PA_CANNOT_SPLIT_FILE`. -/
  | cannotSplit (a : Analyzer)
  /-- An access outside the bounds of a vector. -/
  | fault
  /-- The fuel of a loop of the embedding ran out. -/
  | outOfFuel
  deriving DecidableEq, Repr

/-- What is fixed during the split. -/
structure SplitCtx where
  env : Env
  m_ppFileId : PathId
  m_fileId : PathId
  allLines : List (List Char)
  fileChunks : List FileChunk
  chunkSize : Nat
  fileLevelImportSection : List Char

/-- The local variables of the split loop (source lines 395-403) and the
analyzer. -/
structure SplitState where
  i : Nat
  fromLine : Nat
  toIndex : Nat
  chunkNb : Nat
  linesWriten : Nat
  a : Analyzer
  deriving DecidableEq, Repr

/-- How one turn of the split loop ends. -/
inductive Step where
  | next (s : SplitState)
  | cannotSplit (a : Analyzer)
  | fault
  | outOfFuel
  deriving DecidableEq, Repr

/-- The error return (for instance source lines 531-537): both lists are
cleared and `PA_CANNOT_SPLIT_FILE` is reported at the file. -/
def reportCannotSplit (m_fileId : PathId) (a : Analyzer) : Analyzer :=
  { a with m_splitFiles := [], m_lineOffsets := []
           errors := a.errors ++ [(ErrorDefinition.PA_CANNOT_SPLIT_FILE, m_fileId)] }

/-- What the plain copy loops carry along. -/
structure CopyState where
  content : List Char
  stack : List IncludeFileInfo
  linesWriten : Nat
  deriving DecidableEq, Repr

/-- The copy loop of source lines 582-589 and 648-655, for the `n` lines from
`l` on; `none` is an access outside `allLines` or outside the parts of an
`SLline` line. -/
def copyPlain (env : Env) (allLines : List (List Char)) (toLine : Nat) :
    Nat → Nat → CopyState → Option CopyState
  | 0, _, cs => some cs
  | n + 1, l, cs =>
    match allLines[l]? with
    | none => none
    | some line =>
      match checkSLlineDirective_ env cs.stack line l with
      | none => none
      | some stack =>
        copyPlain env allLines toLine n (l + 1)
          { content := cs.content ++ line ++ (if l ≠ toLine - 1 then [lineFeed] else [])
            stack := stack
            linesWriten := cs.linesWriten + 1 }

/-- The variables of the scan for the closing keyword that live across the
lines of one fragment (source lines 470-471), and `endPackageDetected`. -/
structure CloserState where
  inString : Bool := false
  inComment : Bool := false
  endPackageDetected : Bool := false
  deriving DecidableEq, Repr

/-- The variables of the scan for the closing keyword declared for every line
(source lines 480, 491, 492). -/
structure CloserLine where
  inLineComment : Bool := false
  cp : Char := Char.ofNat 0
  keyword : List Char := []
  deriving DecidableEq, Repr

/-- One turn of the character loop of source lines 493-509. -/
def closerChar (st : CloserState × CloserLine) (c : Char) : CloserState × CloserLine :=
  let (s, ls) := st
  let (s, ls) :=
    if ls.cp == '/' && c == '*' then
      (if !ls.inLineComment then { s with inComment := true } else s, ls)
    else if ls.cp == '/' && c == '/' then
      (s, if !s.inComment then { ls with inLineComment := true } else ls)
    else if ls.cp == '*' && c == '/' then
      ({ s with inComment := false }, ls)
    else if ls.cp != backslash && c == dquote then
      (if !ls.inLineComment && !s.inComment then { s with inString := !s.inString } else s, ls)
    else (s, ls)
  let ls :=
    if !s.inComment && !ls.inLineComment && !s.inString then
      if c.isAlpha || c == '_' then { ls with keyword := ls.keyword ++ [c] } else ls
    else ls
  (s, { ls with cp := c })

/-- Source lines 491-515 for one line: the letters and underscores of the line
outside comments and strings are gathered into one word, which is compared with
the closing keyword of the construct. -/
def closerLine (chunkType : ElemType) (s : CloserState) (line : List Char) : CloserState :=
  let r := line.foldl closerChar (s, {})
  let s := r.1
  let keyword := r.2.keyword
  let s := if chunkType = ElemType.Package ∧ keyword = "endpackage".toList then
      { s with endPackageDetected := true } else s
  if chunkType = ElemType.Module ∧ keyword = "endmodule".toList then
    { s with endPackageDetected := true } else s

/-- What the copy loop of a split package or module carries along. -/
structure BigCopyState where
  content : List Char
  stack : List IncludeFileInfo
  linesWriten : Nat
  actualContent : Bool
  closer : CloserState
  deriving DecidableEq, Repr

/-- The copy loop of source lines 476-516, for the `n` lines from `l` on.
`headerLine` is `fileChunks[i].m_fromLine`. -/
def copyBig (env : Env) (allLines : List (List Char)) (chunkType : ElemType)
    (importSection : List Char) (headerLine toLine : Nat) :
    Nat → Nat → BigCopyState → Option BigCopyState
  | 0, _, cs => some cs
  | n + 1, l, cs =>
    match allLines[l]? with
    | none => none
    | some line =>
      match checkSLlineDirective_ env cs.stack line l with
      | none => none
      | some stack =>
        copyBig env allLines chunkType importSection headerLine toLine n (l + 1)
          { content := cs.content ++ line ++
              (if l = headerLine then "  ".toList ++ importSection else []) ++
              (if l ≠ toLine - 1 then [lineFeed] else [])
            stack := stack
            linesWriten := cs.linesWriten + 1
            actualContent := true
            closer := closerLine chunkType cs.closer line }

/-- The loop of source lines 413-419: the lines `[hi, hi + n)` that hold an
import, concatenated. -/
def importSectionOf (allLines : List (List Char)) : Nat → Nat → List Char → Option (List Char)
  | 0, _, acc => some acc
  | n + 1, hi, acc =>
    match allLines[hi]? with
    | none => none
    | some header =>
      importSectionOf allLines n (hi + 1) (if importSearch header then acc ++ header else acc)

/-- The search loop of source lines 431-448 from index `j` on, over the chunks
from `j` on: the result is `(finishPackage, toIndex)`. -/
def findBig (packagelastLine fromLine chunkSize size : Nat) :
    List FileChunk → Nat → Nat → Bool × Nat
  | [], _, toIndex => (false, toIndex)
  | c :: cs, j, _ =>
    if c.m_fromLine > packagelastLine then (true, j - 1)
    else if sub32 c.m_toLine fromLine ≥ chunkSize then (false, j)
    else if j = size - 1 then (false, j)
    else findBig packagelastLine fromLine chunkSize size cs (j + 1) j

/-- The search loop of source lines 607-616 from index `j` on: the new `toIndex`. -/
def findSmall (packagelastLine size : Nat) : List FileChunk → Nat → Nat → Nat
  | [], _, toIndex => toIndex
  | c :: cs, j, toIndex =>
    if c.m_toLine > packagelastLine then toIndex
    else if j = size - 1 then j
    else findSmall packagelastLine size cs (j + 1) j

/-- The search loop of source lines 624-637 from index `j` on: the new `toIndex`. -/
def findClass (fromLine chunkSize size : Nat) : List FileChunk → Nat → Nat → Nat
  | [], _, toIndex => toIndex
  | c :: cs, j, toIndex =>
    if c.m_chunkType = ElemType.Package then toIndex
    else if sub32 c.m_toLine fromLine ≥ chunkSize then j
    else if j = size - 1 then j
    else findClass fromLine chunkSize size cs (j + 1) j

/-- What is fixed while one package or module is broken up (source lines
409-419): its kind, last line, the line repeated at the head of the later
fragments, and its import section. -/
structure BigCtx where
  chunkType : ElemType
  packagelastLine : Nat
  packageDeclaration : List Char
  importSection : List Char

/-- The variables of the loop that breaks up a package or module (source lines
422-424) and those of the split loop. -/
structure BigState where
  splitted : Bool
  endPackageDetected : Bool
  sllineInfo : List Char
  s : SplitState
  deriving DecidableEq, Repr

/-- How one turn of the loop that breaks up a package or module ends. -/
inductive BigStep where
  /-- The end of the loop body is reached. -/
  | again (b : BigState)
  /-- The `break` of source line 554. -/
  | leave (s : SplitState)
  | cannotSplit (a : Analyzer)
  | fault
  deriving DecidableEq, Repr

/-- The synthetic closer of source lines 520-525. -/
def syntheticCloser (chunkType : ElemType) (endPackageDetected : Bool) : List Char :=
  (if chunkType = ElemType.Package ∧ endPackageDetected = false then
    "  endpackage  ".toList else []) ++
  (if chunkType = ElemType.Module ∧ endPackageDetected = false then
    "  endmodule  ".toList else [])

/-- The search of source lines 430-451 for the last chunk of the next
fragment: `(finishPackage, toIndex)`. -/
def bigFound (ctx : SplitCtx) (bc : BigCtx) (s : SplitState) : Bool × Nat :=
  let size := ctx.fileChunks.length
  let hitLimit := (ctx.fileChunks.drop (s.i + 1)).isEmpty
  let found := findBig bc.packagelastLine s.fromLine ctx.chunkSize size
    (ctx.fileChunks.drop (s.i + 1)) (s.i + 1) s.toIndex
  (found.1, if hitLimit then size - 1 else found.2)

/-- Source lines 452-458: the line the next fragment of a package or module
stops before. -/
def bigToLine (ctx : SplitCtx) (bc : BigCtx) (finishPackage : Bool) (toIndex : Nat)
    (toChunk : FileChunk) : Nat :=
  let toLine := toChunk.m_toLine + 1
  let toLine := if finishPackage then bc.packagelastLine + 1 else toLine
  if toIndex = ctx.fileChunks.length - 1 then ctx.allLines.length else toLine

/-- Source lines 460-468: the directive at the head of the next fragment, the
one of the fragment before when `splitted` holds. -/
def bigDirective (ctx : SplitCtx) (b : BigState) : List Char :=
  if b.splitted then b.sllineInfo
  else setSLlineDirective_ ctx.env b.s.a.m_includeFileInfo b.s.fromLine

/-- Source lines 460-468: the content the next fragment begins with. -/
def bigHead (ctx : SplitCtx) (bc : BigCtx) (b : BigState) : List Char :=
  if b.splitted then
    bigDirective ctx b ++ (bc.packageDeclaration ++ "  ".toList ++ bc.importSection)
  else bigDirective ctx b

/-- Source lines 518-528 and 539: the content of a fragment of a package or
module after the copy loop. -/
def bigContent (ctx : SplitCtx) (bc : BigCtx) (cs : BigCopyState) : List Char :=
  (if cs.actualContent then
    cs.content ++ syntheticCloser bc.chunkType cs.closer.endPackageDetected
   else cs.content) ++ ("  ".toList ++ ctx.fileLevelImportSection)

/-- Source lines 541-552: the state after the fragment `[s.fromLine, toLine)` of
a package or module is written. -/
def bigAfter (ctx : SplitCtx) (bc : BigCtx) (b : BigState) (finishPackage : Bool)
    (toIndex : Nat) (toChunk : FileChunk) (cs : BigCopyState) : SplitState :=
  let toLine := bigToLine ctx bc finishPackage toIndex toChunk
  { i := toIndex
    fromLine := if finishPackage then toLine else toChunk.m_toLine + 1
    toIndex := toIndex
    chunkNb := b.s.chunkNb + 1
    linesWriten := cs.linesWriten
    a := { b.s.a with
           m_lineOffsets := b.s.a.m_lineOffsets ++ [b.s.linesWriten]
           m_includeFileInfo := cs.stack
           written := b.s.a.written ++
             [{ file := ctx.env.getChunkFile ctx.m_ppFileId b.s.chunkNb
                content := bigContent ctx bc cs
                fromLine := b.s.fromLine, toLine := toLine, splitted := b.splitted }]
           m_splitFiles := b.s.a.m_splitFiles ++
             [ctx.env.getChunkFile ctx.m_ppFileId b.s.chunkNb] } }

/-- One turn of the loop of source lines 426-556. -/
def bigIter (ctx : SplitCtx) (bc : BigCtx) (b : BigState) : BigStep :=
  let finishPackage := (bigFound ctx bc b.s).1
  let toIndex := (bigFound ctx bc b.s).2
  match ctx.fileChunks[toIndex]? with
  | none => BigStep.fault
  | some toChunk =>
    let toLine := bigToLine ctx bc finishPackage toIndex toChunk
    match ctx.fileChunks[b.s.i]? with
    | none => BigStep.fault
    | some iChunk =>
      match copyBig ctx.env ctx.allLines bc.chunkType bc.importSection iChunk.m_fromLine toLine
          (toLine - b.s.fromLine) b.s.fromLine
          { content := bigHead ctx bc b, stack := b.s.a.m_includeFileInfo
            linesWriten := b.s.linesWriten, actualContent := false
            closer := { inString := false, inComment := false
                        endPackageDetected := b.endPackageDetected } } with
      | none => BigStep.fault
      | some cs =>
        if b.s.chunkNb > 1000 then
          BigStep.cannotSplit (reportCannotSplit ctx.m_fileId
            { b.s.a with m_lineOffsets := b.s.a.m_lineOffsets ++ [b.s.linesWriten]
                         m_includeFileInfo := cs.stack })
        else
          let s2 := bigAfter ctx bc b finishPackage toIndex toChunk cs
          if s2.i ≥ ctx.fileChunks.length - 1 then BigStep.leave s2
          else BigStep.again
            { splitted := cs.actualContent
              endPackageDetected := cs.closer.endPackageDetected
              sllineInfo := bigDirective ctx b, s := s2 }

/-- The loop `while (!endPackageDetected)` of source lines 426-556. -/
def bigLoop (ctx : SplitCtx) (bc : BigCtx) : Nat → BigState → Step
  | 0, _ => Step.outOfFuel
  | fuel + 1, b =>
    if b.endPackageDetected then Step.next b.s
    else
      match bigIter ctx bc b with
      | BigStep.again b1 => bigLoop ctx bc fuel b1
      | BigStep.leave s => Step.next s
      | BigStep.cannotSplit a => Step.cannotSplit a
      | BigStep.fault => Step.fault

/-- Source lines 561-564: the line looked at for an unfinished comment. -/
def smallProbe (ctx : SplitCtx) (s : SplitState) (iChunk : FileChunk) : Nat :=
  if s.i = ctx.fileChunks.length - 1 then ctx.allLines.length - 1 else iChunk.m_toLine + 1

/-- Source lines 561 and 576-578: the line the fragment of a whole package or
module stops before. -/
def smallToLine (ctx : SplitCtx) (s : SplitState) (iChunk : FileChunk) : Nat :=
  if s.i = ctx.fileChunks.length - 1 then ctx.allLines.length else iChunk.m_toLine + 1

/-- Source lines 601-619: the state after the fragment of a whole package or
module is written. -/
def smallAfter (ctx : SplitCtx) (s : SplitState) (iChunk : FileChunk) (cs : CopyState) :
    SplitState :=
  let toIndex := findSmall iChunk.m_toLine ctx.fileChunks.length
    (ctx.fileChunks.drop s.i) s.i s.toIndex
  { i := toIndex
    fromLine := iChunk.m_toLine + 1
    toIndex := toIndex
    chunkNb := s.chunkNb + 1
    linesWriten := cs.linesWriten
    a := { s.a with
           m_lineOffsets := s.a.m_lineOffsets ++ [s.linesWriten]
           m_includeFileInfo := cs.stack
           written := s.a.written ++
             [{ file := ctx.env.getChunkFile ctx.m_ppFileId s.chunkNb
                content := cs.content, fromLine := s.fromLine
                toLine := smallToLine ctx s iChunk, splitted := false }]
           m_splitFiles := s.a.m_splitFiles ++
             [ctx.env.getChunkFile ctx.m_ppFileId s.chunkNb] } }

/-- Source lines 557-620: a package or module that is not broken up goes to a
fragment of its own. -/
def smallBranch (ctx : SplitCtx) (s : SplitState) (iChunk : FileChunk) : Step :=
  match ctx.allLines[smallProbe ctx s iChunk]? with
  | none => Step.fault
  | some probe =>
    if containsSub "/*".toList probe ∧ ¬ containsSub "*/".toList probe then
      Step.cannotSplit (reportCannotSplit ctx.m_fileId s.a)
    else
      let toLine := smallToLine ctx s iChunk
      match copyPlain ctx.env ctx.allLines toLine (toLine - s.fromLine) s.fromLine
          { content := setSLlineDirective_ ctx.env s.a.m_includeFileInfo s.fromLine
            stack := s.a.m_includeFileInfo, linesWriten := s.linesWriten } with
      | none => Step.fault
      | some cs =>
        if s.chunkNb > 1000 then
          Step.cannotSplit (reportCannotSplit ctx.m_fileId
            { s.a with m_lineOffsets := s.a.m_lineOffsets ++ [s.linesWriten]
                       m_includeFileInfo := cs.stack })
        else Step.next (smallAfter ctx s iChunk cs)

/-- Source lines 624-637: the last chunk of the next fragment of classes and
other constructs. -/
def classToIndex (ctx : SplitCtx) (s : SplitState) : Nat :=
  findClass s.fromLine ctx.chunkSize ctx.fileChunks.length (ctx.fileChunks.drop s.i) s.i
    s.toIndex

/-- Source lines 640-643: the line that fragment stops before. -/
def classToLine (ctx : SplitCtx) (toIndex : Nat) (toChunk : FileChunk) : Nat :=
  if toIndex = ctx.fileChunks.length - 1 then ctx.allLines.length else toChunk.m_toLine + 1

/-- Source lines 667-675: the state after that fragment is written. -/
def classAfter (ctx : SplitCtx) (s : SplitState) (toChunk : FileChunk) (cs : CopyState) :
    SplitState :=
  { i := classToIndex ctx s
    fromLine := toChunk.m_toLine + 1
    toIndex := classToIndex ctx s
    chunkNb := s.chunkNb + 1
    linesWriten := cs.linesWriten
    a := { s.a with
           m_lineOffsets := s.a.m_lineOffsets ++ [s.linesWriten]
           m_includeFileInfo := cs.stack
           written := s.a.written ++
             [{ file := ctx.env.getChunkFile ctx.m_ppFileId s.chunkNb
                content := cs.content, fromLine := s.fromLine
                toLine := classToLine ctx (classToIndex ctx s) toChunk, splitted := false }]
           m_splitFiles := s.a.m_splitFiles ++
             [ctx.env.getChunkFile ctx.m_ppFileId s.chunkNb] } }

/-- Source lines 622-676: classes and the other constructs are gathered into
one fragment. -/
def classBranch (ctx : SplitCtx) (s : SplitState) : Step :=
  match ctx.fileChunks[classToIndex ctx s]? with
  | none => Step.fault
  | some toChunk =>
    let toLine := classToLine ctx (classToIndex ctx s) toChunk
    match copyPlain ctx.env ctx.allLines toLine (toLine - s.fromLine) s.fromLine
        { content := setSLlineDirective_ ctx.env s.a.m_includeFileInfo s.fromLine ++
            ("  ".toList ++ ctx.fileLevelImportSection)
          stack := s.a.m_includeFileInfo, linesWriten := s.linesWriten } with
    | none => Step.fault
    | some cs =>
      if s.chunkNb > 1000 then
        Step.cannotSplit (reportCannotSplit ctx.m_fileId
          { s.a with m_lineOffsets := s.a.m_lineOffsets ++ [s.linesWriten]
                     m_includeFileInfo := cs.stack })
      else Step.next (classAfter ctx s toChunk cs)

/-- The body of the split loop (source lines 404-676) for the chunk at `s.i`. -/
def splitIter (ctx : SplitCtx) (s : SplitState) (iChunk : FileChunk) : Step :=
  if iChunk.m_chunkType = ElemType.Package ∨ iChunk.m_chunkType = ElemType.Module then
    match ctx.allLines[iChunk.m_fromLine]? with
    | none => Step.fault
    | some packageDeclaration =>
      match importSectionOf ctx.allLines (iChunk.m_toLine - iChunk.m_fromLine)
          iChunk.m_fromLine [] with
      | none => Step.fault
      | some importSection =>
        if sub32 iChunk.m_toLine iChunk.m_fromLine > ctx.chunkSize then
          bigLoop ctx
            { chunkType := iChunk.m_chunkType, packagelastLine := iChunk.m_toLine
              packageDeclaration := packageDeclaration, importSection := importSection }
            1002
            { splitted := false, endPackageDetected := false, sllineInfo := [], s := s }
        else smallBranch ctx s iChunk
  else classBranch ctx s

/-- The split loop `for (i = 0; i < fileChunks.size(); i++)` of source lines
403-677. -/
def splitLoop (ctx : SplitCtx) : Nat → SplitState → Outcome
  | 0, _ => Outcome.outOfFuel
  | fuel + 1, s =>
    match ctx.fileChunks[s.i]? with
    | none => Outcome.split s.a
    | some iChunk =>
      match splitIter ctx s iChunk with
      | Step.next s1 => splitLoop ctx fuel { s1 with i := s1.i + 1 }
      | Step.cannotSplit a => Outcome.cannotSplit a
      | Step.fault => Outcome.fault
      | Step.outOfFuel => Outcome.outOfFuel

/-- The provenance frame pushed before the split (source lines 399-401). -/
def initialFrame (m_fileId : PathId) : IncludeFileInfo :=
  { m_context := Context.INCLUDE, m_sectionStartLine := 1, m_sectionSymbolId := BadSymbolId
    m_sectionFileId := m_fileId, m_originalStartLine := 1, m_originalStartColumn := 0
    m_originalEndLine := 1, m_originalEndColumn := 0, m_action := Action.PUSH }

/-- The condition of source lines 375-376 under which the text is handed over
whole; `lineSize` is the line count of the scan. -/
def staysWhole (cfg : Config) (lineSize : Nat) : Bool :=
  cfg.nbMaxProcesses != 0 || decide (lineSize < cfg.nbLinesForFileSpliting) ||
    decide (cfg.m_nbChunks < 2)

/-- The method `AnalyzeFile::analyze` (source lines 97-678). -/
def analyze (env : Env) (cfg : Config) (a : Analyzer) : Outcome :=
  let allLines := mkAllLines env cfg.m_ppFileId cfg.m_text
  let sc := scan allLines
  let a := { a with orderedPackages := a.orderedPackages ++ sc.orderedPackages }
  let lineSize := sc.lineNb
  if staysWhole cfg lineSize then
    Outcome.whole { a with m_splitFiles := a.m_splitFiles ++ [cfg.m_ppFileId]
                           m_lineOffsets := a.m_lineOffsets ++ [0] }
  else if sc.inComment || sc.inString then
    Outcome.cannotSplit (reportCannotSplit cfg.m_fileId a)
  else
    let ctx : SplitCtx :=
      { env := env, m_ppFileId := cfg.m_ppFileId, m_fileId := cfg.m_fileId
        allLines := allLines, fileChunks := sc.fileChunks
        chunkSize := lineSize / cfg.m_nbChunks
        fileLevelImportSection := sc.fileLevelImportSection }
    splitLoop ctx (sc.fileChunks.length + 1)
      { i := 0, fromLine := 1, toIndex := 0, chunkNb := 0, linesWriten := 0
        a := { a with m_includeFileInfo := initialFrame cfg.m_fileId :: a.m_includeFileInfo } }

/-! ## A sample environment -/

/-- The names behind the symbol and path ids of the sample environment. -/
def sampleNames : List (List Char) :=
  ["@@BAD_SYMBOL@@".toList, "top.sv".toList, "top.pp.sv".toList]

/-- Splits `s` at every character of `seps`. -/
def sampleTokenize (seps : List Char) : List Char → List Char → List (List Char)
  | [], cur => [cur.reverse]
  | c :: cs, cur =>
    if seps.contains c then cur.reverse :: sampleTokenize seps cs []
    else sampleTokenize seps cs (c :: cur)

/-- Removes one pair of enclosing double quotes. -/
def sampleUnquoted (s : List Char) : List Char :=
  match s with
  | c :: cs =>
    if c = dquote ∧ cs.getLast? = some dquote then cs.dropLast else s
  | [] => []

/-- A sample environment to run the embedding in: ids are positions in
`sampleNames`, chunk `k` of file `p` is the file `1000 * (p + 1) + k`, the
preprocessed file is read from the text, and `PUSH`, `POP` are `1`, `2`. -/
def sampleEnv : Env :=
  { getSymbol := fun id => sampleNames.getD id []
    registerSymbol := fun s => sampleNames.indexOf s
    toPath := fun id => sampleNames.getD id []
    toPathId := fun s => sampleNames.indexOf s
    getChunkFile := fun p k => 1000 * (p + 1) + k
    readLines := fun _ => []
    unquoted := sampleUnquoted
    tokenize := fun s seps => sampleTokenize seps s []
    actionPush := 1
    actionPop := 2 }

/-- A sample configuration: split into `nbChunks` chunks every text of at least
`minLines` scanned lines. -/
def sampleConfig (text : String) (nbChunks minLines : Nat) : Config :=
  { m_ppFileId := 2, m_fileId := 1, m_nbChunks := nbChunks, m_text := text.toList
    nbLinesForFileSpliting := minLines, nbMaxProcesses := 0 }

/-! ## Reading the result of a run -/

/-- The line ranges `[fromLine, toLine)` of the fragments of a run that split,
in the order written. -/
def Outcome.ranges : Outcome → Option (List (Nat × Nat))
  | Outcome.split a => some (a.written.map (fun f => (f.fromLine, f.toLine)))
  | _ => none

/-- The contents of the fragments of a run that split, in the order written. -/
def Outcome.contents : Outcome → Option (List String)
  | Outcome.split a => some (a.written.map (fun f => String.mk f.content))
  | _ => none

/-- The lists `m_splitFiles` and `m_lineOffsets` a run returns with. -/
def Outcome.lists : Outcome → Option (List PathId × List Nat)
  | Outcome.whole a => some (a.m_splitFiles, a.m_lineOffsets)
  | Outcome.split a => some (a.m_splitFiles, a.m_lineOffsets)
  | Outcome.cannotSplit a => some (a.m_splitFiles, a.m_lineOffsets)
  | _ => none

/-- The analyzer a run returns with (a fresh one when the run faults). -/
def Outcome.final : Outcome → Analyzer
  | Outcome.whole a => a
  | Outcome.split a => a
  | Outcome.cannotSplit a => a
  | _ => {}

/-- Fragment number `k` of a run (an empty fragment when there is none). -/
def Outcome.fragment (o : Outcome) (k : Nat) : Fragment :=
  o.final.written.getD k
    { file := 0, content := [], fromLine := 0, toLine := 0, splitted := false }

/-! ## Invariants used in the proofs -/

/-- The invariant of the split loop that counts the fragments: `chunkNb` more
split files and written fragments than at the start, and at most 1001. -/
def CountInv (n0 w0 : Nat) (s : SplitState) : Prop :=
  s.a.m_splitFiles.length = n0 + s.chunkNb ∧ s.a.written.length = w0 + s.chunkNb ∧
    s.chunkNb ≤ 1001

/-- The line numbers the scan holds are at most `n`, the number of lines
scanned so far. -/
def ScanBounds (s : ScanState) (n : Nat) : Prop :=
  s.lineNb = n ∧ s.startLine ≤ n ∧
    ∀ c ∈ s.fileChunks, c.m_fromLine ≤ n ∧ c.m_toLine ≤ n

/-- The first word of the line, as `operator>>` reads it, is not `SLline`:
`checkSLlineDirective_` leaves the provenance stack as it is. -/
def NoDirective (line : List Char) : Prop :=
  (IStream.readWord { rest := line, failed := false }).1 ≠ "SLline".toList

instance (line : List Char) : Decidable (NoDirective line) :=
  inferInstanceAs (Decidable (_ ≠ _))

/-- The scan is outside every comment, string and class, and has recorded `n`
constructs, all of them classes that close at line `t`. -/
def ClassesOnly (s : ScanState) (n t : Nat) : Prop :=
  s.inComment = false ∧ s.inString = false ∧ s.inClass = 0 ∧
    s.prev_keyword ≠ "typedef".toList ∧ s.fileChunks.length = n ∧
    ∀ c ∈ s.fileChunks, c.m_chunkType = ElemType.Class ∧ c.m_toLine = t

/-- The two scan states agree in what the recognition of classes reads. -/
def Agree (s0 s : ScanState) : Prop :=
  s0.inComment = s.inComment ∧ s0.inString = s.inString ∧ s0.inClass = s.inClass ∧
    s0.prev_keyword = s.prev_keyword ∧ s0.fileChunks = s.fileChunks ∧
    s0.lineNb = s.lineNb ∧ s0.startLine = s.startLine

/-- A letter of a keyword: it is part of a word and no part of a comment or
string delimiter. -/
def IsLetter (c : Char) : Prop :=
  isIdentChar c = true ∧ c ≠ '*' ∧ c ≠ '/' ∧ c ≠ dquote

instance (c : Char) : Decidable (IsLetter c) :=
  inferInstanceAs (Decidable (_ ∧ _))

/-! ## Sample inputs -/

/-- A class, a module with a class inside, a class: 12 lines, 2 chunks. -/
def classModuleClass : Config :=
  sampleConfig
    "class A;\nendclass\nmodule m;\nclass B;\nendclass\nwire a;\nwire b;\nwire c;\nendmodule\nwire x;\nclass C;\nendclass\n"
    2 10

/-- A module of 4 lines without a construct inside, 2 chunks. -/
def plainModule : Config :=
  sampleConfig "module m;\nwire a;\nwire b;\nendmodule\n" 2 4

/-- Two classes of 3 lines one after the other, 2 chunks. -/
def twoClasses : Config :=
  sampleConfig "class A;\n  int x;\nendclass\nclass B;\n  int y;\nendclass\n" 2 6

/-- A module with an import and two classes, 2 chunks. -/
def moduleWithImport : Config :=
  sampleConfig
    "module m;\nimport p::*;\nclass A;\nendclass\nclass B;\nendclass\nendmodule\n" 2 7

/-- A module closed by `endmodule : m`, 2 chunks. -/
def labelledModule : Config :=
  sampleConfig "module m;\nwire a;\nwire b;\nendmodule : m\n" 2 4

/-- A package with two classes, 2 chunks. -/
def packageTwoClasses : Config :=
  sampleConfig "package p;\nclass A;\nendclass\nclass B;\nendclass\nendpackage\n" 2 6

/-- A class of 2 lines with the splitting threshold at 2 lines, 2 chunks. -/
def classAtThreshold : Config :=
  sampleConfig "class A;\nendclass\n" 2 2

/-- A text that ends inside a block comment. -/
def openComment : Config :=
  sampleConfig "/* class A;\nendclass\n" 2 1

/-- A module that ends inside a block comment. -/
def moduleOpenComment : Config :=
  sampleConfig "module m;\n/* unfinished\nendmodule\n" 2 1

/-- A package of 2 lines followed, two lines further, by a comment of 2 lines. -/
def packageThenComment : Config :=
  sampleConfig "package p;\nendpackage\n\n/* comment\n spanning */\nclass A;\nendclass\n" 2 1

/-- The line `class endclass class endclass ...` with `n` classes. -/
def classesLine (n : Nat) : List Char :=
  (List.replicate n "class endclass ".toList).flatten

/-- A text of two lines, 1001 empty classes on the first and nothing on the
second, to be split into 2 chunks. -/
def manyClasses : Config :=
  { m_ppFileId := 2, m_fileId := 1, m_nbChunks := 2
    m_text := classesLine 1001 ++ [lineFeed, lineFeed]
    nbLinesForFileSpliting := 1, nbMaxProcesses := 0 }

/-! ## Sample texts for the scan and the directives -/

/-- The constructs the scan records for a text, as `(kind, m_fromLine, m_toLine)`. -/
def scannedChunks (text : String) : List (ElemType × Nat × Nat) :=
  (scan (mkAllLines sampleEnv 2 text.toList)).fileChunks.map
    (fun c => (c.m_chunkType, c.m_fromLine, c.m_toLine))

/-- The flags `(inComment, inString)` the scan of a text ends with. -/
def scannedFlags (text : String) : Bool × Bool :=
  ((scan (mkAllLines sampleEnv 2 text.toList)).inComment,
   (scan (mkAllLines sampleEnv 2 text.toList)).inString)

/-- A class, then a module opened on the last line of the text, 2 chunks. -/
def moduleOnLastLine : Config :=
  sampleConfig "class A;\nendclass\nmodule m;" 2 1

/-- A module with a class inside, both closed on the last line, 2 chunks. -/
def closersOnLastLine : Config :=
  sampleConfig "module m;\nclass A;\nendclass endmodule\n" 2 1

/-- A class after an `SLline` line whose third token has no `^`, 2 chunks. -/
def directiveWithoutCaret : Config :=
  sampleConfig "SLline 1 abc 1\nclass A;\nendclass\n" 2 1

/-- The invariant of the split loop for the chunk files: fragment number `k`
is written to chunk file number `k` of the preprocessed file, and the split
files are the files of the fragments, in the order written. -/
def FilesInv (ctx : SplitCtx) (s : SplitState) : Prop :=
  s.a.written.map (fun f => f.file) =
      (List.range s.chunkNb).map (ctx.env.getChunkFile ctx.m_ppFileId) ∧
    s.a.m_splitFiles = s.a.written.map (fun f => f.file)

/-! ## The macro preprocessor

The sources hold the declarations of `PreprocessFile` only
(`PreprocessFile.h`); the code of `preprocess`, `recordMacro` and `getMacro`
is not part of them.  What follows is modelled from the specification
(section 4.1, steps 1, 2, 5 and 6, and the policies on argument counts). -/

/-- Modelled from the spec: the backtick that introduces a directive or a macro
invocation (the preprocessor grammar is missing from the sources). -/
def backtick : Char := Char.ofNat 96

/-- Modelled from the spec: the characters of a macro or argument name (the
code of the preprocessor grammar is missing from the sources). -/
def isNameChar (c : Char) : Bool := c.isAlphanum || c == '_' || c == '$'

/-- Modelled from the spec: a `MacroDefinition` (section 3): its name, the
ordered list of its formal-argument names, empty for an object-like macro, and
its body (the class `MacroInfo` is missing from the sources). -/
structure MacroDefinition where
  name : List Char
  formals : List (List Char)
  body : List Char
  deriving DecidableEq, Repr

/-- Modelled from the spec: the policies of `SpecialInstructions` that bear on
an invocation, and the two fixed texts the spec leaves open (the code that
reads them is missing from the sources). -/
structure MacroPolicy where
  /-- The policy "as-is undefined macro": an unknown invocation is left as it is. -/
  asIsUndefinedMacro : Bool
  /-- The policy "evaluate": the actual arguments are expanded before they are
  substituted. -/
  evaluate : Bool
  /-- The marker put in place of a recursive invocation. -/
  recursiveMarker : List Char
  /-- The text put in place of an unknown invocation. -/
  undefinedMarker : List Char

/-- Modelled from the spec: the lookup of a name in the `MacroTable`, latest
definition first (`PreprocessFile::getMacro(name)` is missing from the
sources). -/
def lookupMacro (table : List MacroDefinition) (name : List Char) : Option MacroDefinition :=
  table.find? (fun m => m.name = name)

/-- Modelled from the spec: what a word of the body is replaced by, the actual
argument at the position of the formal argument it names, "using empty strings
for missing actuals and ignoring extras"; any other word stays (the code of
`getMacro` is missing from the sources). -/
def replaceWord (formals actuals : List (List Char)) (w : List Char) : List Char :=
  if w ∈ formals then actuals.getD (formals.indexOf w) [] else w

/-- Modelled from the spec: "substitute formal arguments into the body
textually": every maximal run of name characters of the body that is a formal
argument is replaced; `w` is the run being read, last character first (the
code of `getMacro` is missing from the sources). -/
def substituteFormals (formals actuals : List (List Char)) : List Char → List Char → List Char
  | [], w => replaceWord formals actuals w.reverse
  | c :: cs, w =>
    if isNameChar c then substituteFormals formals actuals cs (c :: w)
    else replaceWord formals actuals w.reverse ++ c :: substituteFormals formals actuals cs []

/-- Modelled from the spec: an argument without the blanks around it (the
tokenizing of argument lists is missing from the sources). -/
def trimBlanks (s : List Char) : List Char :=
  ((s.dropWhile (fun c => c == ' ')).reverse.dropWhile (fun c => c == ' ')).reverse

/-- Modelled from the spec: where the scan of a unit stands (the code of
`PreprocessFile::preprocess` is missing from the sources). -/
inductive ScanMode where
  /-- Plain text is copied to the output. -/
  | text
  /-- After a backtick: the name of a directive or macro is being read. -/
  | name (w : List Char)
  /-- After the directive `define`: the name of the macro is being read. -/
  | defineName (w : List Char)
  /-- Inside the parentheses of a definition: the formal arguments. -/
  | defineFormals (name : List Char) (cur : List Char) (acc : List (List Char))
  /-- The body of a definition, up to the end of the line. -/
  | defineBody (name : List Char) (formals : List (List Char)) (body : List Char)
  /-- Inside the parentheses of an invocation, `depth` parentheses deep. -/
  | actuals (m : MacroDefinition) (depth : Nat) (cur : List Char) (acc : List (List Char))
  deriving DecidableEq, Repr

/-- Modelled from the spec: the state of a `PreprocessUnit`: its view of the
macro table, the output buffer, the comment and string context with the
character read before, and the scan mode (the code of
`PreprocessFile::preprocess` is missing from the sources). -/
structure UnitState where
  table : List MacroDefinition
  out : List Char
  inString : Bool
  inComment : Bool
  inLineComment : Bool
  prev : Char
  mode : ScanMode
  deriving DecidableEq, Repr

/-- Modelled from the spec: a child `PreprocessUnit`, as its parent sees it:
from the macro table, the expansion chain and the text of the unit to its
expanded text (the constructor of `PreprocessFile` for a macro body is only
declared in the sources). -/
abbrev ChildUnit := List MacroDefinition → List (List Char) → List Char → List Char

/-- Modelled from the spec: step 5 of section 4.1, the invocation of the known
macro `m` with the actual arguments `args` (the code of
`PreprocessFile::getMacro` is missing from the sources).  A macro on the active
expansion chain gives the recursive marker; otherwise the actual arguments are
expanded first when the policy says so, they are substituted for the formal
arguments of the body, and a child unit, `child`, preprocesses the result under
the macro table of the invocation, with the macro on the chain. -/
def expandMacro (policy : MacroPolicy) (child : ChildUnit) (table : List MacroDefinition)
    (chain : List (List Char)) (m : MacroDefinition) (args : List (List Char)) : List Char :=
  if m.name ∈ chain then policy.recursiveMarker
  else
    let actuals := if policy.evaluate then args.map (child table chain) else args
    child table (m.name :: chain) (substituteFormals m.formals actuals m.body [])

/-- Modelled from the spec: step 1 of section 4.1, a character of plain text
(the code of `PreprocessFile::preprocess` is missing from the sources).  It is
copied to the output, and the comment and string context is kept up to date;
outside comments and strings a backtick begins the name of a directive or
macro. -/
def textStep (st : UnitState) (c : Char) : UnitState :=
  if st.inLineComment then
    { st with out := st.out ++ [c], prev := c, inLineComment := c != lineFeed }
  else if st.inComment then
    { st with out := st.out ++ [c], prev := c, inComment := !(st.prev == '*' && c == '/') }
  else if st.inString then
    { st with out := st.out ++ [c], prev := c
              inString := !(c == dquote && st.prev != backslash) }
  else if c = backtick then { st with prev := c, mode := ScanMode.name [] }
  else
    { st with out := st.out ++ [c], prev := c, inString := c == dquote
              inLineComment := st.prev == '/' && c == '/'
              inComment := st.prev == '/' && c == '*' }

/-- Modelled from the spec: steps 5 and 6 of section 4.1, the end of the name
`w` of an invocation, at the character `c` that follows it (the code of
`PreprocessFile::preprocess` is missing from the sources).  A function-like macro
followed by `(` goes on to collect its actual arguments; any other known macro
is expanded without arguments; an unknown one is left as it is or replaced,
by policy.  The character `c` is plain text then. -/
def endOfName (policy : MacroPolicy) (child : ChildUnit) (chain : List (List Char))
    (st : UnitState) (w : List Char) (c : Char) : UnitState :=
  match lookupMacro st.table w with
  | some m =>
    if m.formals ≠ [] ∧ c = '(' then { st with mode := ScanMode.actuals m 0 [] [] }
    else
      textStep { st with out := st.out ++ expandMacro policy child st.table chain m []
                         mode := ScanMode.text } c
  | none =>
    textStep
      { st with out := st.out ++
                  (if policy.asIsUndefinedMacro then backtick :: w else policy.undefinedMarker)
                mode := ScanMode.text } c

/-- Modelled from the spec: one character of the scan of a unit (steps 1, 2, 5
and 6 of section 4.1; `undef`, conditionals, includes, line markers and the
provenance entries are left out; the code of `PreprocessFile::preprocess` is
missing from the sources). -/
def unitStep (policy : MacroPolicy) (child : ChildUnit) (chain : List (List Char))
    (st : UnitState) (c : Char) : UnitState :=
  match st.mode with
  | ScanMode.text => textStep st c
  | ScanMode.name w =>
    if isNameChar c then { st with mode := ScanMode.name (w ++ [c]) }
    else if w = "define".toList then { st with mode := ScanMode.defineName [] }
    else endOfName policy child chain st w c
  | ScanMode.defineName w =>
    if isNameChar c then { st with mode := ScanMode.defineName (w ++ [c]) }
    else if c = ' ' ∧ w = [] then st
    else if c = '(' then { st with mode := ScanMode.defineFormals w [] [] }
    else if c = lineFeed then
      { st with table := { name := w, formals := [], body := [] } :: st.table
                mode := ScanMode.text }
    else { st with mode := ScanMode.defineBody w [] (if c = ' ' then [] else [c]) }
  | ScanMode.defineFormals name cur acc =>
    if c = ',' then { st with mode := ScanMode.defineFormals name [] (acc ++ [trimBlanks cur]) }
    else if c = ')' then
      { st with mode := ScanMode.defineBody name (acc ++ [trimBlanks cur]) [] }
    else { st with mode := ScanMode.defineFormals name (cur ++ [c]) acc }
  | ScanMode.defineBody name formals body =>
    if c = lineFeed ∧ body.getLast? ≠ some backslash then
      { st with table := { name := name, formals := formals, body := trimBlanks body } ::
                  st.table
                mode := ScanMode.text }
    else { st with mode := ScanMode.defineBody name formals (body ++ [c]) }
  | ScanMode.actuals m depth cur acc =>
    if c = '(' then { st with mode := ScanMode.actuals m (depth + 1) (cur ++ [c]) acc }
    else if c = ')' then
      if depth = 0 then
        { st with out := st.out ++
                    expandMacro policy child st.table chain m (acc ++ [trimBlanks cur])
                  mode := ScanMode.text }
      else { st with mode := ScanMode.actuals m (depth - 1) (cur ++ [c]) acc }
    else if c = ',' ∧ depth = 0 then
      { st with mode := ScanMode.actuals m 0 [] (acc ++ [trimBlanks cur]) }
    else { st with mode := ScanMode.actuals m depth (cur ++ [c]) acc }

/-- Modelled from the spec: what is still pending when the text of a unit
ends: a definition is recorded, an invocation without arguments expanded (the
code of `PreprocessFile::preprocess` is missing from the sources). -/
def unitFlush (policy : MacroPolicy) (child : ChildUnit) (chain : List (List Char))
    (st : UnitState) : UnitState :=
  match st.mode with
  | ScanMode.name w =>
    match lookupMacro st.table w with
    | some m => { st with out := st.out ++ expandMacro policy child st.table chain m []
                          mode := ScanMode.text }
    | none =>
      { st with out := st.out ++
                  (if policy.asIsUndefinedMacro then backtick :: w else policy.undefinedMarker)
                mode := ScanMode.text }
  | ScanMode.defineName w =>
    { st with table := { name := w, formals := [], body := [] } :: st.table
              mode := ScanMode.text }
  | ScanMode.defineBody name formals body =>
    { st with table := { name := name, formals := formals, body := trimBlanks body } :: st.table
              mode := ScanMode.text }
  | _ => { st with mode := ScanMode.text }

/-- Modelled from the spec: the state a unit with the macro table `table`
begins in (the constructors of `PreprocessFile` are only declared in the
sources). -/
def UnitState.start (table : List MacroDefinition) : UnitState :=
  { table := table, out := [], inString := false, inComment := false, inLineComment := false
    prev := Char.ofNat 0, mode := ScanMode.text }

/-- Modelled from the spec: `preprocess(unit)` for a unit with the macro table
`table` and the text `text`, on the expansion chain `chain`: the table and the
expanded text.  A child unit is spawned for every expansion; `depth` bounds the
nesting of units, and a unit at depth `0` gives its text back as it is (the
code of `PreprocessFile::preprocess` is missing from the sources). -/
def preprocessUnit (policy : MacroPolicy) :
    Nat → List MacroDefinition → List (List Char) → List Char →
      List MacroDefinition × List Char
  | 0, table, _, text => (table, text)
  | depth + 1, table, chain, text =>
    let child := fun tb ch body => (preprocessUnit policy depth tb ch body).2
    let st := unitFlush policy child chain
      (text.foldl (unitStep policy child chain) (UnitState.start table))
    (st.table, st.out)

/-- Modelled from the spec: the preprocessed text of a source text, with no
macro defined beforehand.  Every nested unit stems from an invocation, which a
backtick introduces, so the depth given to the outermost unit is the number of
backticks of the text plus one. -/
def preprocess (policy : MacroPolicy) (text : List Char) : List Char :=
  (preprocessUnit policy (text.count backtick + 1) [] [] text).2

/-- The policy of a plain run: unknown macros are diagnosed and replaced by
the empty text. -/
def plainPolicy : MacroPolicy :=
  { asIsUndefinedMacro := false, evaluate := false
    recursiveMarker := "RECURSIVE_MACRO".toList, undefinedMarker := [] }

/-- An actual argument without parentheses, commas, backticks and blanks. -/
def PlainArg (x : List Char) : Prop :=
  ∀ c ∈ x, c ≠ '(' ∧ c ≠ ')' ∧ c ≠ ',' ∧ c ≠ backtick ∧ c ≠ ' '

instance (x : List Char) : Decidable (PlainArg x) :=
  inferInstanceAs (Decidable (∀ c ∈ x, _))

/-- The macro `ADD` of the end-to-end scenario. -/
def addMacro : MacroDefinition :=
  { name := "ADD".toList, formals := ["a".toList, "b".toList], body := "((a)+(b))".toList }

/-- The text of the end-to-end scenario, with `x` and `y` for the actual
arguments: the definition of `ADD` and, on the next line, its invocation. -/
def addText (x y : List Char) : List Char :=
  "`define ADD(a,b) ((a)+(b))\nwire x = `ADD(".toList ++ x ++ ",".toList ++ y ++ ");".toList


/-! ## A run on an analyzer that was used before -/

/-- Two optional results are both absent, or both present and related. -/
def OptRel {α β : Type} (R : α → β → Prop) : Option α → Option β → Prop
  | none, none => True
  | some a, some b => R a b
  | _, _ => False

/-- The analyzer `a1` of a run begun on the analyzer `p`, against the analyzer
`a` of the run on the same lines begun on a fresh analyzer: the lists of `a1`
are those of `p` followed by those of `a`; when no line is a directive, the
fragments written are those of `p` followed by those of `a`, and the
provenance stack is the one of `a` on top of the one of `p`. -/
structure AnalyzerSim (allLines : List (List Char)) (p a a1 : Analyzer) : Prop where
  files : a1.m_splitFiles = p.m_splitFiles ++ a.m_splitFiles
  offsets : a1.m_lineOffsets = p.m_lineOffsets ++ a.m_lineOffsets
  errors : a1.errors = p.errors ++ a.errors
  packages : a1.orderedPackages = p.orderedPackages ++ a.orderedPackages
  exact : (∀ line ∈ allLines, NoDirective line) →
    a1.written = p.written ++ a.written ∧
      a1.m_includeFileInfo = a.m_includeFileInfo ++ p.m_includeFileInfo

/-- The state `s1` of the split loop of a run begun on the analyzer `p`,
against the state `s` of the run begun on a fresh analyzer: the loop variables
agree and the analyzers are related. -/
def SplitSim (ctx : SplitCtx) (p : Analyzer) (s s1 : SplitState) : Prop :=
  s1.i = s.i ∧ s1.fromLine = s.fromLine ∧ s1.toIndex = s.toIndex ∧ s1.chunkNb = s.chunkNb ∧
    s1.linesWriten = s.linesWriten ∧ AnalyzerSim ctx.allLines p s.a s1.a ∧
    ((∀ line ∈ ctx.allLines, NoDirective line) → s.a.m_includeFileInfo ≠ [])

/-- The two runs end a turn of the split loop in the same way, with related
states when they go on. -/
def StepSim (ctx : SplitCtx) (p : Analyzer) : Step → Step → Prop
  | Step.next s, Step.next s1 => SplitSim ctx p s s1
  | Step.cannotSplit _, Step.cannotSplit _ => True
  | Step.fault, Step.fault => True
  | Step.outOfFuel, Step.outOfFuel => True
  | _, _ => False

/-- The states of the loop that breaks up a package or module, in the two runs. -/
def BigSim (ctx : SplitCtx) (p : Analyzer) (b b1 : BigState) : Prop :=
  b1.splitted = b.splitted ∧ b1.endPackageDetected = b.endPackageDetected ∧
    SplitSim ctx p b.s b1.s ∧
    ((∀ line ∈ ctx.allLines, NoDirective line) → b1.sllineInfo = b.sllineInfo)

/-- The two runs end a turn of the loop that breaks up a package or module in
the same way. -/
def BigStepSim (ctx : SplitCtx) (p : Analyzer) : BigStep → BigStep → Prop
  | BigStep.again b, BigStep.again b1 => BigSim ctx p b b1
  | BigStep.leave s, BigStep.leave s1 => SplitSim ctx p s s1
  | BigStep.cannotSplit _, BigStep.cannotSplit _ => True
  | BigStep.fault, BigStep.fault => True
  | _, _ => False

/-- The two runs end in the same way, with related analyzers when they end
without an error. -/
def OutcomeSim (allLines : List (List Char)) (p : Analyzer) : Outcome → Outcome → Prop
  | Outcome.whole a, Outcome.whole a1 => AnalyzerSim allLines p a a1
  | Outcome.split a, Outcome.split a1 => AnalyzerSim allLines p a a1
  | Outcome.cannotSplit a, Outcome.cannotSplit a1 =>
    a.m_splitFiles = [] ∧ a.m_lineOffsets = [] ∧ a1.m_splitFiles = [] ∧ a1.m_lineOffsets = []
  | Outcome.fault, Outcome.fault => True
  | Outcome.outOfFuel, Outcome.outOfFuel => True
  | _, _ => False

/-- Two classes between an `SLline` line that pops a frame and one that pushes
a frame, 2 chunks. -/
def popThenPush : Config :=
  sampleConfig
    "SLline 1 top.sv^top.sv 2\nclass A;\nendclass\nclass B;\nendclass\nSLline 1 top.sv^top.sv 1\n"
    2 1

/-! ## The signedness of a built-in typespec (`CompileType.cpp`) -/

/-- The enumeration `VObjectType`, whose declaration is not part of the
sources: the values `CompileHelper::compileBuiltinTypespec` names, and `other`
for every other value. -/
inductive VObjectType where
  | slIntVec_TypeLogic | slIntVec_TypeReg | slIntVec_TypeBit
  | slIntegerAtomType_Int | slIntegerAtomType_Integer | slIntegerAtomType_Byte
  | slIntegerAtomType_LongInt | slIntegerAtomType_Shortint | slIntegerAtomType_Time
  | slNonIntType_ShortReal | slNonIntType_Real | slString_type
  | slSigning_Signed | slSigning_Unsigned
  | other (code : Nat)
  deriving DecidableEq, Repr

/-- A `NodeId`; `0` is the invalid node, which tests as `false`. -/
abbrev NodeId := Nat

/-- What `compileBuiltinTypespec` reads of a `FileContent`, whose code is not
part of the sources: the sibling and the type of a node. -/
structure FileContent where
  /-- `FileContent::Sibling` -/
  Sibling : NodeId → NodeId
  /-- `FileContent::Type` -/
  nodeType : NodeId → VObjectType

/-- The classes of typespec the serializer makes in `compileBuiltinTypespec`. -/
inductive TypespecKind where
  | logic_typespec | int_typespec | integer_typespec | byte_typespec | long_int_typespec
  | short_int_typespec | time_typespec | bit_typespec | short_real_typespec | real_typespec
  | string_typespec
  deriving DecidableEq, Repr

/-- A typespec as `compileBuiltinTypespec` leaves it: its class, the ranges
given to `Ranges`, the value given to `VpiSigned` (`none` when the setter is
not called) and the two nodes given to `populateCoreMembers`. -/
structure Typespec where
  kind : TypespecKind
  ranges : Option (List (Nat × Nat))
  vpiSigned : Option Bool
  coreMembers : NodeId × NodeId
  deriving DecidableEq, Repr

/-- The method `CompileHelper::compileBuiltinTypespec` (`CompileType.cpp`,
source lines 932-1036). -/
def compileBuiltinTypespec (fC : FileContent) (type : NodeId) (the_type : VObjectType)
    (ranges : List (Nat × Nat)) : Typespec :=
  let sign := fC.Sibling type
  let isSigned :=
    if sign ≠ 0 ∧ fC.nodeType sign = VObjectType.slSigning_Unsigned then false else true
  match the_type with
  | VObjectType.slIntVec_TypeLogic | VObjectType.slIntVec_TypeReg =>
    let isSigned :=
      if sign ≠ 0 ∧ fC.nodeType sign = VObjectType.slSigning_Signed then true else false
    { kind := TypespecKind.logic_typespec, ranges := some ranges, vpiSigned := some isSigned
      coreMembers := (type, type) }
  | VObjectType.slIntegerAtomType_Int =>
    { kind := TypespecKind.int_typespec, ranges := none, vpiSigned := some isSigned
      coreMembers := (type, if isSigned then type else sign) }
  | VObjectType.slIntegerAtomType_Integer =>
    { kind := TypespecKind.integer_typespec, ranges := none, vpiSigned := some isSigned
      coreMembers := (type, if isSigned then type else sign) }
  | VObjectType.slIntegerAtomType_Byte =>
    { kind := TypespecKind.byte_typespec, ranges := none, vpiSigned := some isSigned
      coreMembers := (type, if isSigned then type else sign) }
  | VObjectType.slIntegerAtomType_LongInt =>
    { kind := TypespecKind.long_int_typespec, ranges := none, vpiSigned := some isSigned
      coreMembers := (type, if isSigned then type else sign) }
  | VObjectType.slIntegerAtomType_Shortint =>
    { kind := TypespecKind.short_int_typespec, ranges := none, vpiSigned := some isSigned
      coreMembers := (type, if isSigned then type else sign) }
  | VObjectType.slIntegerAtomType_Time =>
    { kind := TypespecKind.time_typespec, ranges := none, vpiSigned := none
      coreMembers := (type, type) }
  | VObjectType.slIntVec_TypeBit =>
    { kind := TypespecKind.bit_typespec, ranges := some ranges, vpiSigned := some isSigned
      coreMembers := (type, type) }
  | VObjectType.slNonIntType_ShortReal =>
    { kind := TypespecKind.short_real_typespec, ranges := none, vpiSigned := none
      coreMembers := (type, type) }
  | VObjectType.slNonIntType_Real =>
    { kind := TypespecKind.real_typespec, ranges := none, vpiSigned := none
      coreMembers := (type, type) }
  | VObjectType.slString_type =>
    { kind := TypespecKind.string_typespec, ranges := none, vpiSigned := none
      coreMembers := (type, type) }
  | _ =>
    { kind := TypespecKind.logic_typespec, ranges := some ranges, vpiSigned := none
      coreMembers := (type, type) }

/-- Whether the node after `type` is the keyword `signed`. -/
def followedBySigned (fC : FileContent) (type : NodeId) : Bool :=
  decide (fC.Sibling type ≠ 0 ∧ fC.nodeType (fC.Sibling type) = VObjectType.slSigning_Signed)

/-- Whether the node after `type` is the keyword `unsigned`. -/
def followedByUnsigned (fC : FileContent) (type : NodeId) : Bool :=
  decide (fC.Sibling type ≠ 0 ∧ fC.nodeType (fC.Sibling type) = VObjectType.slSigning_Unsigned)

/-- A declaration `bit b;`: node 1 is the type `bit`, and no node follows it. -/
def bitWithoutSigning : FileContent :=
  { Sibling := fun _ => 0
    nodeType := fun n => if n = 1 then VObjectType.slIntVec_TypeBit else VObjectType.other 0 }

/-! ## The validity of a cache entry

The sources hold the declarations of `ParseCache` and of
`PreprocessFile::collectIncludedFiles` only; the code of `isValid`, `save` and
`collectIncludedFiles` is not part of them.  What follows is modelled from the
specification (section 4.6, the `CacheEntry` of section 3 and the persisted
state of section 5). -/

/-- Modelled from the spec: the "content/staleness fingerprint" of a file (the
code that computes it is missing from the sources). -/
abbrev Fingerprint := Nat

/-- Modelled from the spec: the files as a cache check finds them: the
fingerprint of every file that is present (the file system is missing from the
sources). -/
abbrev FileState := PathId → Option Fingerprint

/-- Modelled from the spec: a unit with the units of the files it includes;
"forms a tree, each unit owned by exactly one parent" (the members of
`PreprocessFile` that hold its includes are missing from the sources). -/
inductive IncludeTree where
  | node (file : PathId) (includes : List IncludeTree)

/-- The file of a unit. -/
def IncludeTree.file : IncludeTree → PathId
  | IncludeTree.node f _ => f

/-- The units of the files a unit includes. -/
def IncludeTree.includes : IncludeTree → List IncludeTree
  | IncludeTree.node _ cs => cs

mutual
/-- Modelled from the spec: `PreprocessFile::collectIncludedFiles`: "every file
the unit transitively included" (the code of the method is missing from the
sources). -/
def IncludeTree.collectIncludedFiles : IncludeTree → List PathId
  | IncludeTree.node _ cs => collectIncludedList cs
/-- Modelled from the spec: the files of a list of included units and the
files they transitively include. -/
def collectIncludedList : List IncludeTree → List PathId
  | [] => []
  | c :: cs => c.file :: (c.collectIncludedFiles ++ collectIncludedList cs)
end

/-- The unit `t` includes the file `g`, directly or through other includes. -/
inductive IncludeTree.Includes : IncludeTree → PathId → Prop where
  | direct (t c : IncludeTree) : c ∈ t.includes → IncludeTree.Includes t c.file
  | through (t c : IncludeTree) (g : PathId) : c ∈ t.includes →
      IncludeTree.Includes c g → IncludeTree.Includes t g

/-- Modelled from the spec: the persisted state of a cache entry: "(a) the
expansion result text, (b) a content/staleness fingerprint of the originating
file, (c) fingerprints of every transitively included file" (the cache file
format is missing from the sources). -/
structure CacheEntry where
  expansion : List Char
  fingerprint : Fingerprint
  included : List (PathId × Fingerprint)
  deriving DecidableEq, Repr

/-- Modelled from the spec: the fingerprints of the files `gs` as they are
now, when all of them are present (the code of `ParseCache::save` is missing
from the sources). -/
def fingerprintsOf (files : FileState) : List PathId → Option (List (PathId × Fingerprint))
  | [] => some []
  | g :: gs =>
    match files g, fingerprintsOf files gs with
    | some p, some r => some ((g, p) :: r)
    | _, _ => none

/-- Modelled from the spec: `save(unit_identity, expanded_text)`: the entry
written once a unit has finished preprocessing, with the fingerprints the
files have at that moment; nothing is written when one of the files is
missing (the code of `ParseCache::save` is missing from the sources). -/
def saveCache (files : FileState) (unit : IncludeTree) (expansion : List Char) :
    Option CacheEntry :=
  match files unit.file, fingerprintsOf files unit.collectIncludedFiles with
  | some fp, some included =>
    some { expansion := expansion, fingerprint := fp, included := included }
  | _, _ => none

/-- Modelled from the spec: `is_valid(unit_identity)`: "the cache record
exists, the source file's content fingerprint matches what was recorded at
save time, and every file the unit transitively included at save time is
itself still present and unchanged" (the code of `ParseCache::isValid` is
missing from the sources). -/
def isValid (cache : PathId → Option CacheEntry) (files : FileState) (f : PathId) : Bool :=
  match cache f with
  | none => false
  | some entry =>
    decide (files f = some entry.fingerprint) &&
      entry.included.all (fun gp => decide (files gp.1 = some gp.2))

/-- The file 1 includes the file 2, which includes the file 3. -/
def sampleUnit : IncludeTree :=
  IncludeTree.node 1 [IncludeTree.node 2 [IncludeTree.node 3 []]]

/-- The fingerprints of the files 1, 2 and 3 when the entry is saved. -/
def filesAtSave : FileState := fun f =>
  if f = 1 then some 10 else if f = 2 then some 20 else if f = 3 then some 30 else none

/-- The fingerprints at the check: the content of file 3 has changed. -/
def filesAtCheck : FileState := fun f =>
  if f = 1 then some 10 else if f = 2 then some 20 else if f = 3 then some 31 else none

/-- The cache after the entry of `sampleUnit` is saved. -/
def sampleCache : PathId → Option CacheEntry := fun f =>
  if f = 1 then saveCache filesAtSave sampleUnit "expanded".toList else none

/-! ## Further sample inputs -/

/-- Two lines without a construct, 2 chunks. -/
def noConstruct : Config :=
  sampleConfig "wire a;\nwire b;\n" 2 1

/-- A module opened on the fourth of five lines and never closed, 2 chunks. -/
def unterminatedModule : Config :=
  sampleConfig "wire a;\nwire b;\nwire c;\nmodule m;\nwire d;\n" 2 1

/-- Two modules of two lines, a file-level import and a class, 2 chunks. -/
def modulesThenImport : Config :=
  sampleConfig
    "module a;\nendmodule\n\nmodule b;\nendmodule\n\nimport p::*;\nclass A;\nendclass\n" 2 1

/-- The package names a run registers, in the order of registration. -/
def registeredPackages (text : String) : List String :=
  (analyze sampleEnv (sampleConfig text 2 100) {}).final.orderedPackages.map String.mk

/-! ## Line offsets and progress of the split -/

/-- The number of lines of `allLines` copied into a fragment. -/
def copiedLines (f : Fragment) : Nat := f.toLine - f.fromLine

/-- The running totals of the lines copied into the fragments before each
fragment of `ws`, counted from `acc`. -/
def offsetsOf : List Fragment → Nat → List Nat
  | [], _ => []
  | f :: fs, acc => acc :: offsetsOf fs (acc + copiedLines f)

/-- The invariant of the split loop for the line offsets: the offsets are the
running totals of the lines copied, and `linesWriten` is the total so far. -/
def OffsetsInv (s : SplitState) : Prop :=
  s.a.m_lineOffsets = offsetsOf s.a.written 0 ∧
    s.linesWriten = (s.a.written.map copiedLines).sum

/-! ## The number of fragments of a package or module -/

/-- The invariant of the split loop for its progress: as many fragments are
written as `chunkNb` says, the loop stands at the first chunk and at line 1 as
long as none is written, and the first fragment starts at line 1. -/
def ProgressInv (s : SplitState) : Prop :=
  s.a.written.length = s.chunkNb ∧ (s.chunkNb = 0 → s.i = 0 ∧ s.fromLine = 1) ∧
    ∀ f, s.a.written[0]? = some f → f.fromLine = 1

/-- The invariant of the split loop for the ends of the fragments: every
fragment written stops at the end of the text or right after the last line of
a recorded construct. -/
def CutInv (ctx : SplitCtx) (s : SplitState) : Prop :=
  ∀ f ∈ s.a.written, f.toLine = ctx.allLines.length ∨
    ∃ c ∈ ctx.fileChunks, f.toLine = c.m_toLine + 1

/-- The invariant of the split loop after a first fragment that stops before
the last chunk: a second fragment is written before the loop is through the
chunks. -/
def SecondInv (ctx : SplitCtx) (s : SplitState) : Prop :=
  1 ≤ s.chunkNb ∧ (s.chunkNb = 1 → s.i < ctx.fileChunks.length)

/-- The search of source lines 430-451 for the end of the first fragment of
the package or module `c` that is recorded first, with the chunks `rest`
recorded after it: the new `toIndex`. -/
def firstToIndex (chunkSize : Nat) (c : FileChunk) (rest : List FileChunk) : Nat :=
  if rest.isEmpty then rest.length
  else (findBig c.m_toLine 1 chunkSize (rest.length + 1) rest 1 0).2

/-! ## The provenance stack at the head of a fragment -/

/-- The provenance stack after the copy loops (source lines 476-516, 582-589
and 648-655) have handed the `n` lines from `l` on to `checkSLlineDirective_`,
from the stack `stack` on; `none` is an access out of range. -/
def stackAfterLines (env : Env) (allLines : List (List Char)) :
    Nat → Nat → List IncludeFileInfo → Option (List IncludeFileInfo)
  | 0, _, stack => some stack
  | n + 1, l, stack =>
    match allLines[l]? with
    | none => none
    | some line =>
      match checkSLlineDirective_ env stack line l with
      | none => none
      | some stack1 => stackAfterLines env allLines n (l + 1) stack1

/-- The provenance stack after the lines of the fragments `ws` have been
copied, one fragment after the other in the order written, from the stack
`stack` on. -/
def stackAfterFragments (env : Env) (allLines : List (List Char)) :
    List Fragment → List IncludeFileInfo → Option (List IncludeFileInfo)
  | [], stack => some stack
  | f :: fs, stack =>
    match stackAfterLines env allLines (f.toLine - f.fromLine) f.fromLine stack with
    | none => none
    | some stack1 => stackAfterFragments env allLines fs stack1

/-- The directive `d` is the one made for fragment `j` of `ws`, the last
fragment up to fragment `k` that was begun with `splitted` false: the
directive `setSLlineDirective_` makes for the first line of that fragment, a
line between `1` and `bound`, under the provenance stack that the lines of the
fragments before it leave behind, from `stack0` on. -/
def Anchor (env : Env) (allLines : List (List Char)) (stack0 : List IncludeFileInfo)
    (bound : Nat) (ws : List Fragment) (k : Nat) (d : List Char) : Prop :=
  ∃ j g stack, j ≤ k ∧ ws[j]? = some g ∧ g.splitted = false ∧
    (∀ m f, j < m → m ≤ k → ws[m]? = some f → f.splitted = true) ∧
    1 ≤ g.fromLine ∧ g.fromLine ≤ bound ∧
    stackAfterFragments env allLines (ws.take j) stack0 = some stack ∧
    d = setSLlineDirective_ env stack g.fromLine

/-- Every fragment of `ws` begins with the directive of its anchor. -/
def DirectivesOk (env : Env) (allLines : List (List Char)) (stack0 : List IncludeFileInfo)
    (bound : Nat) (ws : List Fragment) : Prop :=
  ∀ k f, ws[k]? = some f → ∃ d t, Anchor env allLines stack0 bound ws k d ∧ f.content = d ++ t

/-- The invariant of the split loop for the directives: the provenance stack
is the one the lines of the fragments written leave behind, the next fragment
starts at a line between `1` and the number of lines plus one, and every
fragment written begins with the directive of its anchor. -/
def DirInv (ctx : SplitCtx) (stack0 : List IncludeFileInfo) (s : SplitState) : Prop :=
  stackAfterFragments ctx.env ctx.allLines s.a.written stack0 = some s.a.m_includeFileInfo ∧
    1 ≤ s.fromLine ∧ s.fromLine ≤ ctx.allLines.length + 1 ∧
    DirectivesOk ctx.env ctx.allLines stack0 (ctx.allLines.length + 1) s.a.written

/-- A text whose first line is an `SLline` directive that pushes a frame
starting at line 10, before two classes of 3 lines, 2 chunks. -/
def directiveThenClasses : Config :=
  sampleConfig
    "SLline 10 top.sv^top.sv 1\nclass A;\n  int x;\nendclass\nclass B;\n  int y;\nendclass\n"
    2 1

/-! ## Texts that define and invoke a function-like macro -/

/-- A piece of the body of a macro, word by word: a character that is no name
character, a word that names no formal argument, or formal argument number
`k`. -/
inductive BodyPiece where
  | sep (c : Char)
  | word (w : List Char)
  | formal (k : Nat)
  deriving DecidableEq, Repr

/-- The text of a body given by its pieces, with `names[k]` in the place of
formal argument number `k`: the body as defined when `names` are the formal
arguments, the body with every formal argument replaced by the actual argument
at its position when `names` are the actual arguments. -/
def renderBody (names : List (List Char)) : List BodyPiece → List Char
  | [] => []
  | BodyPiece.sep c :: ps => c :: renderBody names ps
  | BodyPiece.word w :: ps => w ++ renderBody names ps
  | BodyPiece.formal k :: ps => names.getD k [] ++ renderBody names ps

/-- A name: a run of name characters that is not empty. -/
def IsName (w : List Char) : Prop := w ≠ [] ∧ ∀ c ∈ w, isNameChar c = true

instance (w : List Char) : Decidable (IsName w) :=
  inferInstanceAs (Decidable (_ ∧ _))

/-- The pieces are the words of a body on one line without an invocation: a
separator is no name character, no backtick and no line feed; a word is a name
that is not a formal argument; a formal argument is one of `formals`; and no
two words or formal arguments follow each other without a separator
(`afterWord` says that the piece before is a word or a formal argument). -/
def wellFormedBody (formals : List (List Char)) : Bool → List BodyPiece → Bool
  | _, [] => true
  | _, BodyPiece.sep c :: ps =>
    !isNameChar c && decide (c ≠ backtick) && decide (c ≠ lineFeed) &&
      wellFormedBody formals false ps
  | afterWord, BodyPiece.word w :: ps =>
    !afterWord && decide (IsName w) && decide (w ∉ formals) && wellFormedBody formals true ps
  | afterWord, BodyPiece.formal k :: ps =>
    !afterWord && decide (k < formals.length) && wellFormedBody formals true ps

/-- The items of a list, separated by commas. -/
def commaSeparated : List (List Char) → List Char
  | [] => []
  | [x] => x
  | x :: y :: rest => x ++ ',' :: commaSeparated (y :: rest)

/-- The line that defines the macro `name` with the formal arguments `formals`
and the body `body`. -/
def defineLine (name : List Char) (formals : List (List Char)) (body : List Char) :
    List Char :=
  backtick :: "define ".toList ++ name ++ '(' :: commaSeparated formals ++ ") ".toList ++
    body ++ [lineFeed]

/-- The invocation of the macro `name` with the actual arguments `actuals`. -/
def invocation (name : List Char) (actuals : List (List Char)) : List Char :=
  backtick :: name ++ '(' :: commaSeparated actuals ++ [')']

/-- The scan of a unit is in plain text, outside comments and strings, and the
character read before is no slash. -/
def CleanText (st : UnitState) : Prop :=
  st.mode = ScanMode.text ∧ st.inString = false ∧ st.inComment = false ∧
    st.inLineComment = false ∧ st.prev ≠ '/'

/-! ## Theorems -/

/-! ### The line numbers of the scan -/

theorem closeChunk_mem {chunks : List FileChunk} {idx l ch : Nat} {c : FileChunk}
    (h : c ∈ closeChunk chunks idx l ch) :
    c ∈ chunks ∨ (c.m_toLine = l ∧ ∃ c0 ∈ chunks, c.m_fromLine = c0.m_fromLine ∧
      c.m_chunkType = c0.m_chunkType) := by
  induction chunks generalizing idx with
  | nil => simp [closeChunk] at h
  | cons x xs ih =>
    cases idx with
    | zero =>
      simp only [closeChunk, List.mem_cons] at h
      rcases h with rfl | h
      · exact Or.inr ⟨rfl, x, List.mem_cons_self _ _, rfl, rfl⟩
      · exact Or.inl (List.mem_cons_of_mem _ h)
    | succ k =>
      simp only [closeChunk, List.mem_cons] at h
      rcases h with rfl | h
      · exact Or.inl (List.mem_cons_self _ _)
      · rcases ih h with h1 | ⟨h1, c0, hc0, h2, h3⟩
        · exact Or.inl (List.mem_cons_of_mem _ h1)
        · exact Or.inr ⟨h1, c0, List.mem_cons_of_mem _ hc0, h2, h3⟩

theorem closeChunk_length (chunks : List FileChunk) (idx l ch : Nat) :
    (closeChunk chunks idx l ch).length = chunks.length := by
  induction chunks generalizing idx with
  | nil => simp [closeChunk]
  | cons x xs ih => cases idx <;> simp [closeChunk, ih]

theorem scanBounds_closeChunk {s : ScanState} {n : Nat} (idx : Nat) (h : ScanBounds s n) :
    ∀ c ∈ closeChunk s.fileChunks idx s.lineNb s.charNb, c.m_fromLine ≤ n ∧ c.m_toLine ≤ n := by
  intro c hc
  obtain ⟨h1, _, h3⟩ := h
  rcases closeChunk_mem hc with hc | ⟨hto, c0, hc0, hfrom, _⟩
  · exact h3 c hc
  · exact ⟨by rw [hfrom]; exact (h3 c0 hc0).1, by omega⟩

theorem scanBounds_pushChunk {s : ScanState} {n : Nat} (kind : ElemType)
    (h : ScanBounds s n) : ∀ c ∈ pushChunk kind s, c.m_fromLine ≤ n ∧ c.m_toLine ≤ n := by
  intro c hc
  obtain ⟨h1, h2, h3⟩ := h
  simp only [pushChunk, List.mem_append, List.mem_singleton] at hc
  rcases hc with hc | rfl
  · exact h3 c hc
  · exact ⟨h2, by simp [h1]⟩

theorem scanBounds_onPackage {s : ScanState} {n : Nat} (kw : List Char) (c : Char)
    (after : List Char) (h : ScanBounds s n) : ScanBounds (onPackage kw c after s) n := by
  unfold onPackage
  split
  · obtain ⟨h1, h2, h3⟩ := h
    refine ⟨h1, by simp [h1], ?_⟩
    intro x hx
    simp only [List.mem_append, List.mem_singleton] at hx
    rcases hx with hx | rfl
    · exact h3 x hx
    · simp [h1]
  · exact h

theorem scanBounds_onEndpackage {s : ScanState} {n : Nat} (kw : List Char)
    (h : ScanBounds s n) : ScanBounds (onEndpackage kw s) n := by
  unfold onEndpackage
  split
  · split
    · exact ⟨h.1, h.2.1, scanBounds_closeChunk _ h⟩
    · exact h
  · exact h

theorem scanBounds_onModule {s : ScanState} {n : Nat} (kw : List Char)
    (h : ScanBounds s n) : ScanBounds (onModule kw s) n := by
  unfold onModule
  split
  · split
    · obtain ⟨h1, h2, h3⟩ := h
      refine ⟨h1, by simp [h1], ?_⟩
      intro x hx
      simp only [List.mem_append, List.mem_singleton] at hx
      rcases hx with hx | rfl
      · exact h3 x hx
      · simp [h1]
    · exact h
  · exact h

theorem scanBounds_onEndmodule {s : ScanState} {n : Nat} (kw : List Char)
    (h : ScanBounds s n) : ScanBounds (onEndmodule kw s) n := by
  unfold onEndmodule
  split
  · split
    · exact ⟨h.1, h.2.1, scanBounds_closeChunk _ h⟩
    · exact h
  · exact h

theorem scanBounds_onClass {s : ScanState} {n : Nat} (kw : List Char)
    (h : ScanBounds s n) : ScanBounds (onClass kw s) n := by
  unfold onClass
  split
  · split
    · exact ⟨h.1, by simp [h.1], h.2.2⟩
    · exact h
  · exact h

theorem scanBounds_onEndclass {s : ScanState} {n : Nat} (kw : List Char)
    (h : ScanBounds s n) : ScanBounds (onEndclass kw s) n := by
  unfold onEndclass
  split
  · split
    · exact ⟨h.1, h.2.1, scanBounds_pushChunk _ h⟩
    · exact h
  · exact h

theorem scanBounds_onInterface {s : ScanState} {n : Nat} (kw : List Char)
    (h : ScanBounds s n) : ScanBounds (onInterface kw s) n := by
  unfold onInterface
  split
  · split
    · exact ⟨h.1, by simp [h.1], h.2.2⟩
    · exact h
  · exact h

theorem scanBounds_onEndinterface {s : ScanState} {n : Nat} (kw : List Char)
    (h : ScanBounds s n) : ScanBounds (onEndinterface kw s) n := by
  unfold onEndinterface
  split
  · split
    · exact ⟨h.1, h.2.1, scanBounds_pushChunk _ h⟩
    · exact h
  · exact h

theorem scanBounds_onConfig {s : ScanState} {n : Nat} (kw : List Char)
    (h : ScanBounds s n) : ScanBounds (onConfig kw s) n := by
  unfold onConfig
  split
  · exact ⟨h.1, by simp [h.1], h.2.2⟩
  · exact h

theorem scanBounds_onEndconfig {s : ScanState} {n : Nat} (kw : List Char)
    (h : ScanBounds s n) : ScanBounds (onEndconfig kw s) n := by
  unfold onEndconfig
  split
  · split
    · exact ⟨h.1, h.2.1, scanBounds_pushChunk _ h⟩
    · exact h
  · exact h

theorem scanBounds_onChecker {s : ScanState} {n : Nat} (kw : List Char)
    (h : ScanBounds s n) : ScanBounds (onChecker kw s) n := by
  unfold onChecker
  split
  · exact ⟨h.1, by simp [h.1], h.2.2⟩
  · exact h

theorem scanBounds_onEndchecker {s : ScanState} {n : Nat} (kw : List Char)
    (h : ScanBounds s n) : ScanBounds (onEndchecker kw s) n := by
  unfold onEndchecker
  split
  · split
    · exact ⟨h.1, h.2.1, scanBounds_pushChunk _ h⟩
    · exact h
  · exact h

theorem scanBounds_onProgram {s : ScanState} {n : Nat} (kw : List Char)
    (h : ScanBounds s n) : ScanBounds (onProgram kw s) n := by
  unfold onProgram
  split
  · exact ⟨h.1, by simp [h.1], h.2.2⟩
  · exact h

theorem scanBounds_onEndprogram {s : ScanState} {n : Nat} (kw : List Char)
    (h : ScanBounds s n) : ScanBounds (onEndprogram kw s) n := by
  unfold onEndprogram
  split
  · split
    · exact ⟨h.1, h.2.1, scanBounds_pushChunk _ h⟩
    · exact h
  · exact h

theorem scanBounds_onPrimitive {s : ScanState} {n : Nat} (kw : List Char)
    (h : ScanBounds s n) : ScanBounds (onPrimitive kw s) n := by
  unfold onPrimitive
  split
  · exact ⟨h.1, by simp [h.1], h.2.2⟩
  · exact h

theorem scanBounds_onEndprimitive {s : ScanState} {n : Nat} (kw : List Char)
    (h : ScanBounds s n) : ScanBounds (onEndprimitive kw s) n := by
  unfold onEndprimitive
  split
  · split
    · exact ⟨h.1, h.2.1, scanBounds_pushChunk _ h⟩
    · exact h
  · exact h

theorem scanBounds_rememberKeyword {s : ScanState} {n : Nat} (kw : List Char)
    (h : ScanBounds s n) : ScanBounds (rememberKeyword kw s) n := by
  unfold rememberKeyword
  split
  · exact h
  · exact h

theorem scanBounds_keywordActions {s : ScanState} {n : Nat} (kw : List Char) (c : Char)
    (after : List Char) (h : ScanBounds s n) : ScanBounds (keywordActions kw c after s) n := by
  unfold keywordActions
  exact scanBounds_rememberKeyword _ (scanBounds_onEndprimitive _ (scanBounds_onPrimitive _
    (scanBounds_onEndprogram _ (scanBounds_onProgram _ (scanBounds_onEndchecker _
    (scanBounds_onChecker _ (scanBounds_onEndconfig _ (scanBounds_onConfig _
    (scanBounds_onEndinterface _ (scanBounds_onInterface _ (scanBounds_onEndclass _
    (scanBounds_onClass _ (scanBounds_onEndmodule _ (scanBounds_onModule _
    (scanBounds_onEndpackage _ (scanBounds_onPackage _ _ _ h))))))))))))))))

theorem scanBounds_commentStep {s : ScanState} {n : Nat} (c : Char) (ls : LineState)
    (h : ScanBounds s n) : ScanBounds (commentStep c s ls).1 n := by
  unfold commentStep
  split
  · split <;> exact h
  · split
    · exact h
    · split
      · exact h
      · split
        · split <;> exact h
        · exact h

theorem scanBounds_scanChar {s : ScanState} {n : Nat} (c : Char) (after : List Char)
    (ls : LineState) (h : ScanBounds s n) : ScanBounds (scanChar c after s ls).1 n := by
  have h0 : ScanBounds { s with charNb := s.charNb + 1 } n := h
  have h1 := scanBounds_commentStep c ls h0
  unfold scanChar
  simp only
  split
  · split
    · exact h1
    · exact scanBounds_keywordActions _ _ _ h1
  · exact h1

theorem scanBounds_scanChars {n : Nat} (line : List Char) :
    ∀ (s : ScanState) (ls : LineState), ScanBounds s n →
      ScanBounds (scanChars line s ls).1 n := by
  induction line with
  | nil => intro s ls h; exact h
  | cons c after ih =>
    intro s ls h
    unfold scanChars
    exact ih _ _ (scanBounds_scanChar c after ls h)

theorem scanBounds_scanLine {s : ScanState} {n : Nat} (line : List Char)
    (h : ScanBounds s n) : ScanBounds (scanLine s line) (n + 1) := by
  have h0 : ScanBounds { s with lineNb := s.lineNb + 1 } (n + 1) := by
    obtain ⟨h1, h2, h3⟩ := h
    refine ⟨by simp [h1], by simp only; omega, ?_⟩
    intro c hc
    have := h3 c hc
    omega
  have h1 := scanBounds_scanChars line _ {} h0
  unfold scanLine
  simp only
  split
  · split
    · exact h1
    · exact h1
  · exact h1

theorem scanBounds_foldl (lines : List (List Char)) :
    ∀ (s : ScanState) (n : Nat), ScanBounds s n →
      ScanBounds (lines.foldl scanLine s) (n + lines.length) := by
  induction lines with
  | nil => intro s n h; exact h
  | cons l ls ih =>
    intro s n h
    have := ih _ _ (scanBounds_scanLine l h)
    simp only [List.foldl_cons, List.length_cons]
    have e : n + (ls.length + 1) = n + 1 + ls.length := by omega
    rw [e]
    exact this

/-- The scan counts every line of `allLines`, and no recorded line number is
beyond the count. -/
theorem scanBounds_scan (allLines : List (List Char)) :
    ScanBounds (scan allLines) allLines.length := by
  have := scanBounds_foldl allLines {} 0 ⟨rfl, Nat.le_refl _, by intro c hc; cases hc⟩
  simpa [scan] using this

/-! ### The copy loops -/

theorem checkSLlineDirective_of_noDirective (env : Env) (stack : List IncludeFileInfo)
    {line : List Char} (l : Nat) (h : NoDirective line) :
    checkSLlineDirective_ env stack line l = some stack := by
  unfold NoDirective at h
  unfold checkSLlineDirective_
  simp only [h, if_false]

theorem copyPlain_content {env : Env} {allLines : List (List Char)} {toLine : Nat} :
    ∀ (n l : Nat) (cs cs1 : CopyState),
      copyPlain env allLines toLine n l cs = some cs1 →
      cs1.linesWriten = cs.linesWriten + n ∧ ∃ t, cs1.content = cs.content ++ t := by
  intro n
  induction n with
  | zero =>
    intro l cs cs1 h
    simp only [copyPlain, Option.some.injEq] at h
    subst h
    exact ⟨rfl, [], by simp⟩
  | succ k ih =>
    intro l cs cs1 h
    unfold copyPlain at h
    split at h
    · exact absurd h (by simp)
    · split at h
      · exact absurd h (by simp)
      · obtain ⟨h1, t, ht⟩ := ih _ _ _ h
        refine ⟨by simp only at h1; omega, ?_⟩
        simp only [List.append_assoc] at ht
        exact ⟨_, ht⟩

theorem copyPlain_stack {env : Env} {allLines : List (List Char)} {toLine : Nat}
    (hno : ∀ line ∈ allLines, NoDirective line) :
    ∀ (n l : Nat) (cs cs1 : CopyState),
      copyPlain env allLines toLine n l cs = some cs1 → cs1.stack = cs.stack := by
  intro n
  induction n with
  | zero =>
    intro l cs cs1 h
    simp only [copyPlain, Option.some.injEq] at h
    subst h
    rfl
  | succ k ih =>
    intro l cs cs1 h
    unfold copyPlain at h
    split at h
    · exact absurd h (by simp)
    · rename_i line hline
      have hmem : line ∈ allLines := List.getElem?_mem hline
      rw [checkSLlineDirective_of_noDirective env cs.stack l (hno line hmem)] at h
      simp only at h
      have := ih _ _ _ h
      simpa using this

theorem copyPlain_some (env : Env) (allLines : List (List Char)) (toLine : Nat)
    (hno : ∀ line ∈ allLines, NoDirective line) :
    ∀ (n l : Nat) (cs : CopyState), l + n ≤ allLines.length →
      ∃ cs1, copyPlain env allLines toLine n l cs = some cs1 := by
  intro n
  induction n with
  | zero => intro l cs _; exact ⟨cs, rfl⟩
  | succ k ih =>
    intro l cs hle
    have hl : l < allLines.length := by omega
    unfold copyPlain
    rw [List.getElem?_eq_getElem hl]
    simp only
    rw [checkSLlineDirective_of_noDirective env cs.stack l
      (hno _ (List.getElem_mem hl))]
    exact ih _ _ (by omega)

theorem copyBig_content {env : Env} {allLines : List (List Char)} {ty : ElemType}
    {imp : List Char} {hd toLine : Nat} :
    ∀ (n l : Nat) (cs cs1 : BigCopyState),
      copyBig env allLines ty imp hd toLine n l cs = some cs1 →
      cs1.linesWriten = cs.linesWriten + n ∧ ∃ t, cs1.content = cs.content ++ t := by
  intro n
  induction n with
  | zero =>
    intro l cs cs1 h
    simp only [copyBig, Option.some.injEq] at h
    subst h
    exact ⟨rfl, [], by simp⟩
  | succ k ih =>
    intro l cs cs1 h
    unfold copyBig at h
    split at h
    · exact absurd h (by simp)
    · split at h
      · exact absurd h (by simp)
      · obtain ⟨h1, t, ht⟩ := ih _ _ _ h
        refine ⟨by simp only at h1; omega, ?_⟩
        simp only [List.append_assoc] at ht
        exact ⟨_, ht⟩

theorem copyBig_stack {env : Env} {allLines : List (List Char)} {ty : ElemType}
    {imp : List Char} {hd toLine : Nat} (hno : ∀ line ∈ allLines, NoDirective line) :
    ∀ (n l : Nat) (cs cs1 : BigCopyState),
      copyBig env allLines ty imp hd toLine n l cs = some cs1 → cs1.stack = cs.stack := by
  intro n
  induction n with
  | zero =>
    intro l cs cs1 h
    simp only [copyBig, Option.some.injEq] at h
    subst h
    rfl
  | succ k ih =>
    intro l cs cs1 h
    unfold copyBig at h
    split at h
    · exact absurd h (by simp)
    · rename_i line hline
      have hmem : line ∈ allLines := List.getElem?_mem hline
      rw [checkSLlineDirective_of_noDirective env cs.stack l (hno line hmem)] at h
      simp only at h
      have := ih _ _ _ h
      simpa using this

theorem copyBig_some (env : Env) (allLines : List (List Char)) (ty : ElemType)
    (imp : List Char) (hd toLine : Nat) (hno : ∀ line ∈ allLines, NoDirective line) :
    ∀ (n l : Nat) (cs : BigCopyState), l + n ≤ allLines.length →
      ∃ cs1, copyBig env allLines ty imp hd toLine n l cs = some cs1 := by
  intro n
  induction n with
  | zero => intro l cs _; exact ⟨cs, rfl⟩
  | succ k ih =>
    intro l cs hle
    have hl : l < allLines.length := by omega
    unfold copyBig
    rw [List.getElem?_eq_getElem hl]
    simp only
    rw [checkSLlineDirective_of_noDirective env cs.stack l
      (hno _ (List.getElem_mem hl))]
    exact ih _ _ (by omega)

theorem importSectionOf_some (allLines : List (List Char)) :
    ∀ (n hi : Nat) (acc : List Char), hi + n ≤ allLines.length →
      ∃ r, importSectionOf allLines n hi acc = some r := by
  intro n
  induction n with
  | zero => intro hi acc _; exact ⟨acc, rfl⟩
  | succ k ih =>
    intro hi acc hle
    have hl : hi < allLines.length := by omega
    unfold importSectionOf
    rw [List.getElem?_eq_getElem hl]
    exact ih _ _ (by omega)

/-! ### How the branches of the split end -/

theorem reportCannotSplit_lists (fid : PathId) (a : Analyzer) :
    (reportCannotSplit fid a).m_splitFiles = [] ∧
    (reportCannotSplit fid a).m_lineOffsets = [] ∧
    (reportCannotSplit fid a).written = a.written ∧
    (reportCannotSplit fid a).errors =
      a.errors ++ [(ErrorDefinition.PA_CANNOT_SPLIT_FILE, fid)] := by
  simp [reportCannotSplit]

/-- A turn through the class branch that goes on has copied its lines without
a fault, with at most 1000 fragments written before, into one more fragment. -/
theorem classBranch_next {ctx : SplitCtx} {s s1 : SplitState}
    (h : classBranch ctx s = Step.next s1) :
    ∃ toChunk cs,
      ctx.fileChunks[classToIndex ctx s]? = some toChunk ∧
      copyPlain ctx.env ctx.allLines (classToLine ctx (classToIndex ctx s) toChunk)
        (classToLine ctx (classToIndex ctx s) toChunk - s.fromLine) s.fromLine
        { content := setSLlineDirective_ ctx.env s.a.m_includeFileInfo s.fromLine ++
            ("  ".toList ++ ctx.fileLevelImportSection)
          stack := s.a.m_includeFileInfo, linesWriten := s.linesWriten } = some cs ∧
      s.chunkNb ≤ 1000 ∧ s1 = classAfter ctx s toChunk cs := by
  unfold classBranch at h
  split at h
  · exact absurd h (by simp)
  · rename_i toChunk hto
    simp only at h
    split at h
    · exact absurd h (by simp)
    · rename_i cs hcs
      split at h
      · exact absurd h (by simp)
      · rename_i hnb
        exact ⟨toChunk, cs, hto, hcs, by omega, by simpa using h.symm⟩

theorem classBranch_cannotSplit {ctx : SplitCtx} {s : SplitState} {a : Analyzer}
    (h : classBranch ctx s = Step.cannotSplit a) :
    1000 < s.chunkNb ∧ ∃ a0, a0.written = s.a.written ∧ a0.errors = s.a.errors ∧
      a = reportCannotSplit ctx.m_fileId a0 := by
  unfold classBranch at h
  split at h
  · exact absurd h (by simp)
  · simp only at h
    split at h
    · exact absurd h (by simp)
    · split at h
      · rename_i hnb
        exact ⟨hnb, by
          simp only [Step.cannotSplit.injEq, BigStep.cannotSplit.injEq] at h
          subst h
          refine ⟨_, ?_, ?_, rfl⟩ <;> rfl⟩
      · exact absurd h (by simp)

/-- A turn through the branch of a whole package or module that goes on has
copied its lines without a fault into one more fragment. -/
theorem smallBranch_next {ctx : SplitCtx} {s s1 : SplitState} {c : FileChunk}
    (h : smallBranch ctx s c = Step.next s1) :
    ∃ cs,
      copyPlain ctx.env ctx.allLines (smallToLine ctx s c)
        (smallToLine ctx s c - s.fromLine) s.fromLine
        { content := setSLlineDirective_ ctx.env s.a.m_includeFileInfo s.fromLine
          stack := s.a.m_includeFileInfo, linesWriten := s.linesWriten } = some cs ∧
      s.chunkNb ≤ 1000 ∧ s1 = smallAfter ctx s c cs := by
  unfold smallBranch at h
  split at h
  · exact absurd h (by simp)
  · split at h
    · exact absurd h (by simp)
    · simp only at h
      split at h
      · exact absurd h (by simp)
      · rename_i cs hcs
        split at h
        · exact absurd h (by simp)
        · rename_i hnb
          exact ⟨cs, hcs, by omega, by simpa using h.symm⟩

theorem smallBranch_cannotSplit {ctx : SplitCtx} {s : SplitState} {c : FileChunk}
    {a : Analyzer} (h : smallBranch ctx s c = Step.cannotSplit a) :
    ∃ a0, a0.written = s.a.written ∧ a0.errors = s.a.errors ∧
      a = reportCannotSplit ctx.m_fileId a0 := by
  unfold smallBranch at h
  split at h
  · exact absurd h (by simp)
  · split at h
    · (simp only [Step.cannotSplit.injEq] at h; subst h; refine ⟨_, ?_, ?_, rfl⟩ <;> rfl)
    · simp only at h
      split at h
      · exact absurd h (by simp)
      · split at h
        · (simp only [Step.cannotSplit.injEq] at h; subst h; refine ⟨_, ?_, ?_, rfl⟩ <;> rfl)
        · exact absurd h (by simp)

/-- A turn of the loop that breaks up a package or module, when it neither
faults nor reports an error, has copied the lines `[fromLine, toLine)` into
one more fragment. -/
theorem bigIter_written {ctx : SplitCtx} {bc : BigCtx} {b : BigState} {r : BigStep}
    (h : bigIter ctx bc b = r) (hr : (∃ b1, r = BigStep.again b1) ∨ ∃ s2, r = BigStep.leave s2) :
    ∃ toChunk iChunk cs,
      ctx.fileChunks[(bigFound ctx bc b.s).2]? = some toChunk ∧
      ctx.fileChunks[b.s.i]? = some iChunk ∧
      copyBig ctx.env ctx.allLines bc.chunkType bc.importSection iChunk.m_fromLine
        (bigToLine ctx bc (bigFound ctx bc b.s).1 (bigFound ctx bc b.s).2 toChunk)
        (bigToLine ctx bc (bigFound ctx bc b.s).1 (bigFound ctx bc b.s).2 toChunk - b.s.fromLine)
        b.s.fromLine
        { content := bigHead ctx bc b, stack := b.s.a.m_includeFileInfo
          linesWriten := b.s.linesWriten, actualContent := false
          closer := { inString := false, inComment := false
                      endPackageDetected := b.endPackageDetected } } = some cs ∧
      b.s.chunkNb ≤ 1000 ∧
      ((bigFound ctx bc b.s).2 ≥ ctx.fileChunks.length - 1 →
        r = BigStep.leave
          (bigAfter ctx bc b (bigFound ctx bc b.s).1 (bigFound ctx bc b.s).2 toChunk cs)) ∧
      (¬ (bigFound ctx bc b.s).2 ≥ ctx.fileChunks.length - 1 →
        r = BigStep.again
          { splitted := cs.actualContent
            endPackageDetected := cs.closer.endPackageDetected
            sllineInfo := bigDirective ctx b
            s := bigAfter ctx bc b (bigFound ctx bc b.s).1 (bigFound ctx bc b.s).2 toChunk cs }) := by
  unfold bigIter at h
  simp only at h
  split at h
  · rcases hr with ⟨b1, rfl⟩ | ⟨s2, rfl⟩ <;> exact absurd h (by simp)
  · rename_i toChunk hto
    split at h
    · rcases hr with ⟨b1, rfl⟩ | ⟨s2, rfl⟩ <;> exact absurd h (by simp)
    · rename_i iChunk hi
      split at h
      · rcases hr with ⟨b1, rfl⟩ | ⟨s2, rfl⟩ <;> exact absurd h (by simp)
      · rename_i cs hcs
        split at h
        · rcases hr with ⟨b1, rfl⟩ | ⟨s2, rfl⟩ <;> exact absurd h (by simp)
        · rename_i hnb
          refine ⟨toChunk, iChunk, cs, hto, hi, hcs, by omega, ?_, ?_⟩
          · intro hge
            have hge' : (bigAfter ctx bc b (bigFound ctx bc b.s).1 (bigFound ctx bc b.s).2
                toChunk cs).i ≥ ctx.fileChunks.length - 1 := hge
            rw [if_pos hge'] at h
            exact h.symm
          · intro hlt
            have hlt' : ¬ (bigAfter ctx bc b (bigFound ctx bc b.s).1 (bigFound ctx bc b.s).2
                toChunk cs).i ≥ ctx.fileChunks.length - 1 := hlt
            rw [if_neg hlt'] at h
            exact h.symm

/-- What a turn of the loop that breaks up a package or module has done when
the loop goes on. -/
theorem bigIter_again {ctx : SplitCtx} {bc : BigCtx} {b b1 : BigState}
    (h : bigIter ctx bc b = BigStep.again b1) :
    ∃ fin ti tc ic cs,
      fin = (bigFound ctx bc b.s).1 ∧ ti = (bigFound ctx bc b.s).2 ∧
      ctx.fileChunks[ti]? = some tc ∧ ctx.fileChunks[b.s.i]? = some ic ∧
      copyBig ctx.env ctx.allLines bc.chunkType bc.importSection ic.m_fromLine
        (bigToLine ctx bc fin ti tc) (bigToLine ctx bc fin ti tc - b.s.fromLine) b.s.fromLine
        { content := bigHead ctx bc b, stack := b.s.a.m_includeFileInfo
          linesWriten := b.s.linesWriten, actualContent := false
          closer := { inString := false, inComment := false
                      endPackageDetected := b.endPackageDetected } } = some cs ∧
      b.s.chunkNb ≤ 1000 ∧ ¬ ti ≥ ctx.fileChunks.length - 1 ∧
      b1 = { splitted := cs.actualContent
             endPackageDetected := cs.closer.endPackageDetected
             sllineInfo := bigDirective ctx b
             s := bigAfter ctx bc b fin ti tc cs } := by
  obtain ⟨tc, ic, cs, hto, hi, hcs, hnb, hl, ha⟩ := bigIter_written h (Or.inl ⟨b1, rfl⟩)
  by_cases hge : (bigFound ctx bc b.s).2 ≥ ctx.fileChunks.length - 1
  · exact absurd (hl hge) (by simp)
  · have := ha hge
    simp only [BigStep.again.injEq] at this
    exact ⟨_, _, tc, ic, cs, rfl, rfl, hto, hi, hcs, hnb, hge, this⟩

/-- What a turn of the loop that breaks up a package or module has done when
the loop is left by its `break`. -/
theorem bigIter_leave {ctx : SplitCtx} {bc : BigCtx} {b : BigState} {s2 : SplitState}
    (h : bigIter ctx bc b = BigStep.leave s2) :
    ∃ fin ti tc ic cs,
      fin = (bigFound ctx bc b.s).1 ∧ ti = (bigFound ctx bc b.s).2 ∧
      ctx.fileChunks[ti]? = some tc ∧ ctx.fileChunks[b.s.i]? = some ic ∧
      copyBig ctx.env ctx.allLines bc.chunkType bc.importSection ic.m_fromLine
        (bigToLine ctx bc fin ti tc) (bigToLine ctx bc fin ti tc - b.s.fromLine) b.s.fromLine
        { content := bigHead ctx bc b, stack := b.s.a.m_includeFileInfo
          linesWriten := b.s.linesWriten, actualContent := false
          closer := { inString := false, inComment := false
                      endPackageDetected := b.endPackageDetected } } = some cs ∧
      b.s.chunkNb ≤ 1000 ∧ ti ≥ ctx.fileChunks.length - 1 ∧
      s2 = bigAfter ctx bc b fin ti tc cs := by
  obtain ⟨tc, ic, cs, hto, hi, hcs, hnb, hl, ha⟩ := bigIter_written h (Or.inr ⟨s2, rfl⟩)
  by_cases hge : (bigFound ctx bc b.s).2 ≥ ctx.fileChunks.length - 1
  · have := hl hge
    simp only [BigStep.leave.injEq] at this
    exact ⟨_, _, tc, ic, cs, rfl, rfl, hto, hi, hcs, hnb, hge, this⟩
  · exact absurd (ha hge) (by simp)

theorem bigIter_cannotSplit {ctx : SplitCtx} {bc : BigCtx} {b : BigState} {a : Analyzer}
    (h : bigIter ctx bc b = BigStep.cannotSplit a) :
    1000 < b.s.chunkNb ∧ ∃ a0, a0.written = b.s.a.written ∧ a0.errors = b.s.a.errors ∧
      a = reportCannotSplit ctx.m_fileId a0 := by
  unfold bigIter at h
  simp only at h
  split at h
  · exact absurd h (by simp)
  · split at h
    · exact absurd h (by simp)
    · split at h
      · exact absurd h (by simp)
      · split at h
        · rename_i hnb
          exact ⟨hnb, by
          simp only [Step.cannotSplit.injEq, BigStep.cannotSplit.injEq] at h
          subst h
          refine ⟨_, ?_, ?_, rfl⟩ <;> rfl⟩
        · split at h <;> exact absurd h (by simp)

/-! ### Invariants of the loops of the split -/

/-- An invariant of the loop that breaks up a package or module holds when the
loop is left. -/
theorem bigLoop_next_inv {ctx : SplitCtx} {bc : BigCtx} (Q : BigState → Prop)
    (R : SplitState → Prop)
    (hdone : ∀ b, Q b → b.endPackageDetected = true → R b.s)
    (hagain : ∀ b b1, Q b → b.endPackageDetected = false →
      bigIter ctx bc b = BigStep.again b1 → Q b1)
    (hleave : ∀ b s, Q b → b.endPackageDetected = false →
      bigIter ctx bc b = BigStep.leave s → R s) :
    ∀ (fuel : Nat) (b : BigState) (s : SplitState),
      Q b → bigLoop ctx bc fuel b = Step.next s → R s := by
  intro fuel
  induction fuel with
  | zero => intro b s _ h; simp [bigLoop] at h
  | succ n ih =>
    intro b s hq h
    unfold bigLoop at h
    by_cases hd : b.endPackageDetected = true
    · rw [if_pos hd] at h
      simp only [Step.next.injEq] at h
      subst h
      exact hdone b hq hd
    · rw [if_neg hd] at h
      have hd' : b.endPackageDetected = false := by simpa using hd
      cases hit : bigIter ctx bc b with
      | again b1 =>
        rw [hit] at h
        exact ih b1 s (hagain b b1 hq hd' hit) h
      | leave s1 =>
        rw [hit] at h
        simp only [Step.next.injEq] at h
        subst h
        exact hleave b s1 hq hd' hit
      | cannotSplit a => rw [hit] at h; simp at h
      | fault => rw [hit] at h; simp at h

/-- The loop that breaks up a package or module reports an error only through
`reportCannotSplit`. -/
theorem bigLoop_cannotSplit {ctx : SplitCtx} {bc : BigCtx} :
    ∀ (fuel : Nat) (b : BigState) (a : Analyzer),
      bigLoop ctx bc fuel b = Step.cannotSplit a →
      ∃ a0, a = reportCannotSplit ctx.m_fileId a0 := by
  intro fuel
  induction fuel with
  | zero => intro b a h; simp [bigLoop] at h
  | succ n ih =>
    intro b a h
    unfold bigLoop at h
    by_cases hd : b.endPackageDetected = true
    · rw [if_pos hd] at h; simp at h
    · rw [if_neg hd] at h
      cases hit : bigIter ctx bc b with
      | again b1 => rw [hit] at h; exact ih b1 a h
      | leave s1 => rw [hit] at h; simp at h
      | cannotSplit a1 =>
        rw [hit] at h
        simp only [Step.cannotSplit.injEq] at h
        subst h
        obtain ⟨_, a0, _, _, ha⟩ := bigIter_cannotSplit hit
        exact ⟨a0, ha⟩
      | fault => rw [hit] at h; simp at h

/-- The three ways a turn of the split loop goes on. -/
theorem splitIter_next {ctx : SplitCtx} {s s1 : SplitState} {c : FileChunk}
    (h : splitIter ctx s c = Step.next s1) :
    (¬ (c.m_chunkType = ElemType.Package ∨ c.m_chunkType = ElemType.Module) ∧
      classBranch ctx s = Step.next s1) ∨
    ((c.m_chunkType = ElemType.Package ∨ c.m_chunkType = ElemType.Module) ∧
      ∃ packageDeclaration importSection,
        ctx.allLines[c.m_fromLine]? = some packageDeclaration ∧
        importSectionOf ctx.allLines (c.m_toLine - c.m_fromLine) c.m_fromLine [] =
          some importSection ∧
        ((¬ sub32 c.m_toLine c.m_fromLine > ctx.chunkSize ∧
            smallBranch ctx s c = Step.next s1) ∨
         (sub32 c.m_toLine c.m_fromLine > ctx.chunkSize ∧
            bigLoop ctx
              { chunkType := c.m_chunkType, packagelastLine := c.m_toLine
                packageDeclaration := packageDeclaration, importSection := importSection }
              1002
              { splitted := false, endPackageDetected := false, sllineInfo := [], s := s } =
            Step.next s1))) := by
  unfold splitIter at h
  split at h
  · rename_i hty
    right
    refine ⟨hty, ?_⟩
    split at h
    · exact absurd h (by simp)
    · rename_i decl hdecl
      split at h
      · exact absurd h (by simp)
      · rename_i imp himp
        refine ⟨decl, imp, hdecl, himp, ?_⟩
        split at h
        · rename_i hbig
          exact Or.inr ⟨hbig, h⟩
        · rename_i hsmall
          exact Or.inl ⟨hsmall, h⟩
  · rename_i hty
    exact Or.inl ⟨hty, h⟩

/-- A turn of the split loop reports an error only through `reportCannotSplit`. -/
theorem splitIter_cannotSplit {ctx : SplitCtx} {s : SplitState} {c : FileChunk}
    {a : Analyzer} (h : splitIter ctx s c = Step.cannotSplit a) :
    ∃ a0, a = reportCannotSplit ctx.m_fileId a0 := by
  unfold splitIter at h
  split at h
  · split at h
    · exact absurd h (by simp)
    · split at h
      · exact absurd h (by simp)
      · split at h
        · exact bigLoop_cannotSplit _ _ _ h
        · obtain ⟨a0, _, _, ha⟩ := smallBranch_cannotSplit h
          exact ⟨a0, ha⟩
  · obtain ⟨_, a0, _, _, ha⟩ := classBranch_cannotSplit h
    exact ⟨a0, ha⟩

/-- An invariant of the split loop holds of the state the loop ends in. -/
theorem splitLoop_split_inv {ctx : SplitCtx} (P : SplitState → Prop)
    (hstep : ∀ s c s1, P s → ctx.fileChunks[s.i]? = some c →
      splitIter ctx s c = Step.next s1 → P { s1 with i := s1.i + 1 }) :
    ∀ (fuel : Nat) (s : SplitState) (a : Analyzer),
      P s → splitLoop ctx fuel s = Outcome.split a → ∃ s1, P s1 ∧ s1.a = a := by
  intro fuel
  induction fuel with
  | zero => intro s a _ h; simp [splitLoop] at h
  | succ n ih =>
    intro s a hp h
    unfold splitLoop at h
    cases hc : ctx.fileChunks[s.i]? with
    | none =>
      rw [hc] at h
      simp only [Outcome.split.injEq] at h
      exact ⟨s, hp, h⟩
    | some c =>
      rw [hc] at h
      simp only at h
      cases hit : splitIter ctx s c with
      | next s1 =>
        rw [hit] at h
        exact ih _ a (hstep s c s1 hp hc hit) h
      | cannotSplit a1 => rw [hit] at h; simp at h
      | fault => rw [hit] at h; simp at h
      | outOfFuel => rw [hit] at h; simp at h

/-- The split loop reports an error only through `reportCannotSplit`. -/
theorem splitLoop_cannotSplit {ctx : SplitCtx} :
    ∀ (fuel : Nat) (s : SplitState) (a : Analyzer),
      splitLoop ctx fuel s = Outcome.cannotSplit a →
      ∃ a0, a = reportCannotSplit ctx.m_fileId a0 := by
  intro fuel
  induction fuel with
  | zero => intro s a h; simp [splitLoop] at h
  | succ n ih =>
    intro s a h
    unfold splitLoop at h
    cases hc : ctx.fileChunks[s.i]? with
    | none => rw [hc] at h; simp at h
    | some c =>
      rw [hc] at h
      simp only at h
      cases hit : splitIter ctx s c with
      | next s1 => rw [hit] at h; exact ih _ a h
      | cannotSplit a1 =>
        rw [hit] at h
        simp only [Outcome.cannotSplit.injEq] at h
        subst h
        exact splitIter_cannotSplit hit
      | fault => rw [hit] at h; simp at h
      | outOfFuel => rw [hit] at h; simp at h

/-! ### The number of fragments -/

theorem countInv_bigAfter {ctx : SplitCtx} {bc : BigCtx} {b : BigState} {n0 w0 : Nat}
    (fin : Bool) (ti : Nat) (tc : FileChunk) (cs : BigCopyState)
    (h : CountInv n0 w0 b.s) (hnb : b.s.chunkNb ≤ 1000) :
    CountInv n0 w0 (bigAfter ctx bc b fin ti tc cs) := by
  obtain ⟨h1, h2, _⟩ := h
  refine ⟨?_, ?_, ?_⟩
  · simp only [bigAfter, List.length_append, List.length_singleton]; omega
  · simp only [bigAfter, List.length_append, List.length_singleton]; omega
  · simp only [bigAfter]; omega

theorem countInv_step {ctx : SplitCtx} {n0 w0 : Nat} (s : SplitState) (c : FileChunk)
    (s1 : SplitState) (h : CountInv n0 w0 s) (hit : splitIter ctx s c = Step.next s1) :
    CountInv n0 w0 { s1 with i := s1.i + 1 } := by
  have key : CountInv n0 w0 s1 := by
    rcases splitIter_next hit with ⟨_, hcl⟩ | ⟨_, decl, imp, _, _, ⟨_, hsm⟩ | ⟨_, hbig⟩⟩
    · obtain ⟨toChunk, cs, _, _, hnb, rfl⟩ := classBranch_next hcl
      obtain ⟨h1, h2, _⟩ := h
      refine ⟨?_, ?_, ?_⟩
      · simp only [classAfter, List.length_append, List.length_singleton]; omega
      · simp only [classAfter, List.length_append, List.length_singleton]; omega
      · simp only [classAfter]; omega
    · obtain ⟨cs, _, hnb, rfl⟩ := smallBranch_next hsm
      obtain ⟨h1, h2, _⟩ := h
      refine ⟨?_, ?_, ?_⟩
      · simp only [smallAfter, List.length_append, List.length_singleton]; omega
      · simp only [smallAfter, List.length_append, List.length_singleton]; omega
      · simp only [smallAfter]; omega
    · refine bigLoop_next_inv (fun b => CountInv n0 w0 b.s) (CountInv n0 w0)
        (fun b hq _ => hq) ?_ ?_ 1002 _ s1 h hbig
      · intro b b1 hq _ hb
        obtain ⟨fin, ti, tc, ic, cs, _, _, _, _, _, hnb, _, rfl⟩ := bigIter_again hb
        exact countInv_bigAfter _ _ _ _ hq hnb
      · intro b s2 hq _ hb
        obtain ⟨fin, ti, tc, ic, cs, _, _, _, _, _, hnb, _, rfl⟩ := bigIter_leave hb
        exact countInv_bigAfter _ _ _ _ hq hnb
  exact key

/-- The split loop never ends with the text handed over whole. -/
theorem splitLoop_ne_whole (ctx : SplitCtx) (a : Analyzer) :
    ∀ (fuel : Nat) (s : SplitState), splitLoop ctx fuel s ≠ Outcome.whole a := by
  intro fuel
  induction fuel with
  | zero => intro s; simp [splitLoop]
  | succ n ih =>
    intro s
    unfold splitLoop
    split
    · simp
    · split
      · exact ih _
      · simp
      · simp
      · simp

/-- C9 (amended): a run of `analyze` that ends without an error has added at
most 1001 split files, and written at most 1001 fragments: the check
`chunkNb > 1000` is made before fragment number `chunkNb` is written, so the
fragments numbered 0 to 1000 pass it. -/
theorem analyze_split_atMost_1001 (env : Env) (cfg : Config) (a0 a : Analyzer)
    (h : analyze env cfg a0 = Outcome.split a ∨ analyze env cfg a0 = Outcome.whole a) :
    a.m_splitFiles.length ≤ a0.m_splitFiles.length + 1001 ∧
      a.written.length ≤ a0.written.length + 1001 := by
  unfold analyze at h
  simp only at h
  split at h
  · rcases h with h | h
    · exact absurd h (by simp)
    · simp only [Outcome.whole.injEq] at h
      subst h
      simp
  · split at h
    · rcases h with h | h <;> exact absurd h (by simp)
    · rcases h with h | h
      · obtain ⟨s1, ⟨h1, h2, h3⟩, rfl⟩ :=
          splitLoop_split_inv (CountInv a0.m_splitFiles.length a0.written.length)
            (fun s c s1 hp _ hit => countInv_step s c s1 hp hit) _ _ a
            (by simp [CountInv]) h
        omega
      · exact absurd h (splitLoop_ne_whole _ _ _ _)

/-! ### The gate and the error returns -/

/-- C7 (amended): on a fresh analyzer, `analyze` hands the text over whole, with
the preprocessed file as the one split file, `0` as the one line offset and no
chunk file written, exactly when a maximum number of processes is set, or the
line count of the scan is below the splitting threshold, or fewer than 2
chunks are asked for; in every other case, so exactly when the scanned line
count is at least the threshold, at least 2 chunks are asked for and no
maximum number of processes is set, the split is attempted. -/
theorem analyze_whole_iff (env : Env) (cfg : Config) :
    (cfg.nbMaxProcesses ≠ 0 ∨
      (scan (mkAllLines env cfg.m_ppFileId cfg.m_text)).lineNb < cfg.nbLinesForFileSpliting ∨
      cfg.m_nbChunks < 2) ↔
    ∃ a, analyze env cfg {} = Outcome.whole a ∧ a.m_splitFiles = [cfg.m_ppFileId] ∧
      a.m_lineOffsets = [0] ∧ a.written = [] ∧ a.errors = [] := by
  constructor
  · intro h
    have hw : staysWhole cfg (scan (mkAllLines env cfg.m_ppFileId cfg.m_text)).lineNb = true := by
      simp only [staysWhole, Bool.or_eq_true, bne_iff_ne, ne_eq, decide_eq_true_eq]
      tauto
    unfold analyze
    simp only [hw, if_true]
    exact ⟨_, rfl, rfl, rfl, rfl, rfl⟩
  · rintro ⟨a, h, -⟩
    unfold analyze at h
    simp only at h
    split at h
    · rename_i hw
      simp only [staysWhole, Bool.or_eq_true, bne_iff_ne, ne_eq, decide_eq_true_eq] at hw
      tauto
    · split at h
      · exact absurd h (by simp)
      · exact absurd h (splitLoop_ne_whole _ _ _ _)

/-- C8: when the gate lets the split be attempted and the scan of the whole
text ends inside a block comment or a string literal, `analyze` writes no
fragment, leaves no split file and reports `PA_CANNOT_SPLIT_FILE`. -/
theorem analyze_unterminated (env : Env) (cfg : Config) (a0 : Analyzer)
    (hproc : cfg.nbMaxProcesses = 0)
    (hsize : cfg.nbLinesForFileSpliting ≤
      (scan (mkAllLines env cfg.m_ppFileId cfg.m_text)).lineNb)
    (hchunks : 2 ≤ cfg.m_nbChunks)
    (hopen : (scan (mkAllLines env cfg.m_ppFileId cfg.m_text)).inComment = true ∨
      (scan (mkAllLines env cfg.m_ppFileId cfg.m_text)).inString = true) :
    ∃ a, analyze env cfg a0 = Outcome.cannotSplit a ∧ a.written = a0.written ∧
      a.m_splitFiles = [] ∧ a.m_lineOffsets = [] ∧
      a.errors = a0.errors ++ [(ErrorDefinition.PA_CANNOT_SPLIT_FILE, cfg.m_fileId)] := by
  have hw : staysWhole cfg (scan (mkAllLines env cfg.m_ppFileId cfg.m_text)).lineNb = false := by
    simp only [staysWhole, Bool.or_eq_false_iff, bne_eq_false_iff_eq, decide_eq_false_iff_not]
    omega
  have ho : ((scan (mkAllLines env cfg.m_ppFileId cfg.m_text)).inComment ||
      (scan (mkAllLines env cfg.m_ppFileId cfg.m_text)).inString) = true := by
    simpa using hopen
  unfold analyze
  simp only [hw, ho, if_true, Bool.false_eq_true, if_false]
  exact ⟨_, rfl, rfl, rfl, rfl, rfl⟩

/-- C10 (amended): whenever `analyze` reports `PA_CANNOT_SPLIT_FILE`, it returns
with `m_splitFiles` and `m_lineOffsets` both empty: no split file is
designated, the unsplit file included. -/
theorem analyze_cannotSplit_lists_empty (env : Env) (cfg : Config) (a0 a : Analyzer)
    (h : analyze env cfg a0 = Outcome.cannotSplit a) :
    a.m_splitFiles = [] ∧ a.m_lineOffsets = [] ∧
      (ErrorDefinition.PA_CANNOT_SPLIT_FILE, cfg.m_fileId) ∈ a.errors := by
  have key : ∃ a1, a = reportCannotSplit cfg.m_fileId a1 := by
    unfold analyze at h
    simp only at h
    split at h
    · exact absurd h (by simp)
    · split at h
      · simp only [Outcome.cannotSplit.injEq] at h
        exact ⟨_, h.symm⟩
      · exact splitLoop_cannotSplit _ _ _ h
  obtain ⟨a1, rfl⟩ := key
  simp [reportCannotSplit]

/-! ### A text with a single package or module -/

theorem sub32_of_le {a b : Nat} (hab : b ≤ a) (ha : a < 2 ^ 32) : sub32 a b = a - b := by
  unfold sub32
  have h1 : b % 2 ^ 32 = b := Nat.mod_eq_of_lt (by omega)
  rw [h1]
  have h2 : a + 2 ^ 32 - b = (a - b) + 2 ^ 32 := by omega
  rw [h2, Nat.add_mod_right]
  exact Nat.mod_eq_of_lt (by omega)

/-- The split loop on a single package or module that is larger than
`chunkSize`: one fragment with all the lines. -/
theorem splitLoop_single (ctx : SplitCtx) (s0 : SplitState) (c : FileChunk)
    (hone : ctx.fileChunks = [c])
    (hkind : c.m_chunkType = ElemType.Package ∨ c.m_chunkType = ElemType.Module)
    (hbig : sub32 c.m_toLine c.m_fromLine > ctx.chunkSize)
    (hfrom : c.m_fromLine ≤ c.m_toLine) (hfrom1 : c.m_fromLine < ctx.allLines.length)
    (hto : c.m_toLine ≤ ctx.allLines.length)
    (hno : ∀ line ∈ ctx.allLines, NoDirective line)
    (hi : s0.i = 0) (hfl : s0.fromLine = 1) (hnb : s0.chunkNb = 0) :
    ∃ a, splitLoop ctx 2 s0 = Outcome.split a ∧
      a.m_splitFiles = s0.a.m_splitFiles ++ [ctx.env.getChunkFile ctx.m_ppFileId 0] ∧
      a.written.map (fun f => (f.fromLine, f.toLine)) =
        s0.a.written.map (fun f => (f.fromLine, f.toLine)) ++ [(1, ctx.allLines.length)] := by
  obtain ⟨decl, hdecl⟩ : ∃ d, ctx.allLines[c.m_fromLine]? = some d :=
    ⟨_, List.getElem?_eq_getElem hfrom1⟩
  obtain ⟨imp, himp⟩ := importSectionOf_some ctx.allLines
    (c.m_toLine - c.m_fromLine) c.m_fromLine [] (by omega)
  obtain ⟨bc, hbc⟩ : ∃ bc : BigCtx, bc = ⟨c.m_chunkType, c.m_toLine, decl, imp⟩ := ⟨_, rfl⟩
  obtain ⟨b0, hb0⟩ : ∃ b0 : BigState, b0 = ⟨false, false, [], s0⟩ := ⟨_, rfl⟩
  have g1 : b0.s = s0 := by rw [hb0]
  have g2 : b0.endPackageDetected = false := by rw [hb0]
  have hfound : bigFound ctx bc s0 = (false, 0) := by
    simp [bigFound, hone, hi, findBig]
  have hto1 : bigToLine ctx bc false 0 c = ctx.allLines.length := by
    simp [bigToLine, hone]
  obtain ⟨cs, hcs⟩ := copyBig_some ctx.env ctx.allLines bc.chunkType bc.importSection
    c.m_fromLine ctx.allLines.length hno
    (ctx.allLines.length - 1) 1
    { content := bigHead ctx bc b0, stack := b0.s.a.m_includeFileInfo,
      linesWriten := b0.s.linesWriten, actualContent := false,
      closer := { inString := false, inComment := false,
                  endPackageDetected := b0.endPackageDetected } } (by omega)
  have hiter : bigIter ctx bc b0 = BigStep.leave (bigAfter ctx bc b0 false 0 c cs) := by
    unfold bigIter
    simp only [g1, hfound, hone, List.getElem?_cons_zero, hto1, hi, hfl, hnb]
    simp only [g1] at hcs
    rw [hcs]
    simp [bigAfter, hone]
  have hloop : bigLoop ctx bc 1002 b0 = Step.next (bigAfter ctx bc b0 false 0 c cs) := by
    unfold bigLoop
    simp only [g2, Bool.false_eq_true, if_false, hiter]
  have hsplitIter : splitIter ctx s0 c = Step.next (bigAfter ctx bc b0 false 0 c cs) := by
    unfold splitIter
    rw [if_pos hkind, hdecl]
    simp only [himp]
    rw [if_pos hbig, ← hbc, ← hb0]
    exact hloop
  refine ⟨(bigAfter ctx bc b0 false 0 c cs).a, ?_, ?_, ?_⟩
  · unfold splitLoop
    simp only [hone, hi, List.getElem?_cons_zero, hsplitIter]
    unfold splitLoop
    simp [hone, bigAfter]
  · simp [bigAfter, g1, hnb]
  · simp [bigAfter, g1, hfl, hto1]

/-- When the scan of the text records a single construct, a package or module
whose line extent is larger than `chunkSize`, the gate lets the split be
attempted and no line of the text is an `SLline` directive, `analyze` ends with
a split and one fragment, which holds all the lines of the text. -/
theorem single_module_one_fragment (env : Env) (cfg : Config) (c : FileChunk)
    (hproc : cfg.nbMaxProcesses = 0)
    (hsize : cfg.nbLinesForFileSpliting ≤
      (scan (mkAllLines env cfg.m_ppFileId cfg.m_text)).lineNb)
    (hchunks : 2 ≤ cfg.m_nbChunks)
    (hcomment : (scan (mkAllLines env cfg.m_ppFileId cfg.m_text)).inComment = false)
    (hstring : (scan (mkAllLines env cfg.m_ppFileId cfg.m_text)).inString = false)
    (hone : (scan (mkAllLines env cfg.m_ppFileId cfg.m_text)).fileChunks = [c])
    (hkind : c.m_chunkType = ElemType.Package ∨ c.m_chunkType = ElemType.Module)
    (hbig : c.m_toLine - c.m_fromLine >
      (scan (mkAllLines env cfg.m_ppFileId cfg.m_text)).lineNb / cfg.m_nbChunks)
    (hlen : (mkAllLines env cfg.m_ppFileId cfg.m_text).length < 2 ^ 32)
    (hno : ∀ line ∈ mkAllLines env cfg.m_ppFileId cfg.m_text, NoDirective line) :
    ∃ a, analyze env cfg {} = Outcome.split a ∧
      a.m_splitFiles = [env.getChunkFile cfg.m_ppFileId 0] ∧
      a.written.map (fun f => (f.fromLine, f.toLine)) =
        [(1, (mkAllLines env cfg.m_ppFileId cfg.m_text).length)] := by
  obtain ⟨hnb, _, hch⟩ := scanBounds_scan (mkAllLines env cfg.m_ppFileId cfg.m_text)
  have hc := hch c (by rw [hone]; exact List.mem_singleton_self c)
  have hw : staysWhole cfg (scan (mkAllLines env cfg.m_ppFileId cfg.m_text)).lineNb = false := by
    simp only [staysWhole, Bool.or_eq_false_iff, bne_eq_false_iff_eq, decide_eq_false_iff_not]
    omega
  have hlt : c.m_fromLine < c.m_toLine := by
    have := Nat.zero_le ((scan (mkAllLines env cfg.m_ppFileId cfg.m_text)).lineNb / cfg.m_nbChunks)
    omega
  have hsub : sub32 c.m_toLine c.m_fromLine = c.m_toLine - c.m_fromLine :=
    sub32_of_le (by omega) (by omega)
  have hfuel : (scan (mkAllLines env cfg.m_ppFileId cfg.m_text)).fileChunks.length + 1 = 2 := by
    rw [hone]; rfl
  unfold analyze
  simp only [hw, hcomment, hstring, Bool.or_self, Bool.false_eq_true, if_false]
  rw [hfuel]
  have key := splitLoop_single
    { env := env, m_ppFileId := cfg.m_ppFileId, m_fileId := cfg.m_fileId,
              allLines := mkAllLines env cfg.m_ppFileId cfg.m_text,
              fileChunks := (scan (mkAllLines env cfg.m_ppFileId cfg.m_text)).fileChunks,
              chunkSize := (scan (mkAllLines env cfg.m_ppFileId cfg.m_text)).lineNb /
                cfg.m_nbChunks,
              fileLevelImportSection :=
                (scan (mkAllLines env cfg.m_ppFileId cfg.m_text)).fileLevelImportSection }
    { i := 0, fromLine := 1, toIndex := 0, chunkNb := 0, linesWriten := 0,
             a := { orderedPackages := ([] : List (List Char)) ++
                      (scan (mkAllLines env cfg.m_ppFileId cfg.m_text)).orderedPackages,
                    m_includeFileInfo := initialFrame cfg.m_fileId :: [] } }
    c hone hkind (by rw [hsub]; exact hbig) (by omega)
    (by show c.m_fromLine < (mkAllLines env cfg.m_ppFileId cfg.m_text).length; omega)
    hc.2 hno rfl rfl rfl
  simpa using key

/-! ### The directive at the head of a fragment -/

/-- The directive made under the initial provenance frame alone carries the
line number it is made for. -/
theorem setSLlineDirective_initialFrame (env : Env) (fid : PathId)
    (below : List IncludeFileInfo) {n : Nat} (h1 : 1 ≤ n) (h2 : n < 2 ^ 32) :
    setSLlineDirective_ env (initialFrame fid :: below) n =
      "SLline ".toList ++ Nat.toDigits 10 n ++ " ".toList ++ env.getSymbol BadSymbolId ++
        "^".toList ++ env.toPath fid ++ " 1".toList ++ [lineFeed] := by
  have e : (sub32 n 1 + 1) % 2 ^ 32 = n := by
    rw [sub32_of_le h1 h2]
    have : n - 1 + 1 = n := by omega
    rw [this]
    exact Nat.mod_eq_of_lt h2
  simp only [setSLlineDirective_, initialFrame, e]

/-! ### A line of many classes -/

theorem scanChar_letter {c : Char} {after : List Char} {s : ScanState} {ls : LineState}
    (hc : IsLetter c) (hafter : after ≠ []) (h1 : s.inComment = false)
    (h2 : s.inString = false) (h3 : ls.inLineComment = false) :
    scanChar c after s ls =
      ({ s with charNb := s.charNb + 1 }, { ls with keyword := ls.keyword ++ [c], cp := c }) := by
  obtain ⟨hid, hstar, hslash, hquote⟩ := hc
  have e1 : (c == '*') = false := by simpa using hstar
  have e2 : (c == '/') = false := by simpa using hslash
  have e3 : (c == dquote) = false := by simpa using hquote
  have e4 : after.isEmpty = false := by
    cases after with
    | nil => exact absurd rfl hafter
    | cons _ _ => rfl
  simp [scanChar, commentStep, e1, e2, e3, e4, h1, h2, h3, hid]

theorem scanChar_space {after : List Char} {s : ScanState} {ls : LineState}
    (h1 : s.inComment = false) (h2 : s.inString = false) (h3 : ls.inLineComment = false) :
    scanChar ' ' after s ls =
      (keywordActions ls.keyword ' ' after { s with charNb := s.charNb + 1 },
       { ls with keyword := [], cp := ' ' }) := by
  have e1 : ((' ' : Char) == '*') = false := by decide
  have e2 : ((' ' : Char) == '/') = false := by decide
  have e3 : ((' ' : Char) == dquote) = false := by decide
  have e4 : isIdentChar ' ' = false := by decide
  simp [scanChar, commentStep, e1, e2, e3, e4, h1, h2, h3]

/-- The scan of a word of letters followed by a space: the letters are gathered,
and at the space the word is acted upon. -/
theorem scanChars_word (w : List Char) :
    ∀ (after : List Char) (s : ScanState) (ls : LineState),
      (∀ c ∈ w, IsLetter c) → s.inComment = false → s.inString = false →
      ls.inLineComment = false →
      scanChars (w ++ ' ' :: after) s ls =
        scanChars after
          (keywordActions (ls.keyword ++ w) ' ' after { s with charNb := s.charNb + w.length + 1 })
          { ls with keyword := [], cp := ' ' } := by
  induction w with
  | nil =>
    intro after s ls _ h1 h2 h3
    simp only [List.nil_append, scanChars, List.append_nil, List.length_nil, Nat.add_zero]
    rw [scanChar_space h1 h2 h3]
  | cons c cs ih =>
    intro after s ls hw h1 h2 h3
    have e : (c :: cs) ++ ' ' :: after = c :: (cs ++ ' ' :: after) := rfl
    rw [e, scanChars]
    rw [scanChar_letter (hw c (List.mem_cons_self _ _)) (by simp) h1 h2 h3]
    simp only
    rw [ih after { s with charNb := s.charNb + 1 }
      { ls with keyword := ls.keyword ++ [c], cp := c }
      (fun x hx => hw x (List.mem_cons_of_mem _ hx)) h1 h2 h3]
    simp only [List.append_assoc, List.singleton_append, List.length_cons]
    have : s.charNb + 1 + cs.length + 1 = s.charNb + (cs.length + 1) + 1 := by omega
    rw [this]

/-- The scan of a word of letters followed by a space, in terms of what the
recognition of classes reads. -/
theorem scanChars_word_agree (w : List Char) (after : List Char) (s : ScanState)
    (ls : LineState) (hw : ∀ c ∈ w, IsLetter c) (h1 : s.inComment = false)
    (h2 : s.inString = false) (h3 : ls.inLineComment = false) :
    ∃ s0 ls0, scanChars (w ++ ' ' :: after) s ls =
        scanChars after (keywordActions (ls.keyword ++ w) ' ' after s0) ls0 ∧
      Agree s0 s ∧ ls0.keyword = [] ∧ ls0.inLineComment = false :=
  ⟨_, _, scanChars_word w after s ls hw h1 h2 h3, ⟨rfl, rfl, rfl, rfl, rfl, rfl, rfl⟩, rfl, h3⟩

/-- What the scan does with the word `class` outside a class. -/
theorem keywordActions_class (c : Char) (after : List Char) {s : ScanState}
    (hprev : s.prev_keyword ≠ "typedef".toList) (hin : s.inClass = 0) :
    keywordActions "class".toList c after s =
      { s with
        startLine := s.lineNb, startChar := s.charNb, inClass := 1
        prev_prev_keyword :=
          if s.prev_keyword.isEmpty then s.prev_prev_keyword else s.prev_keyword
        prev_keyword := "class".toList } := by
  have n0 : ¬ ("class".toList = "package".toList) := by decide
  have n1 : ¬ ("class".toList = "endpackage".toList) := by decide
  have n2 : ¬ ("class".toList = "module".toList) := by decide
  have n3 : ¬ ("class".toList = "endmodule".toList) := by decide
  have n5 : ¬ ("class".toList = "endclass".toList) := by decide
  have n6 : ¬ ("class".toList = "interface".toList) := by decide
  have n7 : ¬ ("class".toList = "endinterface".toList) := by decide
  have n8 : ¬ ("class".toList = "config".toList) := by decide
  have n9 : ¬ ("class".toList = "endconfig".toList) := by decide
  have n10 : ¬ ("class".toList = "checker".toList) := by decide
  have n11 : ¬ ("class".toList = "endchecker".toList) := by decide
  have n12 : ¬ ("class".toList = "program".toList) := by decide
  have n13 : ¬ ("class".toList = "endprogram".toList) := by decide
  have n14 : ¬ ("class".toList = "primitive".toList) := by decide
  have n15 : ¬ ("class".toList = "endprimitive".toList) := by decide
  have e : ¬ ("class".toList.isEmpty = true) := by decide
  simp only [keywordActions, onPackage, onEndpackage, onModule, onEndmodule, onEndclass, onInterface, onEndinterface, onConfig, onEndconfig, onChecker, onEndchecker, onProgram, onEndprogram, onPrimitive, onEndprimitive, onClass, rememberKeyword,
    n0, n1, n2, n3, n5, n6, n7, n8, n9, n10, n11, n12, n13, n14, n15, if_false, hprev, hin, ne_eq, not_false_eq_true, and_self, if_true, e]
  rfl

/-- What the scan does with the word `endclass` that closes the outermost
class: the class is recorded from `startLine` to the current line. -/
theorem keywordActions_endclass (c : Char) (after : List Char) {s : ScanState}
    (hin : s.inClass = 1) :
    keywordActions "endclass".toList c after s =
      { s with
        fileChunks := pushChunk ElemType.Class s, nbClass := s.nbClass + 1, inClass := 0
        prev_prev_keyword :=
          if s.prev_keyword.isEmpty then s.prev_prev_keyword else s.prev_keyword
        prev_keyword := "endclass".toList } := by
  have n0 : ¬ ("endclass".toList = "package".toList) := by decide
  have n1 : ¬ ("endclass".toList = "endpackage".toList) := by decide
  have n2 : ¬ ("endclass".toList = "module".toList) := by decide
  have n3 : ¬ ("endclass".toList = "endmodule".toList) := by decide
  have n4 : ¬ ("endclass".toList = "class".toList) := by decide
  have n6 : ¬ ("endclass".toList = "interface".toList) := by decide
  have n7 : ¬ ("endclass".toList = "endinterface".toList) := by decide
  have n8 : ¬ ("endclass".toList = "config".toList) := by decide
  have n9 : ¬ ("endclass".toList = "endconfig".toList) := by decide
  have n10 : ¬ ("endclass".toList = "checker".toList) := by decide
  have n11 : ¬ ("endclass".toList = "endchecker".toList) := by decide
  have n12 : ¬ ("endclass".toList = "program".toList) := by decide
  have n13 : ¬ ("endclass".toList = "endprogram".toList) := by decide
  have n14 : ¬ ("endclass".toList = "primitive".toList) := by decide
  have n15 : ¬ ("endclass".toList = "endprimitive".toList) := by decide
  have e : ¬ ("endclass".toList.isEmpty = true) := by decide
  simp only [keywordActions, onPackage, onEndpackage, onModule, onEndmodule, onClass, onInterface, onEndinterface, onConfig, onEndconfig, onChecker, onEndchecker, onProgram, onEndprogram, onPrimitive, onEndprimitive, onEndclass, rememberKeyword,
    n0, n1, n2, n3, n4, n6, n7, n8, n9, n10, n11, n12, n13, n14, n15, if_false, hin, if_true, e, false_and]
  rfl

theorem keywordActions_class_props (c : Char) (after : List Char) {s : ScanState}
    (hprev : s.prev_keyword ≠ "typedef".toList) (hin : s.inClass = 0) :
    (keywordActions "class".toList c after s).inComment = s.inComment ∧
    (keywordActions "class".toList c after s).inString = s.inString ∧
    (keywordActions "class".toList c after s).inClass = 1 ∧
    (keywordActions "class".toList c after s).fileChunks = s.fileChunks ∧
    (keywordActions "class".toList c after s).lineNb = s.lineNb ∧
    (keywordActions "class".toList c after s).startLine = s.lineNb := by
  rw [keywordActions_class c after hprev hin]
  exact ⟨rfl, rfl, rfl, rfl, rfl, rfl⟩

theorem keywordActions_endclass_props (c : Char) (after : List Char) {s : ScanState}
    (hin : s.inClass = 1) :
    (keywordActions "endclass".toList c after s).inComment = s.inComment ∧
    (keywordActions "endclass".toList c after s).inString = s.inString ∧
    (keywordActions "endclass".toList c after s).inClass = 0 ∧
    (keywordActions "endclass".toList c after s).prev_keyword = "endclass".toList ∧
    (keywordActions "endclass".toList c after s).lineNb = s.lineNb ∧
    (keywordActions "endclass".toList c after s).fileChunks =
      s.fileChunks ++
        [{ m_chunkType := ElemType.Class, m_fromLine := s.startLine, m_toLine := s.lineNb
           m_startChar := s.startChar, m_endChar := s.charNb }] := by
  rw [keywordActions_endclass c after hin]
  exact ⟨rfl, rfl, rfl, rfl, rfl, rfl⟩

theorem classesLine_succ (n : Nat) :
    classesLine (n + 1) = "class endclass ".toList ++ classesLine n := by
  simp [classesLine, List.replicate_succ]

theorem classesLine_succ_last (n : Nat) :
    classesLine (n + 1) = classesLine n ++ "class endclass ".toList := by
  simp [classesLine, List.replicate_succ']

theorem classesLine_mem {n : Nat} {c : Char} (h : c ∈ classesLine n) :
    c ∈ "class endclass ".toList := by
  simp only [classesLine, List.mem_flatten, List.mem_replicate] at h
  obtain ⟨l, ⟨_, rfl⟩, hc⟩ := h
  exact hc

/-- The scan of one empty class `class endclass ` outside every construct:
one more class is recorded, on the current line. -/
theorem scanChars_classBlock {n t : Nat} (after : List Char) (s : ScanState) (ls : LineState)
    (h : ClassesOnly s n t) (hl : s.lineNb = t) (hk : ls.keyword = [])
    (h3 : ls.inLineComment = false) :
    ∃ s1 ls1, scanChars ("class endclass ".toList ++ after) s ls = scanChars after s1 ls1 ∧
      ClassesOnly s1 (n + 1) t ∧ s1.lineNb = t ∧ ls1.keyword = [] ∧
      ls1.inLineComment = false := by
  obtain ⟨c1, c2, c3, c4, c5, c6⟩ := h
  have e : "class endclass ".toList ++ after =
      "class".toList ++ ' ' :: ("endclass".toList ++ ' ' :: after) := rfl
  obtain ⟨s0, ls0, e1, ⟨a1, a2, a3, a4, a5, a6, _⟩, k0, l0⟩ :=
    scanChars_word_agree "class".toList ("endclass".toList ++ ' ' :: after) s ls
      (by decide) c1 c2 h3
  rw [hk, List.nil_append] at e1
  obtain ⟨p1, p2, p3, p4, p5, p6⟩ :=
    keywordActions_class_props ' ' ("endclass".toList ++ ' ' :: after) (s := s0)
      (by rw [a4]; exact c4) (by rw [a3]; exact c3)
  obtain ⟨sA, hsA⟩ : ∃ sA, sA =
      keywordActions "class".toList ' ' ("endclass".toList ++ ' ' :: after) s0 := ⟨_, rfl⟩
  rw [← hsA] at e1 p1 p2 p3 p4 p5 p6
  obtain ⟨s1, ls1, e2, ⟨b1, b2, b3, b4, b5, b6, b7⟩, k1, l1⟩ :=
    scanChars_word_agree "endclass".toList after sA ls0 (by decide)
      (by rw [p1, a1]; exact c1) (by rw [p2, a2]; exact c2) l0
  rw [k0, List.nil_append] at e2
  obtain ⟨q1, q2, q3, q4, q5, q6⟩ :=
    keywordActions_endclass_props ' ' after (s := s1) (by rw [b3]; exact p3)
  obtain ⟨sB, hsB⟩ : ∃ sB, sB = keywordActions "endclass".toList ' ' after s1 := ⟨_, rfl⟩
  rw [← hsB] at e2 q1 q2 q3 q4 q5 q6
  refine ⟨sB, ls1, by rw [e, e1, e2], ⟨?_, ?_, q3, ?_, ?_, ?_⟩, ?_, k1, l1⟩
  · rw [q1, b1, p1, a1]; exact c1
  · rw [q2, b2, p2, a2]; exact c2
  · rw [q4]; decide
  · rw [q6, b5, p4, a5]; simp [c5]
  · intro c hc
    rw [q6, b5, p4, a5] at hc
    simp only [List.mem_append, List.mem_singleton] at hc
    rcases hc with hc | rfl
    · exact c6 c hc
    · exact ⟨rfl, by simp only; rw [b6, p5, a6]; exact hl⟩
  · rw [q5, b6, p5, a6]; exact hl

/-- The scan of a line of `n` empty classes records `n` more classes. -/
theorem scanChars_classesLine {t : Nat} (n : Nat) :
    ∀ (n0 : Nat) (after : List Char) (s : ScanState) (ls : LineState),
      ClassesOnly s n0 t → s.lineNb = t → ls.keyword = [] → ls.inLineComment = false →
      ∃ s1 ls1, scanChars (classesLine n ++ after) s ls = scanChars after s1 ls1 ∧
        ClassesOnly s1 (n0 + n) t ∧ s1.lineNb = t ∧ ls1.keyword = [] ∧
        ls1.inLineComment = false := by
  induction n with
  | zero =>
    intro n0 after s ls h hl hk h3
    exact ⟨s, ls, by simp [classesLine], h, hl, hk, h3⟩
  | succ k ih =>
    intro n0 after s ls h hl hk h3
    rw [classesLine_succ, List.append_assoc]
    obtain ⟨s1, ls1, e1, g1, g2, g3, g4⟩ := scanChars_classBlock (classesLine k ++ after) s ls
      h hl hk h3
    obtain ⟨s2, ls2, e2, f1, f2, f3, f4⟩ := ih (n0 + 1) after s1 ls1 g1 g2 g3 g4
    refine ⟨s2, ls2, by rw [e1, e2], ?_, f2, f3, f4⟩
    have : n0 + (k + 1) = n0 + 1 + k := by omega
    rw [this]
    exact f1

/-- The scan of the line of `n` classes, when nothing was recorded before. -/
theorem scanLine_classesLine (n : Nat) (s : ScanState) (t0 : Nat) (h : ClassesOnly s 0 t0) :
    ClassesOnly (scanLine s (classesLine n)) n (s.lineNb + 1) ∧
      (scanLine s (classesLine n)).lineNb = s.lineNb + 1 := by
  obtain ⟨c1, c2, c3, c4, c5, _⟩ := h
  have h0 : ClassesOnly { s with lineNb := s.lineNb + 1 } 0 (s.lineNb + 1) := by
    refine ⟨c1, c2, c3, c4, c5, ?_⟩
    intro c hc
    have hnil : s.fileChunks = [] := List.length_eq_zero.mp c5
    have hc' : c ∈ s.fileChunks := hc
    rw [hnil] at hc'
    cases hc'
  obtain ⟨s1, ls1, e1, g1, g2, _, _⟩ := scanChars_classesLine n 0 []
    { s with lineNb := s.lineNb + 1 } {} h0 rfl rfl rfl
  simp only [List.append_nil, scanChars, Nat.zero_add] at e1 g1
  have e2 : (scanChars (classesLine n) { s with lineNb := s.lineNb + 1 } {}).1 = s1 := by
    rw [e1]
  unfold scanLine
  simp only [e2]
  split
  · split
    · exact ⟨g1, g2⟩
    · exact ⟨g1, g2⟩
  · exact ⟨g1, g2⟩

theorem scanLine_nil (s : ScanState) : scanLine s [] = { s with lineNb := s.lineNb + 1 } := by
  simp [scanLine, scanChars, importSearch]

set_option maxRecDepth 100000 in
theorem scanLine_filler :
    scanLine {} "FILLER LINE".toList =
      { lineNb := 1, charNb := 11, prev_keyword := "LINE".toList
        prev_prev_keyword := "FILLER".toList } := by
  decide

/-- The scan of the filler line, a line of `n` classes and an empty line: `n`
classes that close at line 2 are recorded, in 3 lines, outside every comment
and string. -/
theorem scan_classesLine (n : Nat) :
    ClassesOnly (scan ["FILLER LINE".toList, classesLine n, []]) n 2 ∧
      (scan ["FILLER LINE".toList, classesLine n, []]).lineNb = 3 := by
  have h0 : ClassesOnly (scanLine {} "FILLER LINE".toList) 0 0 := by
    rw [scanLine_filler]
    exact ⟨rfl, rfl, rfl, by decide, rfl, by intro c hc; cases hc⟩
  have hl0 : (scanLine {} "FILLER LINE".toList).lineNb = 1 := by rw [scanLine_filler]
  obtain ⟨h1, hl1⟩ := scanLine_classesLine n _ 0 h0
  rw [hl0] at h1 hl1
  simp only [scan, List.foldl_cons, List.foldl_nil]
  rw [scanLine_nil]
  exact ⟨h1, by simp only [hl1]⟩

theorem getLinesAux_append_lineFeed (xs : List Char) :
    ∀ (rest cur : List Char), lineFeed ∉ xs →
      getLinesAux (xs ++ lineFeed :: rest) cur = (cur.reverse ++ xs) :: getLinesAux rest [] := by
  induction xs with
  | nil => intro rest cur _; simp [getLinesAux]
  | cons x xs ih =>
    intro rest cur hx
    have hx1 : x ≠ lineFeed := fun e => hx (by rw [e]; exact List.mem_cons_self _ _)
    have hx2 : lineFeed ∉ xs := fun e => hx (List.mem_cons_of_mem _ e)
    have e : (x :: xs) ++ lineFeed :: rest = x :: (xs ++ lineFeed :: rest) := rfl
    rw [e, getLinesAux, if_neg hx1, ih rest (x :: cur) hx2]
    simp

theorem stripEol_classesLine (n : Nat) : stripEol (classesLine n) = classesLine n := by
  cases n with
  | zero => rfl
  | succ k =>
    rw [classesLine_succ_last]
    have e : "class endclass ".toList = "class endclass".toList ++ [' '] := rfl
    rw [e, ← List.append_assoc]
    have e2 : ((' ' : Char) == carriageReturn || (' ' : Char) == lineFeed) = false := by decide
    simp only [stripEol, List.reverse_append, List.reverse_cons, List.reverse_nil,
      List.nil_append, List.singleton_append, List.dropWhile_cons, e2, Bool.false_eq_true,
      if_false, List.reverse_reverse]

/-- The lines of `manyClasses`: the filler line, the line of 1001 classes, an
empty line. -/
theorem mkAllLines_manyClasses :
    mkAllLines sampleEnv manyClasses.m_ppFileId manyClasses.m_text =
      ["FILLER LINE".toList, classesLine 1001, []] := by
  have hne : ∀ n, (classesLine (n + 1) ++ [lineFeed, lineFeed]).isEmpty = false := by
    intro n
    rw [classesLine_succ]; rfl
  have hlf : ∀ n, lineFeed ∉ classesLine n := by
    intro n h
    exact absurd (classesLine_mem h) (by decide)
  have key : ∀ n, (if (classesLine (n + 1) ++ [lineFeed, lineFeed]).isEmpty then
        sampleEnv.readLines 2
      else (getLinesAux (classesLine (n + 1) ++ [lineFeed, lineFeed]) []).map stripEol) =
      [classesLine (n + 1), []] := by
    intro n
    rw [hne n]
    simp only [Bool.false_eq_true, if_false]
    rw [getLinesAux_append_lineFeed _ _ _ (hlf (n + 1))]
    have e1 : getLinesAux [lineFeed] [] = [[]] := by decide
    rw [e1]
    simp only [List.reverse_nil, List.nil_append, List.map_cons, List.map_nil,
      stripEol_classesLine]
    rfl
  exact congrArg (List.cons "FILLER LINE".toList) (key 1000)

theorem noDirective_of_c (rest : List Char) : NoDirective ('c' :: rest) := by
  have e1 : isSpaceChar 'c' = false := by decide
  unfold NoDirective IStream.readWord
  simp only [Bool.false_eq_true, if_false, List.dropWhile_cons, e1, List.takeWhile_cons,
    Bool.not_false, if_true, List.isEmpty_cons]
  intro h
  have h1 := (List.cons.inj h).1
  exact absurd h1 (by decide)

theorem noDirective_classesLine (n : Nat) : NoDirective (classesLine n) := by
  cases n with
  | zero => decide
  | succ k =>
    rw [classesLine_succ]
    exact noDirective_of_c _

/-- The split loop over classes that all close at line 2 of a text of 2 lines,
with `chunkSize` at most 1: every class gets a fragment of its own. -/
theorem splitLoop_classes (ctx : SplitCtx)
    (hty : ∀ c ∈ ctx.fileChunks, c.m_chunkType = ElemType.Class ∧ c.m_toLine = 2)
    (hsize : ctx.chunkSize ≤ 1) (hlen : ctx.allLines.length = 3)
    (hno : ∀ line ∈ ctx.allLines, NoDirective line) :
    ∀ (k fuel : Nat) (s : SplitState), s.i + k = ctx.fileChunks.length →
      (s.fromLine = 1 ∨ s.fromLine = 3) → s.chunkNb + k ≤ 1001 → k < fuel →
      ∃ a, splitLoop ctx fuel s = Outcome.split a ∧
        a.m_splitFiles.length = s.a.m_splitFiles.length + k := by
  intro k
  induction k with
  | zero =>
    intro fuel s hi _ _ hfuel
    obtain ⟨f, rfl⟩ : ∃ f, fuel = f + 1 := ⟨fuel - 1, by omega⟩
    refine ⟨s.a, ?_, rfl⟩
    unfold splitLoop
    rw [List.getElem?_eq_none (by omega)]
  | succ k ih =>
    intro fuel s hi hfrom hnb hfuel
    obtain ⟨f, rfl⟩ : ∃ f, fuel = f + 1 := ⟨fuel - 1, by omega⟩
    have hlt : s.i < ctx.fileChunks.length := by omega
    have hget : ctx.fileChunks[s.i]? = some ctx.fileChunks[s.i] := List.getElem?_eq_getElem hlt
    obtain ⟨hclass, hto⟩ := hty _ (List.getElem_mem hlt)
    have hsub : sub32 2 s.fromLine ≥ ctx.chunkSize := by
      rcases hfrom with h | h
      · rw [h]
        have : sub32 2 1 = 1 := by decide
        omega
      · rw [h]
        have : sub32 2 3 = 4294967295 := by decide
        omega
    have hidx : classToIndex ctx s = s.i := by
      unfold classToIndex
      rw [List.drop_eq_getElem_cons hlt]
      simp only [findClass, hclass, hto, hsub, if_true]
      simp
    have hline : classToLine ctx s.i ctx.fileChunks[s.i] = 3 := by
      unfold classToLine
      split
      · exact hlen
      · rw [hto]
    obtain ⟨cs, hcs⟩ := copyPlain_some ctx.env ctx.allLines 3 hno (3 - s.fromLine)
      s.fromLine
      { content := setSLlineDirective_ ctx.env s.a.m_includeFileInfo s.fromLine ++
          ("  ".toList ++ ctx.fileLevelImportSection)
        stack := s.a.m_includeFileInfo, linesWriten := s.linesWriten }
      (by rcases hfrom with h | h <;> omega)
    have hbranch : classBranch ctx s = Step.next (classAfter ctx s ctx.fileChunks[s.i] cs) := by
      unfold classBranch
      rw [hidx, hget]
      simp only [hline, hcs]
      rw [if_neg (by omega)]
    have hiter : splitIter ctx s ctx.fileChunks[s.i] =
        Step.next (classAfter ctx s ctx.fileChunks[s.i] cs) := by
      unfold splitIter
      rw [if_neg (by rw [hclass]; decide)]
      exact hbranch
    obtain ⟨a, ha, hlen1⟩ := ih f
      { classAfter ctx s ctx.fileChunks[s.i] cs with
        i := (classAfter ctx s ctx.fileChunks[s.i] cs).i + 1 }
      (by simp only [classAfter, hidx]; omega)
      (Or.inr (by simp only [classAfter, hto]))
      (by simp only [classAfter]; omega) (by omega)
    refine ⟨a, ?_, ?_⟩
    · unfold splitLoop
      rw [hget]
      simp only [hiter]
      exact ha
    · rw [hlen1]
      simp only [classAfter, List.length_append, List.length_singleton]
      omega

/-- A text of 2 lines whose constructs are `n` classes that close at line 2,
split into at least 2 chunks: every class gets a fragment of its own. -/
theorem analyze_classes (env : Env) (cfg : Config) (n : Nat)
    (hlen : (mkAllLines env cfg.m_ppFileId cfg.m_text).length = 3)
    (hno : ∀ line ∈ mkAllLines env cfg.m_ppFileId cfg.m_text, NoDirective line)
    (hscan : ClassesOnly (scan (mkAllLines env cfg.m_ppFileId cfg.m_text)) n 2)
    (hn : n ≤ 1001) (hproc : cfg.nbMaxProcesses = 0)
    (hthr : cfg.nbLinesForFileSpliting ≤ 3) (hchunks : 2 ≤ cfg.m_nbChunks) :
    ∃ a, analyze env cfg {} = Outcome.split a ∧ a.m_splitFiles.length = n := by
  obtain ⟨c1, c2, _, _, c5, c6⟩ := hscan
  obtain ⟨hnb, _, _⟩ := scanBounds_scan (mkAllLines env cfg.m_ppFileId cfg.m_text)
  rw [hlen] at hnb
  have hw : staysWhole cfg (scan (mkAllLines env cfg.m_ppFileId cfg.m_text)).lineNb = false := by
    simp only [staysWhole, Bool.or_eq_false_iff, bne_eq_false_iff_eq, decide_eq_false_iff_not]
    omega
  have hdiv : (scan (mkAllLines env cfg.m_ppFileId cfg.m_text)).lineNb / cfg.m_nbChunks ≤ 1 := by
    rw [hnb]
    exact Nat.lt_succ_iff.mp ((Nat.div_lt_iff_lt_mul (by omega)).mpr (by omega))
  obtain ⟨a, ha, hlen1⟩ := splitLoop_classes
    ⟨env, cfg.m_ppFileId, cfg.m_fileId, mkAllLines env cfg.m_ppFileId cfg.m_text,
      (scan (mkAllLines env cfg.m_ppFileId cfg.m_text)).fileChunks,
      (scan (mkAllLines env cfg.m_ppFileId cfg.m_text)).lineNb / cfg.m_nbChunks,
      (scan (mkAllLines env cfg.m_ppFileId cfg.m_text)).fileLevelImportSection⟩
    c6 hdiv hlen hno n (n + 1)
    ⟨0, 1, 0, 0, 0,
      ⟨[], [], [initialFrame cfg.m_fileId], [], [],
        [] ++ (scan (mkAllLines env cfg.m_ppFileId cfg.m_text)).orderedPackages⟩⟩
    (by show 0 + n = (scan (mkAllLines env cfg.m_ppFileId cfg.m_text)).fileChunks.length
        omega)
    (Or.inl rfl) (by show 0 + n ≤ 1001; omega) (by omega)
  refine ⟨a, ?_, by simpa using hlen1⟩
  unfold analyze
  simp only [hw, c1, c2, c5, Bool.or_self, Bool.false_eq_true, if_false]
  exact ha

/-- C9 (counterexample): on `manyClasses`, a text with 1001 classes, `analyze`
ends without an error and with 1001 split files, one more than 1000. -/
theorem manyClasses_1001_fragments :
    ∃ a, analyze sampleEnv manyClasses {} = Outcome.split a ∧
      a.m_splitFiles.length = 1001 := by
  have hno : ∀ line ∈ ["FILLER LINE".toList, classesLine 1001, []], NoDirective line := by
    intro line hline
    simp only [List.mem_cons, List.mem_singleton, List.not_mem_nil, or_false] at hline
    rcases hline with rfl | rfl | rfl
    · decide
    · exact noDirective_classesLine 1001
    · decide
  exact analyze_classes sampleEnv manyClasses 1001
    (by rw [mkAllLines_manyClasses]; rfl)
    (by rw [mkAllLines_manyClasses]; exact hno)
    (by rw [mkAllLines_manyClasses]; exact (scan_classesLine 1001).1)
    (Nat.le_refl _) rfl (by decide) (by decide)

/-! ### The sample inputs -/

set_option maxRecDepth 100000 in
/-- C1 (defect of the code): on `classModuleClass` the fragments hold the lines
`[1, 11)`, none, and `[7, 13)`: the lines 7 to 10 are written to the first and
to the third fragment. -/
theorem analyze_lines_written_twice :
    (analyze sampleEnv classModuleClass {}).ranges = some [(1, 11), (11, 7), (7, 13)] := by
  decide

set_option maxRecDepth 100000 in
/-- C2 (counterexample): the module of `plainModule` extends over more lines
than `chunkSize`, and `analyze` writes one fragment, not two. -/
theorem plainModule_one_fragment :
    (scan (mkAllLines sampleEnv plainModule.m_ppFileId plainModule.m_text)).fileChunks.map
        (fun c => (c.m_chunkType, c.m_fromLine, c.m_toLine)) = [(ElemType.Module, 2, 5)] ∧
      (scan (mkAllLines sampleEnv plainModule.m_ppFileId plainModule.m_text)).lineNb /
        plainModule.m_nbChunks = 2 ∧
      (analyze sampleEnv plainModule {}).ranges = some [(1, 5)] := by
  decide

set_option maxRecDepth 100000 in
/-- C3 (defect of the code): on `twoClasses` the line `class B;` that opens the
second class is written to the first fragment and its `endclass` to the
second: the boundary falls inside the class. -/
theorem analyze_class_cut :
    (analyze sampleEnv twoClasses {}).contents =
      some ["SLline 1 @@BAD_SYMBOL@@^top.sv 1\n  class A;\n  int x;\nendclass\nclass B;",
            "SLline 5 @@BAD_SYMBOL@@^top.sv 1\n    int y;\nendclass"] := by
  decide

set_option maxRecDepth 100000 in
/-- C4 (defect of the code): on `moduleWithImport` the second fragment begins,
after its directive, with `import p::*;`, the line after the header
`module m;`, and holds no module header at all. -/
theorem analyze_header_not_repeated :
    (analyze sampleEnv moduleWithImport {}).contents =
      some ["SLline 1 @@BAD_SYMBOL@@^top.sv 1\nmodule m;\nimport p::*;  import p::*;\nclass A;\nendclass\nclass B;  endmodule    ",
            "SLline 1 @@BAD_SYMBOL@@^top.sv 1\nimport p::*;  import p::*;endclass\nendmodule  "] := by
  decide

set_option maxRecDepth 100000 in
/-- C5 (defect of the code): on `labelledModule` the fragment holds the closing
line `endmodule : m` and gets the synthetic closer all the same. -/
theorem analyze_two_closers :
    (analyze sampleEnv labelledModule {}).contents =
      some ["SLline 1 @@BAD_SYMBOL@@^top.sv 1\nmodule m;\nwire a;  \nwire b;\nendmodule : m  endmodule    "] := by
  decide

set_option maxRecDepth 100000 in
/-- C6 (counterexample): on `packageTwoClasses` the second fragment holds the
lines from line 5 on, and its directive carries the line number 1. -/
theorem packageTwoClasses_directive :
    (analyze sampleEnv packageTwoClasses {}).ranges = some [(1, 5), (5, 7)] ∧
      (analyze sampleEnv packageTwoClasses {}).contents =
        some ["SLline 1 @@BAD_SYMBOL@@^top.sv 1\npackage p;\nclass A;  \nendclass\nclass B;  endpackage    ",
              "SLline 1 @@BAD_SYMBOL@@^top.sv 1\nclass A;  endclass\nendpackage  "] := by
  decide

set_option maxRecDepth 100000 in
/-- C7 (counterexample): the text of `classAtThreshold` has 2 lines, which does
not exceed the threshold of 2 lines, and `analyze` splits it: the split file
is the chunk file 3000, not the preprocessed file 2. -/
theorem classAtThreshold_is_split :
    (getLinesAux classAtThreshold.m_text []).length ≤ classAtThreshold.nbLinesForFileSpliting ∧
      (analyze sampleEnv classAtThreshold {}).lists = some ([3000], [0]) ∧
      (analyze sampleEnv classAtThreshold {}).ranges = some [(1, 3)] := by
  decide

set_option maxRecDepth 100000 in
/-- Witness for C8: the text of `openComment`. -/
theorem analyze_unterminated_witness :
    (scan (mkAllLines sampleEnv openComment.m_ppFileId openComment.m_text)).inComment = true ∧
      ∃ a, analyze sampleEnv openComment {} = Outcome.cannotSplit a ∧
        a.written = ({} : Analyzer).written ∧ a.m_splitFiles = [] ∧ a.m_lineOffsets = [] ∧
        a.errors = ({} : Analyzer).errors ++
          [(ErrorDefinition.PA_CANNOT_SPLIT_FILE, openComment.m_fileId)] :=
  ⟨by decide,
   analyze_unterminated sampleEnv openComment {} (by decide) (by decide) (by decide)
     (by decide)⟩

set_option maxRecDepth 100000 in
/-- Witness for C9 (amended): the run on `twoClasses`. -/
theorem analyze_split_atMost_1001_witness :
    analyze sampleEnv twoClasses {} =
        Outcome.split (analyze sampleEnv twoClasses {}).final ∧
      (analyze sampleEnv twoClasses {}).final.m_splitFiles.length ≤
        ({} : Analyzer).m_splitFiles.length + 1001 ∧
      (analyze sampleEnv twoClasses {}).final.written.length ≤
        ({} : Analyzer).written.length + 1001 :=
  ⟨by decide,
   analyze_split_atMost_1001 sampleEnv twoClasses {} (analyze sampleEnv twoClasses {}).final
     (Or.inl (by decide))⟩

set_option maxRecDepth 100000 in
/-- C10 (counterexample): the text of `moduleOpenComment` ends inside a block
comment; `analyze` returns with both lists empty, not with the preprocessed
file as the one split file. -/
theorem moduleOpenComment_lists_empty :
    (scan (mkAllLines sampleEnv moduleOpenComment.m_ppFileId
        moduleOpenComment.m_text)).inComment = true ∧
      (analyze sampleEnv moduleOpenComment {}).lists = some ([], []) ∧
      (analyze sampleEnv moduleOpenComment {}).lists ≠
        some ([moduleOpenComment.m_ppFileId], [0]) := by
  decide

set_option maxRecDepth 100000 in
/-- Witness for C10 (amended): the run on `packageThenComment`. -/
theorem analyze_cannotSplit_lists_empty_witness :
    analyze sampleEnv packageThenComment {} =
        Outcome.cannotSplit (analyze sampleEnv packageThenComment {}).final ∧
      (analyze sampleEnv packageThenComment {}).final.m_splitFiles = [] ∧
      (analyze sampleEnv packageThenComment {}).final.m_lineOffsets = [] ∧
      (ErrorDefinition.PA_CANNOT_SPLIT_FILE, packageThenComment.m_fileId) ∈
        (analyze sampleEnv packageThenComment {}).final.errors :=
  ⟨by decide,
   analyze_cannotSplit_lists_empty sampleEnv packageThenComment {}
     (analyze sampleEnv packageThenComment {}).final (by decide)⟩

/-! ### The decimal digits of a line number -/

theorem digitChar_digit (m : Nat) (h : m < 10) :
    (Nat.digitChar m).isDigit = true ∧ (Nat.digitChar m).toNat - '0'.toNat = m := by
  interval_cases m <;> decide

/-- With enough fuel `Nat.toDigitsCore` puts a non-empty run of digits in front
of the accumulator, and reading the run as a decimal number gives `n` back. -/
theorem toDigitsCore_digits : ∀ (fuel n : Nat) (acc : List Char), n < fuel →
    ∃ ds, Nat.toDigitsCore 10 fuel n acc = ds ++ acc ∧ ds ≠ [] ∧
      (∀ c ∈ ds, c.isDigit = true) ∧
      ∀ a, ds.foldl (fun acc d => 10 * acc + (d.toNat - '0'.toNat)) a =
        a * 10 ^ ds.length + n := by
  intro fuel
  induction fuel with
  | zero => intro n acc h; omega
  | succ fuel ih =>
    intro n acc hn
    have hd := digitChar_digit (n % 10) (Nat.mod_lt _ (by decide))
    rw [Nat.toDigitsCore]
    by_cases hz : n / 10 = 0
    · simp only [hz, if_true]
      refine ⟨[Nat.digitChar (n % 10)], rfl, by simp, ?_, ?_⟩
      · intro c hc
        simp only [List.mem_singleton] at hc
        subst hc
        exact hd.1
      · intro a
        simp only [List.foldl_cons, List.foldl_nil, List.length_singleton, pow_one, hd.2]
        omega
    · simp only [hz, if_false]
      obtain ⟨ds, hds, _, hdig, hval⟩ :=
        ih (n / 10) (Nat.digitChar (n % 10) :: acc) (by omega)
      refine ⟨ds ++ [Nat.digitChar (n % 10)], by simp [hds], by simp, ?_, ?_⟩
      · intro c hc
        rcases List.mem_append.1 hc with hc | hc
        · exact hdig c hc
        · simp only [List.mem_singleton] at hc
          subst hc
          exact hd.1
      · intro a
        simp only [List.foldl_append, List.foldl_cons, List.foldl_nil, hval, hd.2,
          List.length_append, List.length_singleton, pow_succ]
        have := Nat.div_add_mod n 10
        ring_nf
        omega

/-- The decimal digits of `n`: a non-empty run of digits whose value is `n`. -/
theorem toDigits_digits (n : Nat) :
    Nat.toDigits 10 n ≠ [] ∧ (∀ c ∈ Nat.toDigits 10 n, c.isDigit = true) ∧
      digitsValue (Nat.toDigits 10 n) = n := by
  obtain ⟨ds, hds, hne, hdig, hval⟩ := toDigitsCore_digits (n + 1) n [] (by omega)
  have e : Nat.toDigits 10 n = ds := by simpa [Nat.toDigits] using hds
  rw [e]
  exact ⟨hne, hdig, by simpa [digitsValue] using hval 0⟩

/-! ### The form of the directive -/

/-- C19: with an empty provenance stack `setSLlineDirective_` returns the empty
string, and only then; with a frame on the stack it returns a line that begins
with `SLline ` and ends with a line feed. -/
theorem setSLlineDirective_empty_iff (env : Env) (stack : List IncludeFileInfo)
    (lineNb : Nat) :
    (setSLlineDirective_ env stack lineNb = [] ↔ stack = []) ∧
      (stack ≠ [] → ∃ body, setSLlineDirective_ env stack lineNb =
        "SLline ".toList ++ body ++ [lineFeed]) := by
  cases stack with
  | nil => simp [setSLlineDirective_]
  | cons info rest =>
    refine ⟨by simp [setSLlineDirective_], fun _ =>
      ⟨Nat.toDigits 10
          ((sub32 lineNb info.m_originalStartLine + info.m_sectionStartLine) % 2 ^ 32) ++
        " ".toList ++ env.getSymbol info.m_sectionSymbolId ++ "^".toList ++
        env.toPath info.m_sectionFileId ++ " 1".toList, ?_⟩⟩
    simp only [setSLlineDirective_, List.append_assoc]

/-- C14 (amended): with a frame on the stack the marker is the text `SLline `,
the decimal digits of `lineNb - m_originalStartLine + m_sectionStartLine` (in
unsigned arithmetic), a blank, the section symbol, `^`, the section file, the
text ` 1` and a line feed.  No double quote is written: the marker holds one
only where the symbol or the file path holds one. -/
theorem setSLlineDirective_form (env : Env) (info : IncludeFileInfo)
    (rest : List IncludeFileInfo) (lineNb : Nat) :
    setSLlineDirective_ env (info :: rest) lineNb =
        "SLline ".toList ++
          (Nat.repr ((sub32 lineNb info.m_originalStartLine + info.m_sectionStartLine)
            % 2 ^ 32)).toList ++
          [' '] ++ env.getSymbol info.m_sectionSymbolId ++ ['^'] ++
          env.toPath info.m_sectionFileId ++ [' ', '1', lineFeed] ∧
      (dquote ∈ setSLlineDirective_ env (info :: rest) lineNb ↔
        dquote ∈ env.getSymbol info.m_sectionSymbolId ∨
          dquote ∈ env.toPath info.m_sectionFileId) := by
  have hdig := (toDigits_digits
    ((sub32 lineNb info.m_originalStartLine + info.m_sectionStartLine) % 2 ^ 32)).2.1
  have hq : dquote ∉ Nat.toDigits 10
      ((sub32 lineNb info.m_originalStartLine + info.m_sectionStartLine) % 2 ^ 32) := by
    intro hmem
    have := hdig _ hmem
    exact absurd this (by decide)
  constructor
  · simp [setSLlineDirective_, Nat.repr, List.asString]
  · simp only [setSLlineDirective_, List.mem_append, hq, false_or, or_false]
    have h1 : dquote ∉ "SLline ".toList := by decide
    have h2 : dquote ∉ " ".toList := by decide
    have h3 : dquote ∉ "^".toList := by decide
    have h4 : dquote ∉ " 1".toList := by decide
    have h5 : dquote ∉ [lineFeed] := by decide
    simp only [h1, h2, h3, h4, h5, false_or, or_false]

/-- C14 (counterexample): the marker made for line 7 under the frame pushed
before the split has no double quote around `@@BAD_SYMBOL@@^top.sv`. -/
theorem initialFrame_marker_unquoted :
    setSLlineDirective_ sampleEnv [initialFrame 1] 7 =
        "SLline 7 @@BAD_SYMBOL@@^top.sv 1\n".toList ∧
      setSLlineDirective_ sampleEnv [initialFrame 1] 7 ≠
        "SLline 7 \"@@BAD_SYMBOL@@^top.sv\" 1\n".toList := by
  decide

/-! ### Reading a directive back -/

/-- The extraction of a word that is followed by white space: after white
space is skipped, the word is read and the stream stands behind it. -/
theorem readWord_word (pre w rest : List Char) (c0 : Char)
    (hpre : ∀ c ∈ pre, isSpaceChar c = true) (hw : w ≠ [])
    (hns : ∀ c ∈ w, isSpaceChar c = false) (hc0 : isSpaceChar c0 = true) :
    IStream.readWord { rest := pre ++ (w ++ c0 :: rest), failed := false } =
      (w, { rest := c0 :: rest, failed := false }) := by
  have hdrop : (pre ++ (w ++ c0 :: rest)).dropWhile isSpaceChar = w ++ c0 :: rest := by
    rw [List.dropWhile_append_of_pos hpre]
    cases w with
    | nil => exact absurd rfl hw
    | cons a w1 =>
      have ha : isSpaceChar a = false := hns a (List.mem_cons_self _ _)
      simp [List.dropWhile_cons, ha]
  have htake : (w ++ c0 :: rest).takeWhile (fun c => !isSpaceChar c) = w := by
    rw [List.takeWhile_append_of_pos (fun a ha => by simp [hns a ha])]
    simp [List.takeWhile_cons, hc0]
  have hrest : (w ++ c0 :: rest).dropWhile (fun c => !isSpaceChar c) = c0 :: rest := by
    rw [List.dropWhile_append_of_pos (fun a ha => by simp [hns a ha])]
    simp [List.dropWhile_cons, hc0]
  have hwe : w.isEmpty = false := by
    cases w with
    | nil => exact absurd rfl hw
    | cons a w1 => rfl
  simp only [IStream.readWord, hdrop, htake, hrest, hwe]
  simp

/-- The extraction of an unsigned number written in decimal digits and
followed by a character that is no digit: the number is read back. -/
theorem readUnsigned_digits (pre rest : List Char) (c0 : Char) (n : Nat)
    (hpre : ∀ c ∈ pre, isSpaceChar c = true) (hn : n < 2 ^ 32)
    (hc0 : c0.isDigit = false) :
    IStream.readUnsigned { rest := pre ++ (Nat.toDigits 10 n ++ c0 :: rest), failed := false } =
      (n, { rest := c0 :: rest, failed := false }) := by
  obtain ⟨hne, hdig, hval⟩ := toDigits_digits n
  obtain ⟨d, ds, hd⟩ : ∃ d ds, Nat.toDigits 10 n = d :: ds := by
    cases h : Nat.toDigits 10 n with
    | nil => exact absurd h hne
    | cons d ds => exact ⟨d, ds, rfl⟩
  have hdd : d.isDigit = true := hdig d (by rw [hd]; exact List.mem_cons_self _ _)
  have hdsp : isSpaceChar d = false := by
    have h1 : ∀ c : Char, c.isDigit = true → isSpaceChar c = false := by
      intro c hc
      simp only [Char.isDigit, Bool.and_eq_true, decide_eq_true_eq] at hc
      have h48 : c.val.toNat = c.toNat := rfl
      simp only [isSpaceChar, Bool.or_eq_false_iff, Bool.and_eq_false_iff,
        decide_eq_false_iff_not, beq_eq_false_iff_ne, ne_eq]
      have h2 : (48 : Nat) ≤ c.toNat := by
        have := hc.1
        exact (UInt32.le_def).1 this
      refine ⟨?_, Or.inr (by omega)⟩
      intro hc2
      subst hc2
      exact absurd h2 (by decide)
    exact h1 d hdd
  have hdm : (d == '-') = false := by
    rw [beq_eq_false_iff_ne]
    intro h
    subst h
    exact absurd hdd (by decide)
  have hdp : (d == '+') = false := by
    rw [beq_eq_false_iff_ne]
    intro h
    subst h
    exact absurd hdd (by decide)
  have hdrop : (pre ++ (Nat.toDigits 10 n ++ c0 :: rest)).dropWhile isSpaceChar =
      d :: (ds ++ c0 :: rest) := by
    rw [List.dropWhile_append_of_pos hpre, hd]
    simp [List.dropWhile_cons, hdsp]
  have htake : (d :: (ds ++ c0 :: rest)).takeWhile Char.isDigit = d :: ds := by
    have e : d :: (ds ++ c0 :: rest) = (d :: ds) ++ c0 :: rest := rfl
    rw [e, List.takeWhile_append_of_pos (fun a ha => hdig a (by rw [hd]; exact ha))]
    simp [List.takeWhile_cons, hc0]
  have hrest : (d :: (ds ++ c0 :: rest)).dropWhile Char.isDigit = c0 :: rest := by
    have e : d :: (ds ++ c0 :: rest) = (d :: ds) ++ c0 :: rest := rfl
    rw [e, List.dropWhile_append_of_pos (fun a ha => hdig a (by rw [hd]; exact ha))]
    simp [List.dropWhile_cons, hc0]
  have hv : digitsValue (d :: ds) = n := by rw [← hd]; exact hval
  have hlt : ¬ 2 ^ 32 ≤ n := by omega
  have hlt2 : ¬ 4294967296 ≤ n := by omega
  simp [IStream.readUnsigned, hdrop, hdm, hdp, htake, hrest, hv, hdd, hlt2]

/-- A line `SLline <n> <text> 1`, where `text` has no white space and splits
at `^` into at least two parts, pushes a frame: its section start line is `n`,
its symbol and file are those of the first two parts, and its original start
line is the line the directive is met at. -/
theorem checkSLlineDirective_push (env : Env) (stack : List IncludeFileInfo) (n lineNb : Nat)
    (text p0 p1 : List Char) (more : List (List Char)) (hn : n < 2 ^ 32) (hne : text ≠ [])
    (hns : ∀ c ∈ text, isSpaceChar c = false)
    (htok : env.tokenize (env.unquoted text) "^".toList = p0 :: p1 :: more)
    (hpush : env.actionPush = 1) :
    checkSLlineDirective_ env stack
        ("SLline".toList ++ ' ' :: (Nat.toDigits 10 n ++ ' ' :: (text ++ [' ', '1', lineFeed])))
        lineNb =
      some ({ m_context := Context.NONE, m_sectionStartLine := n
              m_sectionSymbolId := env.registerSymbol (env.unquoted p0)
              m_sectionFileId := env.toPathId (env.unquoted p1)
              m_originalStartLine := lineNb, m_originalStartColumn := 0
              m_originalEndLine := 0, m_originalEndColumn := 0
              m_action := Action.PUSH } :: stack) := by
  have h1 : IStream.readWord
      { rest := "SLline".toList ++
          ' ' :: (Nat.toDigits 10 n ++ ' ' :: (text ++ [' ', '1', lineFeed])), failed := false } =
      ("SLline".toList,
        { rest := ' ' :: (Nat.toDigits 10 n ++ ' ' :: (text ++ [' ', '1', lineFeed]))
          failed := false }) :=
    readWord_word [] "SLline".toList _ ' ' (by simp) (by decide) (by decide) (by decide)
  have h2 : IStream.readUnsigned
      { rest := ' ' :: (Nat.toDigits 10 n ++ ' ' :: (text ++ [' ', '1', lineFeed]))
        failed := false } =
      (n, { rest := ' ' :: (text ++ [' ', '1', lineFeed]), failed := false }) :=
    readUnsigned_digits [' '] _ ' ' n (by decide) hn (by decide)
  have h3 : IStream.readWord
      { rest := ' ' :: (text ++ [' ', '1', lineFeed]), failed := false } =
      (text, { rest := [' ', '1', lineFeed], failed := false }) :=
    readWord_word [' '] text _ ' ' (by decide) hne hns (by decide)
  have h4 : IStream.readUnsigned { rest := [' ', '1', lineFeed], failed := false } =
      (1, { rest := [lineFeed], failed := false }) := by decide
  simp only [checkSLlineDirective_, h1, h2, h3, htok, h4, hpush, if_true]

/-- C15: the marker `setSLlineDirective_` makes at line `l` under a top frame
whose symbol and file have no white space, quote or `^`, read by
`checkSLlineDirective_` at line `l1`, pushes a frame with the section start
line, symbol and file written in the marker and with original start line
`l1`; the marker made under this frame at line `l2` carries the line number
`l2 - l1 +` the line number of the first marker (in unsigned arithmetic), and
the same symbol and file.  The symbol table, the file system and `StringUtils`
are taken to give a registered symbol and a path back, to leave a text without
quotes as it is, and to split `symbol^file` at the `^`; `PUSH` has the value 1. -/
theorem slline_round_trip (env : Env) (info : IncludeFileInfo)
    (rest stack : List IncludeFileInfo) (l l1 l2 : Nat)
    (hsym : ∀ c ∈ env.getSymbol info.m_sectionSymbolId,
      isSpaceChar c = false ∧ c ≠ dquote ∧ c ≠ '^')
    (hfile : ∀ c ∈ env.toPath info.m_sectionFileId,
      isSpaceChar c = false ∧ c ≠ dquote ∧ c ≠ '^')
    (hunq : ∀ s, dquote ∉ s → env.unquoted s = s)
    (htok : env.tokenize
        (env.getSymbol info.m_sectionSymbolId ++ '^' :: env.toPath info.m_sectionFileId)
        "^".toList =
      [env.getSymbol info.m_sectionSymbolId, env.toPath info.m_sectionFileId])
    (hpush : env.actionPush = 1)
    (hreg : env.getSymbol (env.registerSymbol (env.getSymbol info.m_sectionSymbolId)) =
      env.getSymbol info.m_sectionSymbolId)
    (hpath : env.toPath (env.toPathId (env.toPath info.m_sectionFileId)) =
      env.toPath info.m_sectionFileId) :
    ∃ frame,
      checkSLlineDirective_ env stack (setSLlineDirective_ env (info :: rest) l) l1 =
        some (frame :: stack) ∧
      frame.m_sectionStartLine =
        (sub32 l info.m_originalStartLine + info.m_sectionStartLine) % 2 ^ 32 ∧
      frame.m_sectionSymbolId = env.registerSymbol (env.getSymbol info.m_sectionSymbolId) ∧
      frame.m_sectionFileId = env.toPathId (env.toPath info.m_sectionFileId) ∧
      frame.m_originalStartLine = l1 ∧
      setSLlineDirective_ env (frame :: stack) l2 =
        "SLline ".toList ++
          Nat.toDigits 10 ((sub32 l2 l1 +
            (sub32 l info.m_originalStartLine + info.m_sectionStartLine) % 2 ^ 32) % 2 ^ 32) ++
          " ".toList ++ env.getSymbol info.m_sectionSymbolId ++ "^".toList ++
          env.toPath info.m_sectionFileId ++ " 1".toList ++ [lineFeed] := by
  have hq1 : dquote ∉ env.getSymbol info.m_sectionSymbolId := fun h => (hsym _ h).2.1 rfl
  have hq2 : dquote ∉ env.toPath info.m_sectionFileId := fun h => (hfile _ h).2.1 rfl
  have hq3 : dquote ∉
      env.getSymbol info.m_sectionSymbolId ++ '^' :: env.toPath info.m_sectionFileId := by
    intro h
    rcases List.mem_append.1 h with h | h
    · exact hq1 h
    · rcases List.mem_cons.1 h with h | h
      · exact absurd h (by decide)
      · exact hq2 h
  have hns : ∀ c ∈
      env.getSymbol info.m_sectionSymbolId ++ '^' :: env.toPath info.m_sectionFileId,
      isSpaceChar c = false := by
    intro c h
    rcases List.mem_append.1 h with h | h
    · exact (hsym c h).1
    · rcases List.mem_cons.1 h with h | h
      · subst h; decide
      · exact (hfile c h).1
  have hmarker : setSLlineDirective_ env (info :: rest) l =
      "SLline".toList ++ ' ' :: (Nat.toDigits 10
        ((sub32 l info.m_originalStartLine + info.m_sectionStartLine) % 2 ^ 32) ++
        ' ' :: ((env.getSymbol info.m_sectionSymbolId ++
          '^' :: env.toPath info.m_sectionFileId) ++ [' ', '1', lineFeed])) := by
    simp [setSLlineDirective_]
  have hpushed := checkSLlineDirective_push env stack
    ((sub32 l info.m_originalStartLine + info.m_sectionStartLine) % 2 ^ 32) l1
    (env.getSymbol info.m_sectionSymbolId ++ '^' :: env.toPath info.m_sectionFileId)
    (env.getSymbol info.m_sectionSymbolId) (env.toPath info.m_sectionFileId) []
    (Nat.mod_lt _ (by decide)) (by simp) hns (by rw [hunq _ hq3]; exact htok) hpush
  rw [hunq _ hq1, hunq _ hq2] at hpushed
  refine ⟨_, by rw [hmarker]; exact hpushed, rfl, rfl, rfl, rfl, ?_⟩
  simp only [setSLlineDirective_, hreg, hpath]

/-- A text without a double quote is left as it is by `sampleUnquoted`. -/
theorem sampleUnquoted_of_not_mem (s : List Char) (h : dquote ∉ s) : sampleUnquoted s = s := by
  cases s with
  | nil => rfl
  | cons c cs =>
    have hc : c ≠ dquote := fun e => h (by rw [e]; exact List.mem_cons_self _ _)
    simp [sampleUnquoted, hc]

set_option maxRecDepth 100000 in
/-- Witness for C15: the frame pushed before the split of the file `top.sv`,
with the markers made at line 7, read at line 3 and made again at line 5. -/
theorem slline_round_trip_witness :
    ∃ frame,
      checkSLlineDirective_ sampleEnv []
          (setSLlineDirective_ sampleEnv [initialFrame 1] 7) 3 = some [frame] ∧
      frame.m_sectionStartLine = (sub32 7 1 + 1) % 2 ^ 32 ∧
      frame.m_sectionSymbolId = sampleEnv.registerSymbol (sampleEnv.getSymbol BadSymbolId) ∧
      frame.m_sectionFileId = sampleEnv.toPathId (sampleEnv.toPath 1) ∧
      frame.m_originalStartLine = 3 ∧
      setSLlineDirective_ sampleEnv [frame] 5 =
        "SLline ".toList ++
          Nat.toDigits 10 ((sub32 5 3 + (sub32 7 1 + 1) % 2 ^ 32) % 2 ^ 32) ++
          " ".toList ++ sampleEnv.getSymbol BadSymbolId ++ "^".toList ++
          sampleEnv.toPath 1 ++ " 1".toList ++ [lineFeed] :=
  slline_round_trip sampleEnv (initialFrame 1) [] [] 7 3 5 (by decide) (by decide)
    sampleUnquoted_of_not_mem (by decide) (by decide) (by decide) (by decide)

/-! ### The chunk files -/

theorem filesInv_push (ctx : SplitCtx) (n : Nat) (ws : List Fragment) (fs : List PathId)
    (f : Fragment) (hw : ws.map (fun f => f.file) =
      (List.range n).map (ctx.env.getChunkFile ctx.m_ppFileId))
    (hs : fs = ws.map (fun f => f.file))
    (hf : f.file = ctx.env.getChunkFile ctx.m_ppFileId n) :
    (ws ++ [f]).map (fun f => f.file) =
        (List.range (n + 1)).map (ctx.env.getChunkFile ctx.m_ppFileId) ∧
      fs ++ [ctx.env.getChunkFile ctx.m_ppFileId n] = (ws ++ [f]).map (fun f => f.file) := by
  subst hs
  simp [List.range_succ, hw, hf]

theorem filesInv_bigAfter {ctx : SplitCtx} {bc : BigCtx} {b : BigState}
    (fin : Bool) (ti : Nat) (tc : FileChunk) (cs : BigCopyState) (h : FilesInv ctx b.s) :
    FilesInv ctx (bigAfter ctx bc b fin ti tc cs) :=
  filesInv_push ctx b.s.chunkNb b.s.a.written b.s.a.m_splitFiles _ h.1 h.2 rfl

theorem filesInv_step {ctx : SplitCtx} (s : SplitState) (c : FileChunk) (s1 : SplitState)
    (h : FilesInv ctx s) (hit : splitIter ctx s c = Step.next s1) :
    FilesInv ctx { s1 with i := s1.i + 1 } := by
  have key : FilesInv ctx s1 := by
    rcases splitIter_next hit with ⟨_, hcl⟩ | ⟨_, decl, imp, _, _, ⟨_, hsm⟩ | ⟨_, hbig⟩⟩
    · obtain ⟨toChunk, cs, _, _, _, rfl⟩ := classBranch_next hcl
      exact filesInv_push ctx s.chunkNb s.a.written s.a.m_splitFiles _ h.1 h.2 rfl
    · obtain ⟨cs, _, _, rfl⟩ := smallBranch_next hsm
      exact filesInv_push ctx s.chunkNb s.a.written s.a.m_splitFiles _ h.1 h.2 rfl
    · refine bigLoop_next_inv (fun b => FilesInv ctx b.s) (FilesInv ctx)
        (fun b hq _ => hq) ?_ ?_ 1002 _ s1 h hbig
      · intro b b1 hq _ hb
        obtain ⟨fin, ti, tc, ic, cs, _, _, _, _, _, _, _, rfl⟩ := bigIter_again hb
        exact filesInv_bigAfter _ _ _ _ hq
      · intro b s2 hq _ hb
        obtain ⟨fin, ti, tc, ic, cs, _, _, _, _, _, _, _, rfl⟩ := bigIter_leave hb
        exact filesInv_bigAfter _ _ _ _ hq
  exact key

/-- On a fresh analyzer a run of `analyze` that splits has written fragment
number `k` to chunk file number `k` of the preprocessed file, for the numbers
`0, 1, 2, ...` without a gap, and `m_splitFiles` lists these files in the order
written. -/
theorem analyze_split_files (env : Env) (cfg : Config) (a : Analyzer)
    (h : analyze env cfg {} = Outcome.split a) :
    a.written.map (fun f => f.file) =
        (List.range a.written.length).map (env.getChunkFile cfg.m_ppFileId) ∧
      a.m_splitFiles = a.written.map (fun f => f.file) := by
  unfold analyze at h
  simp only at h
  split at h
  · exact absurd h (by simp)
  · split at h
    · exact absurd h (by simp)
    · obtain ⟨s1, ⟨h1, h2⟩, rfl⟩ :=
        splitLoop_split_inv (FilesInv _)
          (fun s c s1 hp _ hit => filesInv_step s c s1 hp hit) _ _ a
          (by simp [FilesInv]) h
      have hl := congrArg List.length h1
      simp only [List.length_map, List.length_range] at hl
      rw [hl]
      exact ⟨h1, h2⟩

set_option maxRecDepth 100000 in
/-- C16 (defect of the code): on `classModuleClass` the fragments go to the
chunk files 3000, 3001, 3002 in this order, and begin at the lines 1, 11 and 7:
the third fragment begins before the second. -/
theorem analyze_fragments_out_of_order :
    (analyze sampleEnv classModuleClass {}).final.m_splitFiles = [3000, 3001, 3002] ∧
      (analyze sampleEnv classModuleClass {}).final.written.map
        (fun f => (f.file, f.fromLine)) = [(3000, 1), (3001, 11), (3002, 7)] := by
  decide

/-! ### What the scan takes for a keyword -/

set_option maxRecDepth 100000 in
/-- C11 (defect of the code): a string literal that holds `/*` opens a block
comment, and after a string literal that ends in an escaped backslash the scan
is still inside a string; the module that follows is not recorded.  After the
string literal `"ab"` it is recorded. -/
theorem scan_string_hides_module :
    scannedChunks "string s = \"/*\";\nmodule m;\nendmodule\n" = [] ∧
      scannedFlags "string s = \"/*\";\nmodule m;\nendmodule\n" = (true, true) ∧
      scannedChunks "string s = \"a\\\\\";\nmodule m;\nendmodule\n" = [] ∧
      scannedFlags "string s = \"a\\\\\";\nmodule m;\nendmodule\n" = (false, true) ∧
      scannedChunks "string s = \"ab\";\nmodule m;\nendmodule\n" =
        [(ElemType.Module, 3, 4)] := by
  decide

set_option maxRecDepth 100000 in
/-- C12 (defect of the code): for a construct of each of the eight kinds that
opens on line 1 of the text and closes on line 2, the chunk recorded has
`m_fromLine = 2` and `m_toLine = 3`, while `allLines[1]` is the header line,
`allLines[2]` the closing line and `allLines` has no index 3. -/
theorem scan_lines_one_too_high :
    scannedChunks "package p;\nendpackage\n" = [(ElemType.Package, 2, 3)] ∧
      scannedChunks "module m;\nendmodule\n" = [(ElemType.Module, 2, 3)] ∧
      scannedChunks "class c;\nendclass\n" = [(ElemType.Class, 2, 3)] ∧
      scannedChunks "interface i;\nendinterface\n" = [(ElemType.Interface, 2, 3)] ∧
      scannedChunks "config c;\nendconfig\n" = [(ElemType.Config, 2, 3)] ∧
      scannedChunks "checker c;\nendchecker\n" = [(ElemType.Checker, 2, 3)] ∧
      scannedChunks "program p;\nendprogram\n" = [(ElemType.Program, 2, 3)] ∧
      scannedChunks "primitive p;\nendprimitive\n" = [(ElemType.Primitive, 2, 3)] ∧
      mkAllLines sampleEnv 2 "module m;\nendmodule\n".toList =
        ["FILLER LINE".toList, "module m;".toList, "endmodule".toList] := by
  decide

set_option maxRecDepth 100000 in
/-- C13 (defect of the code): the identifiers `module1` and `config2` open a
module and a config, and `endmodule3` closes a module; `program_x` opens
nothing. -/
theorem scan_keyword_before_digit :
    scannedChunks "wire module1;\n" = [(ElemType.Module, 2, 0)] ∧
      scannedChunks "module m;\nwire endmodule3;\n" = [(ElemType.Module, 2, 3)] ∧
      scannedChunks "config2 c;\nendconfig\n" = [(ElemType.Config, 2, 3)] ∧
      scannedChunks "program_x p;\nendprogram\n" = [] := by
  decide

/-! ### Accesses out of range -/

set_option maxRecDepth 100000 in
/-- C18 (defect of the code): three texts on which a run reads outside a
vector: a module opened on the last line (`allLines[m_fromLine]`), a module
that closes on the last line with a class inside (`allLines[m_toLine + 1]`),
and an `SLline` line whose third token has no `^` (`parts[1]`). -/
theorem analyze_out_of_range :
    analyze sampleEnv moduleOnLastLine {} = Outcome.fault ∧
      analyze sampleEnv closersOnLastLine {} = Outcome.fault ∧
      checkSLlineDirective_ sampleEnv [] "SLline 1 abc 1".toList 1 = none ∧
      analyze sampleEnv directiveWithoutCaret {} = Outcome.fault := by
  decide

/-! ### The expansion of a function-like macro -/

theorem trimBlanks_plain (x : List Char) (h : PlainArg x) : trimBlanks x = x := by
  have hd : ∀ l : List Char, (∀ c ∈ l, c ≠ ' ') → l.dropWhile (fun c => c == ' ') = l := by
    intro l hl
    cases l with
    | nil => rfl
    | cons a l1 =>
      have : (a == ' ') = false := by simpa using hl a (List.mem_cons_self _ _)
      simp [List.dropWhile_cons, this]
  have h1 : ∀ c ∈ x, c ≠ ' ' := fun c hc => (h c hc).2.2.2.2
  have h2 : ∀ c ∈ x.reverse, c ≠ ' ' := fun c hc => h1 c (List.mem_reverse.1 hc)
  simp only [trimBlanks, hd x h1, hd _ h2, List.reverse_reverse]

/-- A character of plain text other than the backtick is copied to the output. -/
theorem textStep_copy (st : UnitState) (c : Char) (hm : st.mode = ScanMode.text)
    (hc : c ≠ backtick) :
    (textStep st c).out = st.out ++ [c] ∧ (textStep st c).mode = ScanMode.text ∧
      (textStep st c).table = st.table := by
  unfold textStep
  split_ifs <;> simp_all

/-- In text mode, a text without a backtick is copied to the output. -/
theorem unitStep_text (policy : MacroPolicy) (child : ChildUnit) (chain : List (List Char)) :
    ∀ (t : List Char) (st : UnitState), st.mode = ScanMode.text → (∀ c ∈ t, c ≠ backtick) →
      (t.foldl (unitStep policy child chain) st).out = st.out ++ t ∧
      (t.foldl (unitStep policy child chain) st).mode = ScanMode.text ∧
      (t.foldl (unitStep policy child chain) st).table = st.table := by
  intro t
  induction t with
  | nil => intro st hm _; simp [hm]
  | cons c t ih =>
    intro st hm ht
    have h1 : unitStep policy child chain st c = textStep st c := by
      simp [unitStep, hm]
    obtain ⟨ho, hm1, ht1⟩ := textStep_copy st c hm (ht c (List.mem_cons_self _ _))
    obtain ⟨ho2, hm2, ht2⟩ := ih (textStep st c) hm1
      (fun a ha => ht a (List.mem_cons_of_mem _ ha))
    rw [List.foldl_cons, h1]
    exact ⟨by rw [ho2, ho]; simp, hm2, by rw [ht2, ht1]⟩

/-- A unit whose text has no backtick gives the text back. -/
theorem preprocessUnit_plain (policy : MacroPolicy) (depth : Nat)
    (table : List MacroDefinition) (chain : List (List Char)) (t : List Char)
    (ht : ∀ c ∈ t, c ≠ backtick) : (preprocessUnit policy depth table chain t).2 = t := by
  cases depth with
  | zero => rfl
  | succ d =>
    obtain ⟨ho, hm, _⟩ := unitStep_text policy
      (fun tb ch body => (preprocessUnit policy d tb ch body).2) chain t
      (UnitState.start table) rfl ht
    simp only [preprocessUnit, unitFlush, hm, ho]
    rfl

/-- While the actual arguments are collected, the characters of a plain
argument are added to the argument being read. -/
theorem unitStep_actuals (policy : MacroPolicy) (child : ChildUnit) (chain : List (List Char))
    (m : MacroDefinition) (acc : List (List Char)) :
    ∀ (x cur : List Char) (st : UnitState), st.mode = ScanMode.actuals m 0 cur acc →
      PlainArg x →
      x.foldl (unitStep policy child chain) st =
        { st with mode := ScanMode.actuals m 0 (cur ++ x) acc } := by
  intro x
  induction x with
  | nil => intro cur st hm _; simp [← hm]
  | cons c x ih =>
    intro cur st hm hx
    have hc := hx c (List.mem_cons_self _ _)
    have h1 : unitStep policy child chain st c =
        { st with mode := ScanMode.actuals m 0 (cur ++ [c]) acc } := by
      simp [unitStep, hm, hc.1, hc.2.1, hc.2.2.1]
    have h2 := ih (cur ++ [c]) { st with mode := ScanMode.actuals m 0 (cur ++ [c]) acc } rfl
      (fun a ha => hx a (List.mem_cons_of_mem _ ha))
    rw [List.foldl_cons, h1, h2]
    simp

/-- A unit at a depth above `0` scans its text and flushes what is pending; its
child units are the units one level below. -/
theorem preprocessUnit_succ (policy : MacroPolicy) (depth : Nat) (table : List MacroDefinition)
    (chain : List (List Char)) (text : List Char) :
    (preprocessUnit policy (depth + 1) table chain text).2 =
      (unitFlush policy (fun tb ch body => (preprocessUnit policy depth tb ch body).2) chain
        (text.foldl
          (unitStep policy (fun tb ch body => (preprocessUnit policy depth tb ch body).2) chain)
          (UnitState.start table))).out :=
  rfl

/-- The scan of the definition of `ADD` and of the text up to the opening
parenthesis of its invocation: the macro is in the table, `wire x = ` in the
output, and the actual arguments are about to be collected. -/
theorem unitStep_addText_head (policy : MacroPolicy) (child : ChildUnit) :
    "`define ADD(a,b) ((a)+(b))\nwire x = `ADD(".toList.foldl (unitStep policy child [])
        (UnitState.start []) =
      { table := [addMacro], out := "wire x = ".toList, inString := false, inComment := false
        inLineComment := false, prev := backtick
        mode := ScanMode.actuals addMacro 0 [] [] } := by
  simp +decide [String.toList, List.foldl, unitStep, textStep, endOfName, lookupMacro,
    isNameChar, addMacro, trimBlanks, dquote, backtick, lineFeed, backslash, UnitState.start]

/-- The body of `ADD` with `x` and `y` put in the place of `a` and `b`. -/
theorem substituteFormals_addMacro (x y : List Char) :
    substituteFormals addMacro.formals [x, y] addMacro.body [] =
      "((".toList ++ x ++ ")+(".toList ++ y ++ "))".toList := by
  have ha : List.indexOf ['a'] [['a'], ['b']] = 0 := by decide
  have hb : List.indexOf ['b'] [['a'], ['b']] = 1 := by decide
  simp +decide [substituteFormals, addMacro, replaceWord, isNameChar, ha, hb]

/-- For actual arguments `x` and `y` without parentheses, commas,
backticks and blanks, and under every policy, the text that defines
`ADD(a,b) ((a)+(b))` and then holds `wire x = ` and the invocation of `ADD`
with `x` and `y` is preprocessed to `wire x = ((x)+(y));`: each formal
argument of the body is replaced by the text of the actual argument at its
position. -/
theorem preprocess_addText (policy : MacroPolicy) (x y : List Char)
    (hx : PlainArg x) (hy : PlainArg y) :
    preprocess policy (addText x y) =
      "wire x = ((".toList ++ x ++ ")+(".toList ++ y ++ "));".toList := by
  have hbx : ∀ c ∈ x, c ≠ backtick := fun c hc => (hx c hc).2.2.2.1
  have hby : ∀ c ∈ y, c ≠ backtick := fun c hc => (hy c hc).2.2.2.1
  have hdepth : (addText x y).count backtick + 1 = 2 + 1 := by
    simp only [addText, List.count_append, List.count_eq_zero.2 (fun hm => hbx _ hm rfl),
      List.count_eq_zero.2 (fun hm => hby _ hm rfl)]
    decide
  -- the child units copy the actual arguments and the substituted body
  have hplain : ∀ c ∈ "((".toList ++ x ++ ")+(".toList ++ y ++ "))".toList, c ≠ backtick := by
    intro c hc
    simp only [List.mem_append] at hc
    rcases hc with (((hc | hc) | hc) | hc) | hc
    · revert c; decide
    · exact hbx c hc
    · revert c; decide
    · exact hby c hc
    · revert c; decide
  have hexpand : expandMacro policy (fun tb ch body => (preprocessUnit policy 2 tb ch body).2)
      [addMacro] [] addMacro [x, y] =
      "((".toList ++ x ++ ")+(".toList ++ y ++ "))".toList := by
    have hargs : (if policy.evaluate = true then
        [x, y].map (fun body => (preprocessUnit policy 2 [addMacro] [] body).2)
        else [x, y]) = [x, y] := by
      split_ifs
      · simp [preprocessUnit_plain policy 2 [addMacro] [] x hbx,
          preprocessUnit_plain policy 2 [addMacro] [] y hby]
      · rfl
    simp only [expandMacro, List.not_mem_nil, if_false, hargs, substituteFormals_addMacro]
    exact preprocessUnit_plain policy 2 _ _ _ hplain
  have hcomma : ∀ st : UnitState, st.mode = ScanMode.actuals addMacro 0 x [] →
      unitStep policy (fun tb ch body => (preprocessUnit policy 2 tb ch body).2) [] st ',' =
        { st with mode := ScanMode.actuals addMacro 0 [] [x] } := by
    intro st hm
    simp +decide [unitStep, hm, trimBlanks_plain x hx]
  have hclose : ∀ st : UnitState, st.mode = ScanMode.actuals addMacro 0 y [x] →
      st.table = [addMacro] →
      unitStep policy (fun tb ch body => (preprocessUnit policy 2 tb ch body).2) [] st ')' =
        { st with out := st.out ++ ("((".toList ++ x ++ ")+(".toList ++ y ++ "))".toList)
                  mode := ScanMode.text } := by
    intro st hm ht
    simp +decide only [unitStep, hm, trimBlanks_plain y hy, ht, hexpand, List.nil_append,
      List.singleton_append, if_true, if_false]
  have e1 : ",".toList = [','] := rfl
  have e2 : ");".toList = [')', ';'] := rfl
  unfold preprocess
  rw [hdepth, preprocessUnit_succ]
  simp only [addText, List.foldl_append]
  rw [unitStep_addText_head, unitStep_actuals _ _ _ addMacro [] x [] _ rfl hx, e1, e2]
  simp only [List.foldl_cons, List.foldl_nil, List.nil_append]
  rw [hcomma _ rfl, unitStep_actuals _ _ _ addMacro [x] y [] _ rfl hy]
  simp only [List.nil_append]
  rw [hclose _ rfl rfl]
  simp +decide [unitStep, textStep, unitFlush]

/-! ### A run on an analyzer that was used before -/

theorem optRel_mono {α β : Type} {R S : α → β → Prop} (h : ∀ a b, R a b → S a b) :
    ∀ (x : Option α) (y : Option β), OptRel R x y → OptRel S x y := by
  intro x y hxy
  cases x <;> cases y <;> simp_all [OptRel]

/-- Whether `checkSLlineDirective_` reads outside the parts of the directive
does not depend on the provenance stack. -/
theorem checkSLlineDirective_isSome (env : Env) (st st1 : List IncludeFileInfo)
    (line : List Char) (n : Nat) :
    OptRel (fun _ _ => True) (checkSLlineDirective_ env st line n)
      (checkSLlineDirective_ env st1 line n) := by
  unfold checkSLlineDirective_
  simp only
  split
  · split
    · split
      · simp [OptRel]
      · split
        · cases st.tail <;> cases st1.tail <;> simp [OptRel]
        · simp [OptRel]
    · simp [OptRel]
  · simp [OptRel]

/-- The directive is made from the top frame alone. -/
theorem setSLlineDirective_append (env : Env) (st q : List IncludeFileInfo) (n : Nat)
    (h : st ≠ []) : setSLlineDirective_ env (st ++ q) n = setSLlineDirective_ env st n := by
  cases st with
  | nil => exact absurd rfl h
  | cons f st1 => rfl

/-- The plain copy loop in the two runs: both fault or neither does, the same
number of lines is counted, and when no line is a directive the same content
is added and the stacks stay as they are. -/
theorem copyPlain_sim (env : Env) (allLines : List (List Char)) (toLine : Nat) :
    ∀ (n l : Nat) (cs cs1 : CopyState), cs1.linesWriten = cs.linesWriten →
      OptRel (fun r r1 => r1.linesWriten = r.linesWriten ∧
          ((∀ line ∈ allLines, NoDirective line) → r.stack = cs.stack ∧ r1.stack = cs1.stack ∧
            (cs1.content = cs.content → r1.content = r.content)))
        (copyPlain env allLines toLine n l cs) (copyPlain env allLines toLine n l cs1) := by
  intro n
  induction n with
  | zero =>
    intro l cs cs1 h
    simp only [copyPlain, OptRel]
    exact ⟨h, fun _ => ⟨trivial, trivial, fun hc => hc⟩⟩
  | succ k ih =>
    intro l cs cs1 h
    unfold copyPlain
    cases hline : allLines[l]? with
    | none => simp [OptRel]
    | some line =>
      simp only
      have hsome := checkSLlineDirective_isSome env cs.stack cs1.stack line l
      cases h1 : checkSLlineDirective_ env cs.stack line l with
      | none =>
        cases h2 : checkSLlineDirective_ env cs1.stack line l with
        | none => simp [OptRel]
        | some st1 => rw [h1, h2] at hsome; simp [OptRel] at hsome
      | some st =>
        cases h2 : checkSLlineDirective_ env cs1.stack line l with
        | none => rw [h1, h2] at hsome; simp [OptRel] at hsome
        | some st1 =>
          simp only
          refine optRel_mono ?_ _ _ (ih (l + 1)
            { content := cs.content ++ line ++ (if l ≠ toLine - 1 then [lineFeed] else [])
              stack := st, linesWriten := cs.linesWriten + 1 }
            { content := cs1.content ++ line ++ (if l ≠ toLine - 1 then [lineFeed] else [])
              stack := st1, linesWriten := cs1.linesWriten + 1 } (by simp [h]))
          intro r r1 ⟨hl, hex⟩
          refine ⟨hl, fun hno => ?_⟩
          have hnd := hno line (List.getElem?_mem hline)
          rw [checkSLlineDirective_of_noDirective env cs.stack l hnd] at h1
          rw [checkSLlineDirective_of_noDirective env cs1.stack l hnd] at h2
          simp only [Option.some.injEq] at h1 h2
          obtain ⟨e1, e2, e3⟩ := hex hno
          simp only at e1 e2 e3
          exact ⟨by rw [e1, h1], by rw [e2, h2], fun hc => e3 (by rw [hc])⟩

/-- The copy loop of a split package or module in the two runs. -/
theorem copyBig_sim (env : Env) (allLines : List (List Char)) (ty : ElemType)
    (imp : List Char) (hd toLine : Nat) :
    ∀ (n l : Nat) (cs cs1 : BigCopyState), cs1.linesWriten = cs.linesWriten →
      cs1.actualContent = cs.actualContent → cs1.closer = cs.closer →
      OptRel (fun r r1 => r1.linesWriten = r.linesWriten ∧
          r1.actualContent = r.actualContent ∧ r1.closer = r.closer ∧
          ((∀ line ∈ allLines, NoDirective line) → r.stack = cs.stack ∧ r1.stack = cs1.stack ∧
            (cs1.content = cs.content → r1.content = r.content)))
        (copyBig env allLines ty imp hd toLine n l cs)
        (copyBig env allLines ty imp hd toLine n l cs1) := by
  intro n
  induction n with
  | zero =>
    intro l cs cs1 h ha hc
    simp only [copyBig, OptRel]
    exact ⟨h, ha, hc, fun _ => ⟨trivial, trivial, fun hc => hc⟩⟩
  | succ k ih =>
    intro l cs cs1 h ha hcl
    unfold copyBig
    cases hline : allLines[l]? with
    | none => simp [OptRel]
    | some line =>
      simp only
      have hsome := checkSLlineDirective_isSome env cs.stack cs1.stack line l
      cases h1 : checkSLlineDirective_ env cs.stack line l with
      | none =>
        cases h2 : checkSLlineDirective_ env cs1.stack line l with
        | none => simp [OptRel]
        | some st1 => rw [h1, h2] at hsome; simp [OptRel] at hsome
      | some st =>
        cases h2 : checkSLlineDirective_ env cs1.stack line l with
        | none => rw [h1, h2] at hsome; simp [OptRel] at hsome
        | some st1 =>
          simp only
          refine optRel_mono ?_ _ _ (ih (l + 1)
            { content := cs.content ++ line ++
                (if l = hd then "  ".toList ++ imp else []) ++
                (if l ≠ toLine - 1 then [lineFeed] else [])
              stack := st, linesWriten := cs.linesWriten + 1, actualContent := true
              closer := closerLine ty cs.closer line }
            { content := cs1.content ++ line ++
                (if l = hd then "  ".toList ++ imp else []) ++
                (if l ≠ toLine - 1 then [lineFeed] else [])
              stack := st1, linesWriten := cs1.linesWriten + 1, actualContent := true
              closer := closerLine ty cs1.closer line } (by simp [h]) rfl (by simp [hcl]))
          intro r r1 ⟨hl, hac, hclo, hex⟩
          refine ⟨hl, hac, hclo, fun hno => ?_⟩
          have hnd := hno line (List.getElem?_mem hline)
          rw [checkSLlineDirective_of_noDirective env cs.stack l hnd] at h1
          rw [checkSLlineDirective_of_noDirective env cs1.stack l hnd] at h2
          simp only [Option.some.injEq] at h1 h2
          obtain ⟨e1, e2, e3⟩ := hex hno
          simp only at e1 e2 e3
          exact ⟨by rw [e1, h1], by rw [e2, h2], fun hc => e3 (by rw [hc])⟩

theorem copyPlain_sim_of_eq {env : Env} {allLines : List (List Char)} {toLine n l : Nat}
    {cs cs1 : CopyState} {r r1 : Option CopyState}
    (h1 : copyPlain env allLines toLine n l cs = r)
    (h2 : copyPlain env allLines toLine n l cs1 = r1)
    (h : cs1.linesWriten = cs.linesWriten) :
    OptRel (fun r r1 => r1.linesWriten = r.linesWriten ∧
        ((∀ line ∈ allLines, NoDirective line) → r.stack = cs.stack ∧ r1.stack = cs1.stack ∧
          (cs1.content = cs.content → r1.content = r.content))) r r1 := by
  subst h1 h2
  exact copyPlain_sim env allLines toLine n l cs cs1 h

theorem copyBig_sim_of_eq {env : Env} {allLines : List (List Char)} {ty : ElemType}
    {imp : List Char} {hd toLine n l : Nat} {cs cs1 : BigCopyState}
    {r r1 : Option BigCopyState}
    (h1 : copyBig env allLines ty imp hd toLine n l cs = r)
    (h2 : copyBig env allLines ty imp hd toLine n l cs1 = r1)
    (h : cs1.linesWriten = cs.linesWriten) (ha : cs1.actualContent = cs.actualContent)
    (hc : cs1.closer = cs.closer) :
    OptRel (fun r r1 => r1.linesWriten = r.linesWriten ∧
        r1.actualContent = r.actualContent ∧ r1.closer = r.closer ∧
        ((∀ line ∈ allLines, NoDirective line) → r.stack = cs.stack ∧ r1.stack = cs1.stack ∧
          (cs1.content = cs.content → r1.content = r.content))) r r1 := by
  subst h1 h2
  exact copyBig_sim env allLines ty imp hd toLine n l cs cs1 h ha hc

/-- The states after one more fragment, in the two runs: they are related when
the states before are, the new loop variables agree, and, when no line is a
directive, the stacks were left as they were and the contents agree. -/
theorem splitSim_after (ctx : SplitCtx) (p : Analyzer) (s s1 : SplitState)
    (h : SplitSim ctx p s s1) (i2 from2 lw toLine : Nat) (st st1 : List IncludeFileInfo)
    (content content1 : List Char) (spl : Bool)
    (hex : (∀ line ∈ ctx.allLines, NoDirective line) →
      st = s.a.m_includeFileInfo ∧ st1 = s1.a.m_includeFileInfo ∧ content1 = content) :
    SplitSim ctx p
      { i := i2, fromLine := from2, toIndex := i2, chunkNb := s.chunkNb + 1, linesWriten := lw
        a := { s.a with
               m_lineOffsets := s.a.m_lineOffsets ++ [s.linesWriten]
               m_includeFileInfo := st
               written := s.a.written ++
                 [{ file := ctx.env.getChunkFile ctx.m_ppFileId s.chunkNb
                    content := content, fromLine := s.fromLine, toLine := toLine
                    splitted := spl }]
               m_splitFiles := s.a.m_splitFiles ++
                 [ctx.env.getChunkFile ctx.m_ppFileId s.chunkNb] } }
      { i := i2, fromLine := from2, toIndex := i2, chunkNb := s1.chunkNb + 1, linesWriten := lw
        a := { s1.a with
               m_lineOffsets := s1.a.m_lineOffsets ++ [s1.linesWriten]
               m_includeFileInfo := st1
               written := s1.a.written ++
                 [{ file := ctx.env.getChunkFile ctx.m_ppFileId s1.chunkNb
                    content := content1, fromLine := s1.fromLine, toLine := toLine
                    splitted := spl }]
               m_splitFiles := s1.a.m_splitFiles ++
                 [ctx.env.getChunkFile ctx.m_ppFileId s1.chunkNb] } } := by
  obtain ⟨_, hf, _, hn, hl, ha, hne⟩ := h
  refine ⟨rfl, rfl, rfl, by simp only [hn], rfl, ?_, ?_⟩
  · refine ⟨?_, ?_, ha.errors, ha.packages, ?_⟩
    · simp only [ha.files, hn, List.append_assoc]
    · simp only [ha.offsets, hl, List.append_assoc]
    · intro hno
      obtain ⟨e1, e2, e3⟩ := hex hno
      obtain ⟨w, k⟩ := ha.exact hno
      simp only [w, hn, hf, e3, List.append_assoc, e2, k, e1, and_self]
  · intro hno
    obtain ⟨e1, _, _⟩ := hex hno
    simp only [e1]
    exact hne hno

/-- The class branch in the two runs. -/
theorem classBranch_sim (ctx : SplitCtx) (p : Analyzer) (s s1 : SplitState)
    (h : SplitSim ctx p s s1) : StepSim ctx p (classBranch ctx s) (classBranch ctx s1) := by
  have hidx : classToIndex ctx s1 = classToIndex ctx s := by
    simp only [classToIndex, h.1, h.2.1, h.2.2.1]
  unfold classBranch
  rw [hidx]
  cases hto : ctx.fileChunks[classToIndex ctx s]? with
  | none => simp [StepSim]
  | some toChunk =>
    simp only [h.2.1, h.2.2.2.1, h.2.2.2.2.1]
    split
    · rename_i h1
      split
      · simp [StepSim]
      · rename_i h2
        have hc := copyPlain_sim_of_eq h1 h2 rfl
        simp [OptRel] at hc
    · rename_i cs h1
      split
      · rename_i hnb
        split
        · rename_i h2
          have hc := copyPlain_sim_of_eq h1 h2 rfl
          simp [OptRel] at hc
        · simp [StepSim, hnb]
      · rename_i hnb
        split
        · rename_i h2
          have hc := copyPlain_sim_of_eq h1 h2 rfl
          simp [OptRel] at hc
        · rename_i cs1 h2
          obtain ⟨hlw, hex⟩ := copyPlain_sim_of_eq h1 h2 rfl
          have := splitSim_after ctx p s s1 h (classToIndex ctx s) (toChunk.m_toLine + 1)
            cs.linesWriten (classToLine ctx (classToIndex ctx s) toChunk) cs.stack cs1.stack
            cs.content cs1.content false (by
              intro hno
              obtain ⟨e1, e2, e3⟩ := hex hno
              refine ⟨e1, e2, e3 ?_⟩
              simp only [(h.2.2.2.2.2.1.exact hno).2,
                setSLlineDirective_append _ _ _ _ (h.2.2.2.2.2.2 hno)])
          simp only [hnb, if_false, StepSim, classAfter, hidx, hlw]
          exact this

/-- The branch of a whole package or module in the two runs. -/
theorem smallBranch_sim (ctx : SplitCtx) (p : Analyzer) (s s1 : SplitState) (c : FileChunk)
    (h : SplitSim ctx p s s1) :
    StepSim ctx p (smallBranch ctx s c) (smallBranch ctx s1 c) := by
  have hprobe : smallProbe ctx s1 c = smallProbe ctx s c := by simp only [smallProbe, h.1]
  have htl : smallToLine ctx s1 c = smallToLine ctx s c := by simp only [smallToLine, h.1]
  have hfs : findSmall c.m_toLine ctx.fileChunks.length (ctx.fileChunks.drop s1.i) s1.i
      s1.toIndex =
      findSmall c.m_toLine ctx.fileChunks.length (ctx.fileChunks.drop s.i) s.i s.toIndex := by
    simp only [h.1, h.2.2.1]
  unfold smallBranch
  rw [hprobe, htl]
  cases hpr : ctx.allLines[smallProbe ctx s c]? with
  | none => simp [StepSim]
  | some probe =>
    simp only [h.2.1, h.2.2.2.1, h.2.2.2.2.1]
    split
    · simp [StepSim]
    · split
      · rename_i h1
        split
        · simp [StepSim]
        · rename_i h2
          have hc := copyPlain_sim_of_eq h1 h2 rfl
          simp [OptRel] at hc
      · rename_i cs h1
        split
        · rename_i hnb
          split
          · rename_i h2
            have hc := copyPlain_sim_of_eq h1 h2 rfl
            simp [OptRel] at hc
          · simp [StepSim, hnb]
        · rename_i hnb
          split
          · rename_i h2
            have hc := copyPlain_sim_of_eq h1 h2 rfl
            simp [OptRel] at hc
          · rename_i cs1 h2
            obtain ⟨hlw, hex⟩ := copyPlain_sim_of_eq h1 h2 rfl
            have := splitSim_after ctx p s s1 h
              (findSmall c.m_toLine ctx.fileChunks.length (ctx.fileChunks.drop s.i) s.i
                s.toIndex)
              (c.m_toLine + 1) cs.linesWriten (smallToLine ctx s c) cs.stack cs1.stack
              cs.content cs1.content false (by
                intro hno
                obtain ⟨e1, e2, e3⟩ := hex hno
                refine ⟨e1, e2, e3 ?_⟩
                simp only [(h.2.2.2.2.2.1.exact hno).2,
                  setSLlineDirective_append _ _ _ _ (h.2.2.2.2.2.2 hno)])
            simp only [hnb, if_false, StepSim, smallAfter, hfs, htl, hlw]
            exact this

/-- The head of a fragment of a package or module is the same in the two runs
when no line is a directive. -/
theorem bigHead_sim (ctx : SplitCtx) (p : Analyzer) (bc : BigCtx) (b b1 : BigState)
    (h : BigSim ctx p b b1) (hno : ∀ line ∈ ctx.allLines, NoDirective line) :
    bigDirective ctx b1 = bigDirective ctx b ∧ bigHead ctx bc b1 = bigHead ctx bc b := by
  obtain ⟨hs, _, hsim, hinfo⟩ := h
  have hd : bigDirective ctx b1 = bigDirective ctx b := by
    simp only [bigDirective, hs, hinfo hno, (hsim.2.2.2.2.2.1.exact hno).2, hsim.2.1,
      setSLlineDirective_append _ _ _ _ (hsim.2.2.2.2.2.2 hno)]
  exact ⟨hd, by simp only [bigHead, hs, hd]⟩

/-- The states after a fragment of a package or module, in the two runs. -/
theorem bigAfter_sim (ctx : SplitCtx) (p : Analyzer) (bc : BigCtx) (b b1 : BigState)
    (h : BigSim ctx p b b1) (fin : Bool) (ti : Nat) (tc : FileChunk) (cs cs1 : BigCopyState)
    (hlw : cs1.linesWriten = cs.linesWriten) (hac : cs1.actualContent = cs.actualContent)
    (hcl : cs1.closer = cs.closer)
    (hex : (∀ line ∈ ctx.allLines, NoDirective line) →
      cs.stack = b.s.a.m_includeFileInfo ∧ cs1.stack = b1.s.a.m_includeFileInfo ∧
        (bigHead ctx bc b1 = bigHead ctx bc b → cs1.content = cs.content)) :
    SplitSim ctx p (bigAfter ctx bc b fin ti tc cs) (bigAfter ctx bc b1 fin ti tc cs1) := by
  have hafter := splitSim_after ctx p b.s b1.s h.2.2.1 ti
    (if fin then bigToLine ctx bc fin ti tc else tc.m_toLine + 1) cs.linesWriten
    (bigToLine ctx bc fin ti tc) cs.stack cs1.stack (bigContent ctx bc cs)
    (bigContent ctx bc cs1) b.splitted (by
      intro hno
      obtain ⟨e1, e2, e3⟩ := hex hno
      refine ⟨e1, e2, ?_⟩
      simp only [bigContent, hac, hcl, e3 (bigHead_sim ctx p bc b b1 h hno).2])
  simp only [bigAfter, hlw, h.1]
  exact hafter

/-- One turn of the loop that breaks up a package or module, in the two runs. -/
theorem bigIter_sim (ctx : SplitCtx) (p : Analyzer) (bc : BigCtx) (b b1 : BigState)
    (h : BigSim ctx p b b1) : BigStepSim ctx p (bigIter ctx bc b) (bigIter ctx bc b1) := by
  obtain ⟨hs, he, hsim, hinfo⟩ := h
  have hfound : bigFound ctx bc b1.s = bigFound ctx bc b.s := by
    simp only [bigFound, hsim.1, hsim.2.1, hsim.2.2.1]
  unfold bigIter
  simp only [hfound, hsim.1]
  cases hto : ctx.fileChunks[(bigFound ctx bc b.s).2]? with
  | none => simp [BigStepSim]
  | some toChunk =>
    simp only
    cases hic : ctx.fileChunks[b.s.i]? with
    | none => simp [BigStepSim]
    | some iChunk =>
      simp only [hsim.2.1, hsim.2.2.2.1, hsim.2.2.2.2.1, he]
      have hi2 : ∀ cs cs1 : BigCopyState,
          (bigAfter ctx bc b1 (bigFound ctx bc b.s).1 (bigFound ctx bc b.s).2 toChunk cs1).i =
          (bigAfter ctx bc b (bigFound ctx bc b.s).1 (bigFound ctx bc b.s).2 toChunk cs).i :=
        fun _ _ => rfl
      split
      · rename_i h1
        split
        · simp [BigStepSim]
        · rename_i h2
          have hc := copyBig_sim_of_eq h1 h2 rfl rfl rfl
          simp [OptRel] at hc
      · rename_i cs h1
        split
        · rename_i hnb
          split
          · rename_i h2
            have hc := copyBig_sim_of_eq h1 h2 rfl rfl rfl
            simp [OptRel] at hc
          · simp [BigStepSim, hnb]
        · rename_i hnb
          split
          · rename_i hge
            split
            · rename_i h2
              have hc := copyBig_sim_of_eq h1 h2 rfl rfl rfl
              simp [OptRel] at hc
            · rename_i cs1 h2
              obtain ⟨hlw, hac, hcl, hex⟩ := copyBig_sim_of_eq h1 h2 rfl rfl rfl
              simp only [hnb, if_false, hi2 cs cs1, hge, if_true, BigStepSim]
              exact bigAfter_sim ctx p bc b b1 ⟨hs, he, hsim, hinfo⟩ _ _ _ cs cs1 hlw hac hcl
                (fun hno => ⟨(hex hno).1, (hex hno).2.1, (hex hno).2.2⟩)
          · rename_i hge
            split
            · rename_i h2
              have hc := copyBig_sim_of_eq h1 h2 rfl rfl rfl
              simp [OptRel] at hc
            · rename_i cs1 h2
              obtain ⟨hlw, hac, hcl, hex⟩ := copyBig_sim_of_eq h1 h2 rfl rfl rfl
              simp only [hnb, if_false, hi2 cs cs1, hge, BigStepSim]
              refine ⟨hac, by rw [hcl], ?_, fun hno => ?_⟩
              · exact bigAfter_sim ctx p bc b b1 ⟨hs, he, hsim, hinfo⟩ _ _ _ cs cs1 hlw hac
                  hcl (fun hno => ⟨(hex hno).1, (hex hno).2.1, (hex hno).2.2⟩)
              · exact (bigHead_sim ctx p bc b b1 ⟨hs, he, hsim, hinfo⟩ hno).1

/-- The loop that breaks up a package or module, in the two runs. -/
theorem bigLoop_sim (ctx : SplitCtx) (p : Analyzer) (bc : BigCtx) :
    ∀ (fuel : Nat) (b b1 : BigState), BigSim ctx p b b1 →
      StepSim ctx p (bigLoop ctx bc fuel b) (bigLoop ctx bc fuel b1) := by
  intro fuel
  induction fuel with
  | zero => intro b b1 _; simp [bigLoop, StepSim]
  | succ n ih =>
    intro b b1 h
    unfold bigLoop
    rw [h.2.1]
    by_cases hd : b.endPackageDetected = true
    · simp only [hd, if_true, StepSim]
      exact h.2.2.1
    · simp only [hd, if_false]
      have hit := bigIter_sim ctx p bc b b1 h
      cases h1 : bigIter ctx bc b <;> cases h2 : bigIter ctx bc b1 <;>
        rw [h1, h2] at hit <;> simp only [BigStepSim] at hit <;>
        first
          | exact hit.elim
          | exact ih _ _ hit
          | exact hit

/-- One turn of the split loop, in the two runs. -/
theorem splitIter_sim (ctx : SplitCtx) (p : Analyzer) (s s1 : SplitState) (c : FileChunk)
    (h : SplitSim ctx p s s1) : StepSim ctx p (splitIter ctx s c) (splitIter ctx s1 c) := by
  unfold splitIter
  split
  · split
    · simp [StepSim]
    · split
      · simp [StepSim]
      · split
        · exact bigLoop_sim ctx p _ 1002 _ _ ⟨rfl, rfl, h, fun _ => rfl⟩
        · exact smallBranch_sim ctx p s s1 c h
  · exact classBranch_sim ctx p s s1 h

/-- The split loop, in the two runs. -/
theorem splitLoop_sim (ctx : SplitCtx) (p : Analyzer) :
    ∀ (fuel : Nat) (s s1 : SplitState), SplitSim ctx p s s1 →
      OutcomeSim ctx.allLines p (splitLoop ctx fuel s) (splitLoop ctx fuel s1) := by
  intro fuel
  induction fuel with
  | zero => intro s s1 _; simp [splitLoop, OutcomeSim]
  | succ n ih =>
    intro s s1 h
    unfold splitLoop
    rw [h.1]
    cases hc : ctx.fileChunks[s.i]? with
    | none =>
      simp only [OutcomeSim]
      exact h.2.2.2.2.2.1
    | some c =>
      simp only
      have hit := splitIter_sim ctx p s s1 c h
      cases h1 : splitIter ctx s c with
      | next t =>
        cases h2 : splitIter ctx s1 c with
        | next t1 =>
          rw [h1, h2] at hit
          simp only
          exact ih _ _ ⟨by simp only [hit.1], hit.2.1, hit.2.2.1, hit.2.2.2.1, hit.2.2.2.2.1,
            hit.2.2.2.2.2.1, hit.2.2.2.2.2.2⟩
        | cannotSplit a1 => rw [h1, h2] at hit; exact hit.elim
        | fault => rw [h1, h2] at hit; exact hit.elim
        | outOfFuel => rw [h1, h2] at hit; exact hit.elim
      | cannotSplit a =>
        cases h2 : splitIter ctx s1 c with
        | next t1 => rw [h1, h2] at hit; exact hit.elim
        | cannotSplit a1 =>
          obtain ⟨a0, rfl⟩ := splitIter_cannotSplit h1
          obtain ⟨a01, rfl⟩ := splitIter_cannotSplit h2
          simp [OutcomeSim, reportCannotSplit]
        | fault => rw [h1, h2] at hit; exact hit.elim
        | outOfFuel => rw [h1, h2] at hit; exact hit.elim
      | fault =>
        cases h2 : splitIter ctx s1 c with
        | next t1 => rw [h1, h2] at hit; exact hit.elim
        | cannotSplit a1 => rw [h1, h2] at hit; exact hit.elim
        | fault => simp [OutcomeSim]
        | outOfFuel => rw [h1, h2] at hit; exact hit.elim
      | outOfFuel =>
        cases h2 : splitIter ctx s1 c with
        | next t1 => rw [h1, h2] at hit; exact hit.elim
        | cannotSplit a1 => rw [h1, h2] at hit; exact hit.elim
        | fault => rw [h1, h2] at hit; exact hit.elim
        | outOfFuel => simp [OutcomeSim]

/-- A run of `analyze` on the analyzer `p` ends the way the run on a fresh
analyzer ends, and what it adds to the lists of `p` is what the run on the
fresh analyzer leaves in its lists; when no line of the text is a directive,
the fragments it writes are those the run on the fresh analyzer writes. -/
theorem analyze_sim (env : Env) (cfg : Config) (p : Analyzer) :
    OutcomeSim (mkAllLines env cfg.m_ppFileId cfg.m_text) p (analyze env cfg {})
      (analyze env cfg p) := by
  unfold analyze
  simp only
  split
  · simp only [OutcomeSim]
    exact ⟨by simp, by simp, by simp, by simp, fun _ => by simp⟩
  · split
    · simp [OutcomeSim, reportCannotSplit]
    · refine splitLoop_sim _ p _ _ _ ⟨rfl, rfl, rfl, rfl, rfl, ?_, ?_⟩
      · exact ⟨by simp, by simp, by simp, by simp, fun _ => by simp⟩
      · intro _
        simp

/-- C17 (amended): a second run of `analyze` on the analyzer the first run
returned ends the way the first run ended.  After a run that hands the text
over whole or splits it, `m_splitFiles` and `m_lineOffsets` hold the entries of
the first run twice; after an error return both are empty, as they were.  When
no line of the text is an `SLline` directive, a second run that splits writes
the fragments of the first run, chunk files and contents, once more. -/
theorem analyze_second_run (env : Env) (cfg : Config) :
    (∀ a1, analyze env cfg {} = Outcome.whole a1 →
      ∃ a2, analyze env cfg a1 = Outcome.whole a2 ∧
        a2.m_splitFiles = a1.m_splitFiles ++ a1.m_splitFiles ∧
        a2.m_lineOffsets = a1.m_lineOffsets ++ a1.m_lineOffsets) ∧
    (∀ a1, analyze env cfg {} = Outcome.split a1 →
      ∃ a2, analyze env cfg a1 = Outcome.split a2 ∧
        a2.m_splitFiles = a1.m_splitFiles ++ a1.m_splitFiles ∧
        a2.m_lineOffsets = a1.m_lineOffsets ++ a1.m_lineOffsets ∧
        ((∀ line ∈ mkAllLines env cfg.m_ppFileId cfg.m_text, NoDirective line) →
          a2.written = a1.written ++ a1.written)) ∧
    (∀ a1, analyze env cfg {} = Outcome.cannotSplit a1 →
      ∃ a2, analyze env cfg a1 = Outcome.cannotSplit a2 ∧
        a1.m_splitFiles = [] ∧ a1.m_lineOffsets = [] ∧
        a2.m_splitFiles = [] ∧ a2.m_lineOffsets = []) := by
  refine ⟨fun a1 h1 => ?_, fun a1 h1 => ?_, fun a1 h1 => ?_⟩
  · have hs := analyze_sim env cfg a1
    rw [h1] at hs
    cases h2 : analyze env cfg a1 <;> rw [h2] at hs <;> simp only [OutcomeSim] at hs
    exact ⟨_, rfl, hs.files, hs.offsets⟩
  · have hs := analyze_sim env cfg a1
    rw [h1] at hs
    cases h2 : analyze env cfg a1 <;> rw [h2] at hs <;> simp only [OutcomeSim] at hs
    exact ⟨_, rfl, hs.files, hs.offsets, fun hno => (hs.exact hno).1⟩
  · have hs := analyze_sim env cfg a1
    rw [h1] at hs
    cases h2 : analyze env cfg a1 <;> rw [h2] at hs <;> simp only [OutcomeSim] at hs
    exact ⟨_, rfl, hs.1, hs.2.1, hs.2.2.1, hs.2.2.2⟩

set_option maxRecDepth 100000 in
/-- C17 (counterexample): after a second run on `twoClasses` the two lists hold
four entries, not the two they held after the first run; and on `popThenPush`
the fourth fragment written, the second one of the second run, begins with a
directive that the second fragment of the first run does not have. -/
theorem second_run_appends :
    (analyze sampleEnv twoClasses {}).lists = some ([3000, 3001], [0, 4]) ∧
      (analyze sampleEnv twoClasses (analyze sampleEnv twoClasses {}).final).lists =
        some ([3000, 3001, 3000, 3001], [0, 4, 0, 4]) ∧
      (analyze sampleEnv popThenPush {}).contents =
        some ["SLline 1 @@BAD_SYMBOL@@^top.sv 1\n  SLline 1 top.sv^top.sv 2\nclass A;\nendclass\nclass B;",
              "  endclass\nSLline 1 top.sv^top.sv 1"] ∧
      (analyze sampleEnv popThenPush (analyze sampleEnv popThenPush {}).final).contents =
        some ["SLline 1 @@BAD_SYMBOL@@^top.sv 1\n  SLline 1 top.sv^top.sv 2\nclass A;\nendclass\nclass B;",
              "  endclass\nSLline 1 top.sv^top.sv 1",
              "SLline 1 @@BAD_SYMBOL@@^top.sv 1\n  SLline 1 top.sv^top.sv 2\nclass A;\nendclass\nclass B;",
              "SLline 4 top.sv^top.sv 1\n  endclass\nSLline 1 top.sv^top.sv 1"] := by
  decide

set_option maxRecDepth 100000 in
/-- Witness for C17 (amended): the second run on `twoClasses`, a text without
directives. -/
theorem analyze_second_run_witness :
    (∀ line ∈ mkAllLines sampleEnv twoClasses.m_ppFileId twoClasses.m_text,
        NoDirective line) ∧
      ∃ a2, analyze sampleEnv twoClasses (analyze sampleEnv twoClasses {}).final =
          Outcome.split a2 ∧
        a2.m_splitFiles = (analyze sampleEnv twoClasses {}).final.m_splitFiles ++
          (analyze sampleEnv twoClasses {}).final.m_splitFiles ∧
        a2.m_lineOffsets = (analyze sampleEnv twoClasses {}).final.m_lineOffsets ++
          (analyze sampleEnv twoClasses {}).final.m_lineOffsets ∧
        a2.written = (analyze sampleEnv twoClasses {}).final.written ++
          (analyze sampleEnv twoClasses {}).final.written := by
  obtain ⟨a2, h1, h2, h3, h4⟩ :=
    (analyze_second_run sampleEnv twoClasses).2.1 (analyze sampleEnv twoClasses {}).final
      (by decide)
  exact ⟨by decide, a2, h1, h2, h3, h4 (by decide)⟩

/-! ### The signedness of a built-in typespec -/

/-- C30 (defect of the code): `byte`, `shortint`, `int`, `integer` and
`longint` are signed unless `unsigned` follows, and `logic` and `reg` are
unsigned unless `signed` follows, as the comments citing LRM 6.8 say; `bit`
is not treated like `logic` and `reg`: its typespec is signed unless
`unsigned` follows, so the declaration `bit b;` gives a signed typespec. -/
theorem compileBuiltinTypespec_signed (fC : FileContent) (type : NodeId)
    (ranges : List (Nat × Nat)) :
    (∀ t ∈ [VObjectType.slIntegerAtomType_Byte, VObjectType.slIntegerAtomType_Shortint,
        VObjectType.slIntegerAtomType_Int, VObjectType.slIntegerAtomType_Integer,
        VObjectType.slIntegerAtomType_LongInt],
      (compileBuiltinTypespec fC type t ranges).vpiSigned =
        some (!followedByUnsigned fC type)) ∧
    (∀ t ∈ [VObjectType.slIntVec_TypeLogic, VObjectType.slIntVec_TypeReg],
      (compileBuiltinTypespec fC type t ranges).vpiSigned = some (followedBySigned fC type)) ∧
    (compileBuiltinTypespec fC type VObjectType.slIntVec_TypeBit ranges).vpiSigned =
      some (!followedByUnsigned fC type) ∧
    followedBySigned bitWithoutSigning 1 = false ∧
    (compileBuiltinTypespec bitWithoutSigning 1 VObjectType.slIntVec_TypeBit []).vpiSigned =
      some true := by
  refine ⟨?_, ?_, ?_, by decide, by decide⟩
  · intro t ht
    simp only [List.mem_cons, List.mem_singleton, List.not_mem_nil, or_false] at ht
    rcases ht with rfl | rfl | rfl | rfl | rfl <;>
      simp only [compileBuiltinTypespec, followedByUnsigned] <;> split_ifs <;> simp [*]
  · intro t ht
    simp only [List.mem_cons, List.mem_singleton, List.not_mem_nil, or_false] at ht
    rcases ht with rfl | rfl <;>
      simp only [compileBuiltinTypespec, followedBySigned] <;> split_ifs <;> simp [*]
  · simp only [compileBuiltinTypespec, followedByUnsigned]
    split_ifs <;> simp [*]

/-! ### The validity of a cache entry -/

theorem mem_collectIncludedList (g : PathId) :
    ∀ (cs : List IncludeTree) (c : IncludeTree), c ∈ cs →
      (g = c.file ∨ g ∈ c.collectIncludedFiles) → g ∈ collectIncludedList cs := by
  intro cs
  induction cs with
  | nil => intro c hc; exact absurd hc (List.not_mem_nil _)
  | cons d ds ih =>
    intro c hc hg
    rw [collectIncludedList]
    rcases List.mem_cons.1 hc with rfl | hc
    · rcases hg with rfl | hg
      · exact List.mem_cons_self _ _
      · exact List.mem_cons_of_mem _ (List.mem_append_left _ hg)
    · exact List.mem_cons_of_mem _ (List.mem_append_right _ (ih c hc hg))

/-- Every file a unit includes, directly or through other includes, is among
the files collected. -/
theorem mem_collectIncludedFiles {t : IncludeTree} {g : PathId} (h : t.Includes g) :
    g ∈ t.collectIncludedFiles := by
  induction h with
  | direct t c hc =>
    cases t with
    | node f cs =>
      rw [IncludeTree.collectIncludedFiles]
      exact mem_collectIncludedList _ cs c hc (Or.inl rfl)
  | through t c g hc _ ih =>
    cases t with
    | node f cs =>
      rw [IncludeTree.collectIncludedFiles]
      exact mem_collectIncludedList _ cs c hc (Or.inr ih)

/-- The fingerprints recorded are those the files have when they are recorded. -/
theorem fingerprintsOf_mem (files : FileState) (g : PathId) :
    ∀ (gs : List PathId) (r : List (PathId × Fingerprint)),
      fingerprintsOf files gs = some r → g ∈ gs → ∃ p, files g = some p ∧ (g, p) ∈ r := by
  intro gs
  induction gs with
  | nil => intro r _ hg; exact absurd hg (List.not_mem_nil _)
  | cons x xs ih =>
    intro r h hg
    rw [fingerprintsOf] at h
    split at h
    · rename_i p r1 hp hr1
      simp only [Option.some.injEq] at h
      subst h
      rcases List.mem_cons.1 hg with rfl | hg
      · exact ⟨p, hp, List.mem_cons_self _ _⟩
      · obtain ⟨q, hq, hm⟩ := ih r1 hr1 hg
        exact ⟨q, hq, List.mem_cons_of_mem _ hm⟩
    · exact absurd h (by simp)

/-- C21: when the fingerprint of a file that the unit of `f` included, directly
or through other includes, at the time its entry was saved is no longer the
one recorded (the content has changed, or the file is gone), the entry of `f`
is not valid, whether or not `f` itself has changed. -/
theorem isValid_false_of_included_changed (cache : PathId → Option CacheEntry)
    (files files1 : FileState) (unit : IncludeTree) (g : PathId) (expansion : List Char)
    (hinc : unit.Includes g)
    (hsave : cache unit.file = saveCache files unit expansion)
    (hchg : files1 g ≠ files g) :
    isValid cache files1 unit.file = false := by
  cases hs : saveCache files unit expansion with
  | none => simp [isValid, hsave, hs]
  | some entry =>
    have hincl : fingerprintsOf files unit.collectIncludedFiles = some entry.included := by
      unfold saveCache at hs
      split at hs
      · rename_i fp included hfp hincl
        simp only [Option.some.injEq] at hs
        subst hs
        exact hincl
      · exact absurd hs (by simp)
    obtain ⟨p, hp, hmem⟩ := fingerprintsOf_mem files g _ _ hincl
      (mem_collectIncludedFiles hinc)
    simp only [isValid, hsave, hs, Bool.and_eq_false_iff, decide_eq_false_iff_not]
    right
    rw [List.all_eq_false]
    exact ⟨(g, p), hmem, by simpa using fun h => hchg (by rw [h, hp])⟩

/-- Witness for C21: the file 1 includes 2, which includes 3; the content of 3
changes and the entry of 1 is not valid any more, while it was valid before. -/
theorem isValid_false_of_included_changed_witness :
    isValid sampleCache filesAtSave 1 = true ∧ filesAtCheck 1 = filesAtSave 1 ∧
      isValid sampleCache filesAtCheck sampleUnit.file = false :=
  ⟨by decide, by decide,
   isValid_false_of_included_changed sampleCache filesAtSave filesAtCheck sampleUnit 3
     "expanded".toList
     (IncludeTree.Includes.through sampleUnit (IncludeTree.node 2 [IncludeTree.node 3 []]) 3
       (List.mem_cons_self _ _)
       (IncludeTree.Includes.direct (IncludeTree.node 2 [IncludeTree.node 3 []])
         (IncludeTree.node 3 []) (List.mem_cons_self _ _)))
     (by decide) (by decide)⟩

/-! ### Further sample inputs -/

set_option maxRecDepth 100000 in
/-- C23 (defect of the code): on `noConstruct` the gate passes and no construct
is recorded; the run ends without a fragment, with both lists empty and
without an error. -/
theorem analyze_no_fragment_no_error :
    staysWhole noConstruct
        (scan (mkAllLines sampleEnv noConstruct.m_ppFileId noConstruct.m_text)).lineNb = false ∧
      (scan (mkAllLines sampleEnv noConstruct.m_ppFileId noConstruct.m_text)).fileChunks = [] ∧
      analyze sampleEnv noConstruct {} =
        Outcome.split (analyze sampleEnv noConstruct {}).final ∧
      (analyze sampleEnv noConstruct {}).final.m_splitFiles = [] ∧
      (analyze sampleEnv noConstruct {}).final.m_lineOffsets = [] ∧
      (analyze sampleEnv noConstruct {}).final.written = [] ∧
      (analyze sampleEnv noConstruct {}).final.errors = [] := by
  decide

set_option maxRecDepth 100000 in
/-- C26 (defect of the code): the module of `unterminatedModule` is recorded
with `m_fromLine = 5` and `m_toLine = 0`, so `m_toLine - m_fromLine` wraps to
`2 ^ 32 - 5`, which is above the chunk size of 3 lines: the module is taken for
an over-sized one and its fragment gets the synthetic closer.  On
`classModuleClass` the class recorded third ends at line 6, and the class
branch subtracts the `fromLine` 11 from it. -/
theorem analyze_subtraction_wraps :
    scannedChunks "wire a;\nwire b;\nwire c;\nmodule m;\nwire d;\n" =
        [(ElemType.Module, 5, 0)] ∧
      sub32 0 5 = 2 ^ 32 - 5 ∧
      (scan (mkAllLines sampleEnv 2 unterminatedModule.m_text)).lineNb /
        unterminatedModule.m_nbChunks = 3 ∧
      (analyze sampleEnv unterminatedModule {}).contents =
        some ["SLline 1 @@BAD_SYMBOL@@^top.sv 1\nwire a;\nwire b;\nwire c;\nmodule m;\nwire d;    endmodule    "] ∧
      (scan (mkAllLines sampleEnv 2 classModuleClass.m_text)).fileChunks.map
          (fun c => (c.m_chunkType, c.m_fromLine, c.m_toLine)) =
        [(ElemType.Class, 2, 3), (ElemType.Module, 4, 10), (ElemType.Class, 5, 6),
         (ElemType.Class, 12, 13)] ∧
      (analyze sampleEnv classModuleClass {}).final.written.map (fun f => f.fromLine) =
        [1, 11, 7] ∧
      sub32 6 11 = 2 ^ 32 - 5 := by
  decide

set_option maxRecDepth 100000 in
/-- C27 (defect of the code): after an unmatched `endmodule`, `endclass` or
`endinterface` the counter is `-1`, and the module, class or interface that
follows is not recorded; after an unmatched `endpackage` or `endconfig` the
package or config that follows is recorded. -/
theorem scan_unmatched_closer :
    (scan (mkAllLines sampleEnv 2 "endmodule\n".toList)).inModule = -1 ∧
      (scan (mkAllLines sampleEnv 2 "endclass\n".toList)).inClass = -1 ∧
      (scan (mkAllLines sampleEnv 2 "endinterface\n".toList)).inInterface = -1 ∧
      scannedChunks "endmodule\nmodule m;\nendmodule\n" = [] ∧
      scannedChunks "endclass\nclass A;\nendclass\n" = [] ∧
      scannedChunks "endinterface\ninterface i;\nendinterface\n" = [] ∧
      scannedChunks "endpackage\npackage p;\nendpackage\n" = [(ElemType.Package, 3, 4)] ∧
      scannedChunks "endconfig\nconfig c;\nendconfig\n" = [(ElemType.Config, 3, 4)] := by
  decide

set_option maxRecDepth 100000 in
/-- C28 (defect of the code): on `modulesThenImport` the file-level import
section is `import p::*;`; the fragment of the classes begins with it, and the
two fragments of the whole modules do not hold it. -/
theorem analyze_module_without_imports :
    (scan (mkAllLines sampleEnv 2 modulesThenImport.m_text)).fileLevelImportSection =
        "import p::*;".toList ∧
      (analyze sampleEnv modulesThenImport {}).contents =
        some ["SLline 1 @@BAD_SYMBOL@@^top.sv 1\nmodule a;\nendmodule\n",
              "SLline 4 @@BAD_SYMBOL@@^top.sv 1\nmodule b;\nendmodule\n",
              "SLline 7 @@BAD_SYMBOL@@^top.sv 1\n  import p::*;import p::*;\nclass A;\nendclass"] := by
  decide

set_option maxRecDepth 100000 in
/-- C29 (defect of the code): the packages `p` and `q` of a text are registered
in this order and nothing is registered for a `package` at the end of a line;
after a string literal that holds `/*` the package `p` is not registered. -/
theorem analyze_package_not_registered :
    registeredPackages "package p;\nendpackage\npackage q : x\nendpackage\npackage\n" =
        ["p", "q"] ∧
      registeredPackages "string s = \"/*\";\npackage p;\nendpackage\n" = [] ∧
      registeredPackages "string s = \"ab\";\npackage p;\nendpackage\n" = ["p"] := by
  decide

/-! ### The line offsets -/

theorem offsetsOf_append (ws : List Fragment) (f : Fragment) :
    ∀ acc, offsetsOf (ws ++ [f]) acc =
      offsetsOf ws acc ++ [acc + (ws.map copiedLines).sum] := by
  induction ws with
  | nil => intro acc; simp [offsetsOf]
  | cons w ws ih =>
    intro acc
    have h := ih (acc + copiedLines w)
    show acc :: offsetsOf (ws ++ [f]) (acc + copiedLines w) = _
    rw [h]
    simp [offsetsOf, Nat.add_assoc]

theorem offsetsOf_length (ws : List Fragment) : ∀ acc, (offsetsOf ws acc).length = ws.length := by
  induction ws with
  | nil => intro acc; rfl
  | cons w ws ih => intro acc; simp [offsetsOf, ih]

/-- Offset number `k` is the total of the lines copied into the `k` fragments
before it. -/
theorem offsetsOf_getElem? (ws : List Fragment) :
    ∀ (acc k : Nat), k < ws.length →
      (offsetsOf ws acc)[k]? = some (acc + ((ws.take k).map copiedLines).sum) := by
  induction ws with
  | nil => intro acc k hk; exact absurd hk (Nat.not_lt_zero _)
  | cons w ws ih =>
    intro acc k hk
    cases k with
    | zero => simp [offsetsOf]
    | succ k =>
      simp only [offsetsOf, List.getElem?_cons_succ, List.take_succ_cons, List.map_cons,
        List.sum_cons]
      rw [ih _ k (by simpa using hk)]
      simp [Nat.add_assoc]

/-- The offsets never decrease. -/
theorem offsetsOf_pairwise (ws : List Fragment) :
    ∀ acc, (∀ x ∈ offsetsOf ws acc, acc ≤ x) ∧ (offsetsOf ws acc).Pairwise (fun x y => x ≤ y) := by
  induction ws with
  | nil => intro acc; simp [offsetsOf]
  | cons w ws ih =>
    intro acc
    obtain ⟨h1, h2⟩ := ih (acc + copiedLines w)
    refine ⟨?_, ?_⟩
    · intro x hx
      simp only [offsetsOf, List.mem_cons] at hx
      rcases hx with rfl | hx
      · exact Nat.le_refl _
      · exact Nat.le_trans (Nat.le_add_right _ _) (h1 x hx)
    · simp only [offsetsOf, List.pairwise_cons]
      exact ⟨fun x hx => Nat.le_trans (Nat.le_add_right _ _) (h1 x hx), h2⟩

/-- One more fragment of `n` copied lines keeps the invariant of the offsets. -/
theorem offsetsInv_push (s : SplitState) (h : OffsetsInv s) (f : Fragment) (lw : Nat)
    (a1 : Analyzer) (hoff : a1.m_lineOffsets = s.a.m_lineOffsets ++ [s.linesWriten])
    (hw : a1.written = s.a.written ++ [f]) (hlw : lw = s.linesWriten + copiedLines f)
    (i2 f2 t2 c2 : Nat) :
    OffsetsInv { i := i2, fromLine := f2, toIndex := t2, chunkNb := c2, linesWriten := lw
                 a := a1 } := by
  obtain ⟨h1, h2⟩ := h
  refine ⟨?_, ?_⟩
  · simp only [hoff, hw, offsetsOf_append, h1, h2, Nat.zero_add]
  · simp only [hw, hlw, h2, List.map_append, List.sum_append, List.map_cons, List.map_nil,
      List.sum_cons, List.sum_nil, Nat.add_zero]

theorem offsetsInv_bigAfter {ctx : SplitCtx} {bc : BigCtx} {b : BigState}
    (fin : Bool) (ti : Nat) (tc : FileChunk) (cs : BigCopyState) (h : OffsetsInv b.s)
    (hcs : cs.linesWriten = b.s.linesWriten + (bigToLine ctx bc fin ti tc - b.s.fromLine)) :
    OffsetsInv (bigAfter ctx bc b fin ti tc cs) := by
  refine offsetsInv_push b.s h _ cs.linesWriten _ rfl rfl ?_ _ _ _ _
  exact hcs

theorem offsetsInv_step {ctx : SplitCtx} (s : SplitState) (c : FileChunk) (s1 : SplitState)
    (h : OffsetsInv s) (hit : splitIter ctx s c = Step.next s1) :
    OffsetsInv { s1 with i := s1.i + 1 } := by
  have key : OffsetsInv s1 := by
    rcases splitIter_next hit with ⟨_, hcl⟩ | ⟨_, decl, imp, _, _, ⟨_, hsm⟩ | ⟨_, hbig⟩⟩
    · obtain ⟨toChunk, cs, _, hcs, _, rfl⟩ := classBranch_next hcl
      refine offsetsInv_push s h _ cs.linesWriten _ rfl rfl ?_ _ _ _ _
      exact (copyPlain_content _ _ _ _ hcs).1
    · obtain ⟨cs, hcs, _, rfl⟩ := smallBranch_next hsm
      refine offsetsInv_push s h _ cs.linesWriten _ rfl rfl ?_ _ _ _ _
      exact (copyPlain_content _ _ _ _ hcs).1
    · refine bigLoop_next_inv (fun b => OffsetsInv b.s) OffsetsInv
        (fun b hq _ => hq) ?_ ?_ 1002 _ s1 h hbig
      · intro b b1 hq _ hb
        obtain ⟨fin, ti, tc, ic, cs, _, _, _, _, hcs, _, _, rfl⟩ := bigIter_again hb
        exact offsetsInv_bigAfter _ _ _ _ hq (copyBig_content _ _ _ _ hcs).1
      · intro b s2 hq _ hb
        obtain ⟨fin, ti, tc, ic, cs, _, _, _, _, hcs, _, _, rfl⟩ := bigIter_leave hb
        exact offsetsInv_bigAfter _ _ _ _ hq (copyBig_content _ _ _ _ hcs).1
  exact key

/-- After a split on a fresh analyzer the line offsets are the running totals
of the lines copied into the fragments. -/
theorem analyze_split_offsets (env : Env) (cfg : Config) (a : Analyzer)
    (h : analyze env cfg {} = Outcome.split a) : a.m_lineOffsets = offsetsOf a.written 0 := by
  unfold analyze at h
  simp only at h
  split at h
  · exact absurd h (by simp)
  · split at h
    · exact absurd h (by simp)
    · obtain ⟨s1, ⟨h1, _⟩, rfl⟩ :=
        splitLoop_split_inv OffsetsInv
          (fun s c s1 hp _ hit => offsetsInv_step s c s1 hp hit) _ _ a
          (by simp [OffsetsInv, offsetsOf]) h
      exact h1

theorem analyze_whole_lists (env : Env) (cfg : Config) (a : Analyzer)
    (h : analyze env cfg {} = Outcome.whole a) :
    a.m_splitFiles = [cfg.m_ppFileId] ∧ a.m_lineOffsets = [0] := by
  unfold analyze at h
  simp only at h
  split at h
  · simp only [Outcome.whole.injEq] at h
    subst h
    exact ⟨rfl, rfl⟩
  · split at h
    · exact absurd h (by simp)
    · exact absurd h (splitLoop_ne_whole _ _ _ _)

theorem analyze_cannotSplit_lists (env : Env) (cfg : Config) (a0 a : Analyzer)
    (h : analyze env cfg a0 = Outcome.cannotSplit a) :
    a.m_splitFiles = [] ∧ a.m_lineOffsets = [] := by
  have key : ∃ a1, a = reportCannotSplit cfg.m_fileId a1 := by
    unfold analyze at h
    simp only at h
    split at h
    · exact absurd h (by simp)
    · split at h
      · simp only [Outcome.cannotSplit.injEq] at h
        exact ⟨_, h.symm⟩
      · exact splitLoop_cannotSplit _ _ _ h
  obtain ⟨a1, rfl⟩ := key
  simp [reportCannotSplit]

theorem analyze_split_lengths (env : Env) (cfg : Config) (a : Analyzer)
    (h : analyze env cfg {} = Outcome.split a) :
    a.m_splitFiles.length = a.written.length ∧ a.m_lineOffsets.length = a.written.length := by
  refine ⟨?_, ?_⟩
  · rw [(analyze_split_files env cfg a h).2, List.length_map]
  · rw [analyze_split_offsets env cfg a h, offsetsOf_length]

/-- C24: on every return path of `analyze` started on a fresh analyzer the
lists `m_splitFiles` and `m_lineOffsets` have the same length: 1 and 1 when the
text stays whole, 0 and 0 after the error, and after a split both as many as
fragments were written. -/
theorem analyze_lists_same_length (env : Env) (cfg : Config) (files : List PathId)
    (offsets : List Nat) (h : (analyze env cfg {}).lists = some (files, offsets)) :
    files.length = offsets.length ∧
      (∀ a, analyze env cfg {} = Outcome.whole a → files.length = 1 ∧ offsets.length = 1) ∧
      (∀ a, analyze env cfg {} = Outcome.cannotSplit a →
        files.length = 0 ∧ offsets.length = 0) ∧
      (∀ a, analyze env cfg {} = Outcome.split a →
        files.length = a.written.length ∧ offsets.length = a.written.length) := by
  cases ho : analyze env cfg {} with
  | whole a =>
    rw [ho] at h
    simp only [Outcome.lists, Option.some.injEq, Prod.mk.injEq] at h
    obtain ⟨rfl, rfl⟩ := h
    obtain ⟨h1, h2⟩ := analyze_whole_lists env cfg a ho
    simp [h1, h2]
  | cannotSplit a =>
    rw [ho] at h
    simp only [Outcome.lists, Option.some.injEq, Prod.mk.injEq] at h
    obtain ⟨rfl, rfl⟩ := h
    obtain ⟨h1, h2⟩ := analyze_cannotSplit_lists env cfg {} a ho
    simp [h1, h2]
  | split a =>
    rw [ho] at h
    simp only [Outcome.lists, Option.some.injEq, Prod.mk.injEq] at h
    obtain ⟨rfl, rfl⟩ := h
    obtain ⟨h1, h2⟩ := analyze_split_lengths env cfg a ho
    refine ⟨by omega, by simp, by simp, ?_⟩
    intro a1 ha1
    simp only [Outcome.split.injEq] at ha1
    subst ha1
    exact ⟨h1, h2⟩
  | fault => rw [ho] at h; simp [Outcome.lists] at h
  | outOfFuel => rw [ho] at h; simp [Outcome.lists] at h

set_option maxRecDepth 100000 in
/-- Witness for C24: the runs on `classModuleClass` (three fragments),
a short text (whole) and `moduleOpenComment` (the error). -/
theorem analyze_lists_same_length_witness :
    (analyze sampleEnv classModuleClass {}).lists =
        some ((analyze sampleEnv classModuleClass {}).final.m_splitFiles, [0, 10, 10]) ∧
      (analyze sampleEnv classModuleClass {}).final.m_splitFiles.length =
        ([0, 10, 10] : List Nat).length ∧
      (analyze sampleEnv (sampleConfig "wire a;\n" 2 100) {}).lists = some ([2], [0]) ∧
      (analyze sampleEnv moduleOpenComment {}).lists = some ([], []) :=
  ⟨by decide,
   (analyze_lists_same_length sampleEnv classModuleClass
     (analyze sampleEnv classModuleClass {}).final.m_splitFiles [0, 10, 10] (by decide)).1,
   by decide, by decide⟩

/-- C25: after a split by `analyze` on a fresh analyzer there is one line
offset for each fragment written, the first offset (when a fragment was
written) is 0, the offsets never decrease, and offset number `k` is the total of
the lines of `allLines` copied into the fragments `0 .. k-1`: the turns of the
copy loops, one line each, which count neither the generated directives nor the
repeated headers nor the synthetic closers. -/
theorem analyze_split_lineOffsets (env : Env) (cfg : Config) (a : Analyzer)
    (h : analyze env cfg {} = Outcome.split a) :
    a.m_lineOffsets.length = a.written.length ∧
      (a.written ≠ [] → a.m_lineOffsets[0]? = some 0) ∧
      a.m_lineOffsets.Pairwise (fun x y => x ≤ y) ∧
      ∀ k, k < a.written.length →
        a.m_lineOffsets[k]? = some (((a.written.take k).map copiedLines).sum) := by
  have ho := analyze_split_offsets env cfg a h
  have hk : ∀ k, k < a.written.length →
      a.m_lineOffsets[k]? = some (((a.written.take k).map copiedLines).sum) := by
    intro k hk
    rw [ho, offsetsOf_getElem? _ 0 k hk, Nat.zero_add]
  refine ⟨by rw [ho, offsetsOf_length], ?_, ?_, hk⟩
  · intro hne
    have h0 := hk 0 (List.length_pos.mpr hne)
    simpa using h0
  · rw [ho]
    exact (offsetsOf_pairwise _ 0).2

set_option maxRecDepth 100000 in
/-- Witness for C25: the run on `classModuleClass`, with the offsets 0, 10
and 10. -/
theorem analyze_split_lineOffsets_witness :
    analyze sampleEnv classModuleClass {} =
        Outcome.split (analyze sampleEnv classModuleClass {}).final ∧
      (analyze sampleEnv classModuleClass {}).final.m_lineOffsets = [0, 10, 10] ∧
      (analyze sampleEnv classModuleClass {}).final.m_lineOffsets.length =
        (analyze sampleEnv classModuleClass {}).final.written.length :=
  ⟨by decide, by decide,
   (analyze_split_lineOffsets sampleEnv classModuleClass
     (analyze sampleEnv classModuleClass {}).final (by decide)).1⟩

/-! ### The progress of the split loop -/

theorem drop_of_getElem? {α : Type} (l : List α) (i : Nat) (c : α) (h : l[i]? = some c) :
    l.drop i = c :: l.drop (i + 1) ∧ i < l.length := by
  obtain ⟨hi, hc⟩ := List.getElem?_eq_some.mp h
  refine ⟨?_, hi⟩
  rw [List.drop_eq_getElem_cons hi, hc]

theorem findClass_ge (fromLine chunkSize size lo : Nat) :
    ∀ (cs : List FileChunk) (j t : Nat), lo ≤ j → lo ≤ t →
      lo ≤ findClass fromLine chunkSize size cs j t := by
  intro cs
  induction cs with
  | nil => intro j t _ ht; simpa [findClass] using ht
  | cons c cs ih =>
    intro j t hj ht
    unfold findClass
    split
    · exact ht
    · split
      · exact hj
      · split
        · exact hj
        · exact ih _ _ (by omega) hj

theorem findSmall_ge (packagelastLine size lo : Nat) :
    ∀ (cs : List FileChunk) (j t : Nat), lo ≤ j → lo ≤ t →
      lo ≤ findSmall packagelastLine size cs j t := by
  intro cs
  induction cs with
  | nil => intro j t _ ht; simpa [findSmall] using ht
  | cons c cs ih =>
    intro j t hj ht
    unfold findSmall
    split
    · exact ht
    · split
      · exact hj
      · exact ih _ _ (by omega) hj

theorem findBig_ge (packagelastLine fromLine chunkSize size lo : Nat) :
    ∀ (cs : List FileChunk) (j t : Nat), lo + 1 ≤ j → lo ≤ t →
      lo ≤ (findBig packagelastLine fromLine chunkSize size cs j t).2 := by
  intro cs
  induction cs with
  | nil => intro j t _ ht; simpa [findBig] using ht
  | cons c cs ih =>
    intro j t hj ht
    unfold findBig
    split
    · show lo ≤ j - 1
      omega
    · split
      · show lo ≤ j
        omega
      · split
        · show lo ≤ j
          omega
        · exact ih _ _ (by omega) (by omega)

/-- The class branch never moves the index of the split loop back. -/
theorem classToIndex_ge (ctx : SplitCtx) (s : SplitState) (c : FileChunk)
    (hc : ctx.fileChunks[s.i]? = some c) (hty : c.m_chunkType ≠ ElemType.Package) :
    s.i ≤ classToIndex ctx s := by
  unfold classToIndex
  rw [(drop_of_getElem? _ _ _ hc).1]
  unfold findClass
  rw [if_neg hty]
  split
  · exact Nat.le_refl _
  · split
    · exact Nat.le_refl _
    · exact findClass_ge _ _ _ _ _ _ _ (by omega) (Nat.le_refl _)

/-- The branch of a whole package or module never moves the index back. -/
theorem findSmall_first_ge (ctx : SplitCtx) (s : SplitState) (c : FileChunk)
    (hc : ctx.fileChunks[s.i]? = some c) :
    s.i ≤ findSmall c.m_toLine ctx.fileChunks.length (ctx.fileChunks.drop s.i) s.i s.toIndex := by
  rw [(drop_of_getElem? _ _ _ hc).1]
  unfold findSmall
  rw [if_neg (Nat.lt_irrefl _)]
  split
  · exact Nat.le_refl _
  · exact findSmall_ge _ _ _ _ _ _ (by omega) (Nat.le_refl _)

/-- The search for the next fragment of a package or module never moves the
index back. -/
theorem bigFound_ge (ctx : SplitCtx) (bc : BigCtx) (s : SplitState)
    (hi : s.i < ctx.fileChunks.length) : s.i ≤ (bigFound ctx bc s).2 := by
  unfold bigFound
  simp only
  cases hd : ctx.fileChunks.drop (s.i + 1) with
  | nil =>
    simp only [List.isEmpty_nil, if_true]
    omega
  | cons c cs =>
    simp only [List.isEmpty_cons, Bool.false_eq_true, if_false]
    unfold findBig
    split
    · show s.i ≤ s.i + 1 - 1
      omega
    · split
      · show s.i ≤ s.i + 1
        omega
      · split
        · show s.i ≤ s.i + 1
          omega
        · exact findBig_ge _ _ _ _ _ _ _ _ (by omega) (by omega)

/-- A turn of the split loop that goes on leaves the index at least where it
was. -/
theorem splitIter_index {ctx : SplitCtx} (s : SplitState) (c : FileChunk) (s1 : SplitState)
    (hc : ctx.fileChunks[s.i]? = some c) (hit : splitIter ctx s c = Step.next s1) :
    s.i ≤ s1.i := by
  rcases splitIter_next hit with ⟨hty, hcl⟩ | ⟨_, decl, imp, _, _, ⟨_, hsm⟩ | ⟨_, hbig⟩⟩
  · obtain ⟨toChunk, cs, _, _, _, rfl⟩ := classBranch_next hcl
    exact classToIndex_ge ctx s c hc (fun h => hty (Or.inl h))
  · obtain ⟨cs, _, _, rfl⟩ := smallBranch_next hsm
    exact findSmall_first_ge ctx s c hc
  · refine bigLoop_next_inv
      (fun b => s.i ≤ b.s.i ∧ b.s.i < ctx.fileChunks.length) (fun s2 => s.i ≤ s2.i)
      (fun b hq _ => hq.1) ?_ ?_ 1002 _ s1 ⟨Nat.le_refl _, (drop_of_getElem? _ _ _ hc).2⟩ hbig
    · intro b b1 hq _ hb
      obtain ⟨fin, ti, tc, ic, cs, _, hti, _, _, _, _, hlt, rfl⟩ := bigIter_again hb
      have h1 : b.s.i ≤ ti := by rw [hti]; exact bigFound_ge ctx _ b.s hq.2
      exact ⟨Nat.le_trans hq.1 h1, by show ti < _; omega⟩
    · intro b s2 hq _ hb
      obtain ⟨fin, ti, tc, ic, cs, _, hti, _, _, _, _, _, rfl⟩ := bigIter_leave hb
      have h1 : b.s.i ≤ ti := by rw [hti]; exact bigFound_ge ctx _ b.s hq.2
      exact Nat.le_trans hq.1 h1

/-- With 1002 turns to go from `chunkNb = 0` the loop that breaks up a package
or module ends: each turn that goes on passes the check `chunkNb > 1000` and
adds one to `chunkNb`. -/
theorem bigLoop_ne_outOfFuel (ctx : SplitCtx) (bc : BigCtx) :
    ∀ (fuel : Nat) (b : BigState), 1002 ≤ fuel + b.s.chunkNb → b.s.chunkNb ≤ 1001 →
      bigLoop ctx bc fuel b ≠ Step.outOfFuel := by
  intro fuel
  induction fuel with
  | zero => intro b h1 h2; omega
  | succ n ih =>
    intro b h1 h2
    unfold bigLoop
    split
    · simp
    · cases hit : bigIter ctx bc b with
      | again b1 =>
        obtain ⟨fin, ti, tc, ic, cs, _, _, _, _, _, hnb, _, rfl⟩ := bigIter_again hit
        exact ih _ (by show 1002 ≤ n + (b.s.chunkNb + 1); omega)
          (by show b.s.chunkNb + 1 ≤ 1001; omega)
      | leave s => simp
      | cannotSplit a => simp
      | fault => simp

theorem splitIter_ne_outOfFuel (ctx : SplitCtx) (s : SplitState) (c : FileChunk)
    (h : s.chunkNb ≤ 1001) : splitIter ctx s c ≠ Step.outOfFuel := by
  unfold splitIter
  split
  · split
    · simp
    · split
      · simp
      · split
        · exact bigLoop_ne_outOfFuel _ _ _ _ (by show 1002 ≤ 1002 + s.chunkNb; omega) h
        · unfold smallBranch
          split
          · simp
          · split
            · simp
            · simp only
              split
              · simp
              · split <;> simp
  · unfold classBranch
    split
    · simp
    · simp only
      split
      · simp
      · split <;> simp

/-- The split loop started with one more turn than chunks are left ends. -/
theorem splitLoop_ne_outOfFuel (ctx : SplitCtx) (n0 w0 : Nat) :
    ∀ (fuel : Nat) (s : SplitState), CountInv n0 w0 s →
      ctx.fileChunks.length ≤ fuel + s.i → splitLoop ctx (fuel + 1) s ≠ Outcome.outOfFuel := by
  intro fuel
  induction fuel with
  | zero =>
    intro s _ h
    unfold splitLoop
    rw [List.getElem?_eq_none (by omega)]
    simp
  | succ n ih =>
    intro s hinv h
    unfold splitLoop
    cases hc : ctx.fileChunks[s.i]? with
    | none => simp
    | some c =>
      simp only
      cases hit : splitIter ctx s c with
      | next s1 =>
        simp only
        have hi := splitIter_index s c s1 hc hit
        exact ih _ (countInv_step s c s1 hinv hit) (by show _ ≤ n + (s1.i + 1); omega)
      | cannotSplit a => simp
      | fault => simp
      | outOfFuel => exact absurd hit (splitIter_ne_outOfFuel ctx s c hinv.2.2)

/-- C22: `analyze` terminates on every text and configuration. The run of the
split loop with one more turn than there are chunks never runs out of turns (an
access out of range counts as the end of the run); a turn of the split loop
that goes on never moves the index `i` back, so `i` grows by at least one each
turn; and the loop that breaks up a package or module ends within 1002 turns
whenever it starts with `chunkNb` at most 1001. -/
theorem analyze_terminates (env : Env) (cfg : Config) (a : Analyzer) :
    analyze env cfg a ≠ Outcome.outOfFuel ∧
      (∀ (ctx : SplitCtx) (s s1 : SplitState) (c : FileChunk),
        ctx.fileChunks[s.i]? = some c → splitIter ctx s c = Step.next s1 → s.i ≤ s1.i) ∧
      (∀ (ctx : SplitCtx) (bc : BigCtx) (b : BigState), b.s.chunkNb ≤ 1001 →
        bigLoop ctx bc 1002 b ≠ Step.outOfFuel) := by
  refine ⟨?_, fun ctx s s1 c hc hit => splitIter_index s c s1 hc hit,
    fun ctx bc b h => bigLoop_ne_outOfFuel ctx bc 1002 b (by omega) h⟩
  unfold analyze
  simp only
  split
  · simp
  · split
    · simp
    · exact splitLoop_ne_outOfFuel _ a.m_splitFiles.length a.written.length _ _
        ⟨rfl, rfl, Nat.zero_le _⟩ (Nat.le_add_right _ _)

/-! ### The number of fragments of a package or module -/

/-- An invariant of the split loop holds of the state the loop ends in, and
the loop ends past the last chunk. -/
theorem splitLoop_split_end {ctx : SplitCtx} (P : SplitState → Prop)
    (hstep : ∀ s c s1, P s → ctx.fileChunks[s.i]? = some c →
      splitIter ctx s c = Step.next s1 → P { s1 with i := s1.i + 1 }) :
    ∀ (fuel : Nat) (s : SplitState) (a : Analyzer),
      P s → splitLoop ctx fuel s = Outcome.split a →
      ∃ s1, P s1 ∧ s1.a = a ∧ ctx.fileChunks[s1.i]? = none := by
  intro fuel
  induction fuel with
  | zero => intro s a _ h; simp [splitLoop] at h
  | succ n ih =>
    intro s a hp h
    unfold splitLoop at h
    cases hc : ctx.fileChunks[s.i]? with
    | none =>
      rw [hc] at h
      simp only [Outcome.split.injEq] at h
      exact ⟨s, hp, h, hc⟩
    | some c =>
      rw [hc] at h
      simp only at h
      cases hit : splitIter ctx s c with
      | next s1 =>
        rw [hit] at h
        exact ih _ a (hstep s c s1 hp hc hit) h
      | cannotSplit a1 => rw [hit] at h; simp at h
      | fault => rw [hit] at h; simp at h
      | outOfFuel => rw [hit] at h; simp at h

/-- One more fragment that starts at `s.fromLine` keeps the invariant of the
progress. -/
theorem progressInv_push (s : SplitState) (h : ProgressInv s) (f : Fragment) (a1 : Analyzer)
    (hw : a1.written = s.a.written ++ [f]) (hf : f.fromLine = s.fromLine)
    (i2 f2 t2 lw : Nat) :
    ProgressInv { i := i2, fromLine := f2, toIndex := t2, chunkNb := s.chunkNb + 1
                  linesWriten := lw, a := a1 } := by
  obtain ⟨h1, h2, h3⟩ := h
  refine ⟨?_, ?_, ?_⟩
  · simp only [hw, List.length_append, List.length_singleton, h1]
  · intro h0
    exact absurd h0 (Nat.succ_ne_zero _)
  · intro g hg
    simp only [hw] at hg
    by_cases hz : s.chunkNb = 0
    · have hnil : s.a.written = [] := List.length_eq_zero.mp (by rw [h1, hz])
      rw [hnil] at hg
      simp only [List.nil_append, List.getElem?_cons_zero, Option.some.injEq] at hg
      rw [← hg, hf]
      exact (h2 hz).2
    · have hpos : 0 < s.a.written.length := by rw [h1]; omega
      rw [List.getElem?_append_left hpos] at hg
      exact h3 g hg

theorem progressInv_step {ctx : SplitCtx} (s : SplitState) (c : FileChunk) (s1 : SplitState)
    (h : ProgressInv s) (hit : splitIter ctx s c = Step.next s1) :
    ProgressInv { s1 with i := s1.i + 1 } ∧ s.chunkNb < s1.chunkNb := by
  have key : (∀ i2, ProgressInv { s1 with i := i2 }) ∧ s.chunkNb < s1.chunkNb := by
    rcases splitIter_next hit with ⟨_, hcl⟩ | ⟨_, decl, imp, _, _, ⟨_, hsm⟩ | ⟨_, hbig⟩⟩
    · obtain ⟨toChunk, cs, _, _, _, rfl⟩ := classBranch_next hcl
      exact ⟨fun i2 => progressInv_push s h _ _ rfl rfl _ _ _ _, Nat.lt_succ_self _⟩
    · obtain ⟨cs, _, _, rfl⟩ := smallBranch_next hsm
      exact ⟨fun i2 => progressInv_push s h _ _ rfl rfl _ _ _ _, Nat.lt_succ_self _⟩
    · refine bigLoop_next_inv
        (fun b => ProgressInv b.s ∧
          ((b.endPackageDetected = false ∧ b.s.chunkNb = s.chunkNb) ∨
            s.chunkNb < b.s.chunkNb))
        (fun s2 => (∀ i2, ProgressInv { s2 with i := i2 }) ∧ s.chunkNb < s2.chunkNb)
        ?_ ?_ ?_ 1002 _ s1 ⟨h, Or.inl ⟨rfl, rfl⟩⟩ hbig
      · intro b hq hd
        rcases hq.2 with ⟨hf, _⟩ | hlt
        · rw [hd] at hf; exact absurd hf (by simp)
        · refine ⟨fun i2 => ⟨hq.1.1, fun h0 => ?_, hq.1.2.2⟩, hlt⟩
          have : b.s.chunkNb = 0 := h0
          omega
      · intro b b1 hq _ hb
        obtain ⟨fin, ti, tc, ic, cs, _, _, _, _, _, _, _, rfl⟩ := bigIter_again hb
        refine ⟨progressInv_push b.s hq.1 _ _ rfl rfl _ _ _ _, Or.inr ?_⟩
        show s.chunkNb < b.s.chunkNb + 1
        rcases hq.2 with ⟨_, he⟩ | hlt <;> omega
      · intro b s2 hq _ hb
        obtain ⟨fin, ti, tc, ic, cs, _, _, _, _, _, _, _, rfl⟩ := bigIter_leave hb
        refine ⟨fun i2 => progressInv_push b.s hq.1 _ _ rfl rfl _ _ _ _, ?_⟩
        show s.chunkNb < b.s.chunkNb + 1
        rcases hq.2 with ⟨_, he⟩ | hlt <;> omega
  exact ⟨key.1 _, key.2⟩

/-- One more fragment that stops at the end of the text or after a recorded
construct keeps the invariant of the ends. -/
theorem cutInv_push {ctx : SplitCtx} (s : SplitState) (h : CutInv ctx s) (f : Fragment)
    (a1 : Analyzer) (hw : a1.written = s.a.written ++ [f])
    (hf : f.toLine = ctx.allLines.length ∨ ∃ c ∈ ctx.fileChunks, f.toLine = c.m_toLine + 1)
    (i2 f2 t2 c2 lw : Nat) :
    CutInv ctx { i := i2, fromLine := f2, toIndex := t2, chunkNb := c2
                 linesWriten := lw, a := a1 } := by
  intro g hg
  simp only [hw, List.mem_append, List.mem_singleton] at hg
  rcases hg with hg | rfl
  · exact h g hg
  · exact hf

theorem bigToLine_cut (ctx : SplitCtx) (bc : BigCtx) (fin : Bool) (ti : Nat) (tc c : FileChunk)
    (hc : c ∈ ctx.fileChunks) (hpl : bc.packagelastLine = c.m_toLine)
    (htc : tc ∈ ctx.fileChunks) :
    bigToLine ctx bc fin ti tc = ctx.allLines.length ∨
      ∃ c1 ∈ ctx.fileChunks, bigToLine ctx bc fin ti tc = c1.m_toLine + 1 := by
  unfold bigToLine
  simp only
  split
  · exact Or.inl rfl
  · split
    · exact Or.inr ⟨c, hc, by rw [hpl]⟩
    · exact Or.inr ⟨tc, htc, rfl⟩

theorem cutInv_step {ctx : SplitCtx} (s : SplitState) (c : FileChunk) (s1 : SplitState)
    (h : CutInv ctx s) (hget : ctx.fileChunks[s.i]? = some c)
    (hit : splitIter ctx s c = Step.next s1) :
    CutInv ctx { s1 with i := s1.i + 1 } := by
  have hc : c ∈ ctx.fileChunks := List.getElem?_mem hget
  have key : CutInv ctx s1 := by
    rcases splitIter_next hit with ⟨_, hcl⟩ | ⟨_, decl, imp, _, _, ⟨_, hsm⟩ | ⟨_, hbig⟩⟩
    · obtain ⟨toChunk, cs, hto, _, _, rfl⟩ := classBranch_next hcl
      refine cutInv_push s h _ _ rfl ?_ _ _ _ _ _
      show classToLine ctx (classToIndex ctx s) toChunk = _ ∨ _
      unfold classToLine
      split
      · exact Or.inl rfl
      · exact Or.inr ⟨toChunk, List.getElem?_mem hto, rfl⟩
    · obtain ⟨cs, _, _, rfl⟩ := smallBranch_next hsm
      refine cutInv_push s h _ _ rfl ?_ _ _ _ _ _
      show smallToLine ctx s c = _ ∨ _
      unfold smallToLine
      split
      · exact Or.inl rfl
      · exact Or.inr ⟨c, hc, rfl⟩
    · refine bigLoop_next_inv (fun b => CutInv ctx b.s) (CutInv ctx)
        (fun b hq _ => hq) ?_ ?_ 1002 _ s1 h hbig
      · intro b b1 hq _ hb
        obtain ⟨fin, ti, tc, ic, cs, _, _, htc, _, _, _, _, rfl⟩ := bigIter_again hb
        exact cutInv_push b.s hq _ _ rfl
          (bigToLine_cut ctx _ fin ti tc c hc rfl (List.getElem?_mem htc)) _ _ _ _ _
      · intro b s2 hq _ hb
        obtain ⟨fin, ti, tc, ic, cs, _, _, htc, _, _, _, _, rfl⟩ := bigIter_leave hb
        exact cutInv_push b.s hq _ _ rfl
          (bigToLine_cut ctx _ fin ti tc c hc rfl (List.getElem?_mem htc)) _ _ _ _ _
  exact key

theorem bigFound_first (ctx : SplitCtx) (bc : BigCtx) (s : SplitState) (c : FileChunk)
    (rest : List FileChunk) (hfirst : ctx.fileChunks = c :: rest) (hi : s.i = 0)
    (hfl : s.fromLine = 1) (hti : s.toIndex = 0) (hpl : bc.packagelastLine = c.m_toLine) :
    (bigFound ctx bc s).2 = firstToIndex ctx.chunkSize c rest := by
  simp [bigFound, firstToIndex, hfirst, hi, hfl, hti, hpl]

/-- The split loop on a text whose first recorded construct is a package or
module larger than `chunkSize`: a run that splits has written one fragment
when the search for the end of the first fragment reaches the last chunk, and
two or more otherwise. -/
theorem splitLoop_first_big (ctx : SplitCtx) (s0 : SplitState) (c : FileChunk)
    (rest : List FileChunk) (hfirst : ctx.fileChunks = c :: rest)
    (hkind : c.m_chunkType = ElemType.Package ∨ c.m_chunkType = ElemType.Module)
    (hbig : sub32 c.m_toLine c.m_fromLine > ctx.chunkSize)
    (hi : s0.i = 0) (hfl : s0.fromLine = 1) (hti : s0.toIndex = 0) (hnb : s0.chunkNb = 0)
    (hw : s0.a.written = []) (a : Analyzer) (fuel : Nat)
    (h : splitLoop ctx (fuel + 1) s0 = Outcome.split a) :
    (a.written.length = 1 ↔ rest.length ≤ firstToIndex ctx.chunkSize c rest) ∧
      (2 ≤ a.written.length ↔ firstToIndex ctx.chunkSize c rest < rest.length) ∧
      (rest = [] →
        a.written.map (fun f => (f.fromLine, f.toLine)) = [(1, ctx.allLines.length)]) := by
  have hsize : ctx.fileChunks.length = rest.length + 1 := by rw [hfirst]; rfl
  have hp0 : ProgressInv s0 := by
    refine ⟨by rw [hw, hnb]; rfl, fun _ => ⟨hi, hfl⟩, ?_⟩
    intro f hf
    rw [hw] at hf
    exact absurd hf (by simp)
  have hget : ctx.fileChunks[s0.i]? = some c := by rw [hi, hfirst]; simp
  unfold splitLoop at h
  rw [hget] at h
  simp only at h
  cases hit : splitIter ctx s0 c with
  | cannotSplit a1 => rw [hit] at h; simp at h
  | fault => rw [hit] at h; simp at h
  | outOfFuel => rw [hit] at h; simp at h
  | next s1 =>
    rw [hit] at h
    simp only at h
    rcases splitIter_next hit with ⟨hty, _⟩ | ⟨_, decl, imp, _, _, ⟨hsmall, _⟩ | ⟨_, hbigL⟩⟩
    · exact absurd hkind hty
    · exact absurd hbig hsmall
    · obtain ⟨bc, hbc⟩ : ∃ bc : BigCtx, bc = ⟨c.m_chunkType, c.m_toLine, decl, imp⟩ := ⟨_, rfl⟩
      obtain ⟨b0, hb0⟩ : ∃ b0 : BigState, b0 = ⟨false, false, [], s0⟩ := ⟨_, rfl⟩
      rw [← hbc, ← hb0] at hbigL
      have g1 : b0.s = s0 := by rw [hb0]
      have g2 : b0.endPackageDetected = false := by rw [hb0]
      have hpl : bc.packagelastLine = c.m_toLine := by rw [hbc]
      have hT := bigFound_first ctx bc s0 c rest hfirst hi hfl hti hpl
      unfold bigLoop at hbigL
      rw [if_neg (by rw [g2]; simp)] at hbigL
      cases hbi : bigIter ctx bc b0 with
      | cannotSplit a1 => rw [hbi] at hbigL; simp at hbigL
      | fault => rw [hbi] at hbigL; simp at hbigL
      | leave s2 =>
        rw [hbi] at hbigL
        simp only [Step.next.injEq] at hbigL
        subst hbigL
        obtain ⟨fin, ti, tc, ic, cs, _, hti2, htc, _, _, _, hge, rfl⟩ := bigIter_leave hbi
        rw [g1, hT] at hti2
        have hlt : ti < ctx.fileChunks.length := (drop_of_getElem? _ _ _ htc).2
        have hnone : ctx.fileChunks[ti + 1]? = none :=
          List.getElem?_eq_none (by omega)
        have ha : (bigAfter ctx bc b0 fin ti tc cs).a = a := by
          cases fuel with
          | zero => simp [splitLoop] at h
          | succ n =>
            unfold splitLoop at h
            have : ({ bigAfter ctx bc b0 fin ti tc cs with
                i := (bigAfter ctx bc b0 fin ti tc cs).i + 1 } : SplitState).i = ti + 1 := rfl
            rw [this, hnone] at h
            simpa using h
        have hwa : a.written =
            [{ file := ctx.env.getChunkFile ctx.m_ppFileId b0.s.chunkNb
               content := bigContent ctx bc cs, fromLine := b0.s.fromLine
               toLine := bigToLine ctx bc fin ti tc, splitted := b0.splitted }] := by
          rw [← ha]
          show b0.s.a.written ++ _ = _
          rw [g1, hw]
          rfl
        have hle : rest.length ≤ firstToIndex ctx.chunkSize c rest := by
          rw [← hti2]; omega
        refine ⟨⟨fun _ => hle, fun _ => by rw [hwa]; rfl⟩,
          ⟨fun h2 => by rw [hwa] at h2; simp at h2, fun h2 => by omega⟩, ?_⟩
        intro hrest
        have hti0 : ti = 0 := by
          rw [hsize, hrest] at hlt
          simpa using hlt
        rw [hwa]
        simp [g1, hfl, bigToLine, hsize, hrest, hti0]
      | again b1 =>
        rw [hbi] at hbigL
        simp only at hbigL
        obtain ⟨fin, ti, tc, ic, cs, _, hti2, _, _, _, _, hlt, rfl⟩ := bigIter_again hbi
        rw [g1, hT] at hti2
        have hlt2 : firstToIndex ctx.chunkSize c rest < rest.length := by
          rw [← hti2]; omega
        have hp1 : ProgressInv (bigAfter ctx bc b0 fin ti tc cs) := by
          refine progressInv_push b0.s ?_ _ _ rfl rfl _ _ _ _
          rw [g1]; exact hp0
        have hq1 : ProgressInv s1 ∧ 1 ≤ s1.chunkNb ∧
            (s1.chunkNb = 1 → s1.i + 1 < ctx.fileChunks.length) := by
          refine bigLoop_next_inv
            (fun b => ProgressInv b.s ∧ 1 ≤ b.s.chunkNb ∧
              (b.s.chunkNb = 1 → b.s.i + 1 < ctx.fileChunks.length))
            (fun s => ProgressInv s ∧ 1 ≤ s.chunkNb ∧
              (s.chunkNb = 1 → s.i + 1 < ctx.fileChunks.length))
            (fun b hq _ => hq) ?_ ?_ 1001 _ s1 ⟨hp1, ?_, ?_⟩ hbigL
          · intro b b2 hq _ hb
            obtain ⟨fin2, ti2, tc2, ic2, cs2, _, _, _, _, _, _, _, rfl⟩ := bigIter_again hb
            refine ⟨progressInv_push b.s hq.1 _ _ rfl rfl _ _ _ _, ?_, ?_⟩
            · show 1 ≤ b.s.chunkNb + 1
              omega
            · intro h1
              have : b.s.chunkNb + 1 = 1 := h1
              have := hq.2.1
              omega
          · intro b s2 hq _ hb
            obtain ⟨fin2, ti2, tc2, ic2, cs2, _, _, _, _, _, _, _, rfl⟩ := bigIter_leave hb
            refine ⟨progressInv_push b.s hq.1 _ _ rfl rfl _ _ _ _, ?_, ?_⟩
            · show 1 ≤ b.s.chunkNb + 1
              omega
            · intro h1
              have : b.s.chunkNb + 1 = 1 := h1
              have := hq.2.1
              omega
          · show 1 ≤ b0.s.chunkNb + 1
            omega
          · intro _
            show ti + 1 < ctx.fileChunks.length
            omega
        obtain ⟨se, ⟨hpe, hse1, hse2⟩, rfl, hnone⟩ :=
          splitLoop_split_end (fun s => ProgressInv s ∧ SecondInv ctx s)
            (fun s c2 s2 hp _ hit2 => by
              obtain ⟨r1, r2⟩ := progressInv_step s c2 s2 hp.1 hit2
              refine ⟨r1, ?_, ?_⟩
              · show 1 ≤ s2.chunkNb
                omega
              · intro h1
                have : s2.chunkNb = 1 := h1
                have := hp.2.1
                omega)
            fuel _ a ⟨(progressInv_step s0 c s1 hp0 hit).1, hq1.2.1, fun h1 => by
              have := hq1.2.2 h1
              show s1.i + 1 < _
              exact this⟩ h
        have hnl : ¬ se.i < ctx.fileChunks.length := by
          intro hl
          rw [List.getElem?_eq_getElem hl] at hnone
          exact absurd hnone (by simp)
        have h2 : 2 ≤ se.a.written.length := by
          rw [hpe.1]
          by_contra hcon
          exact hnl (hse2 (by omega))
        refine ⟨⟨fun h1 => by omega, fun h1 => by omega⟩, ⟨fun _ => hlt2, fun _ => h2⟩, ?_⟩
        intro hrest
        rw [hrest] at hlt2
        exact absurd hlt2 (by simp)

/-- C2 (amended): on a text whose first recorded construct is a package or
module with a line extent larger than `chunkSize` (the gate passing, the scan
ending outside comments and strings), a run of `analyze` on a fresh analyzer
that splits writes at least one fragment, not always two.  It writes two or more
exactly when the search of source lines 430-451 ends the first fragment before
the last recorded chunk, `firstToIndex`; otherwise, and so whenever no construct
is recorded after the package or module, it writes one fragment, which then
holds all the lines.  The first fragment starts at line 1 in chunk file 0, and
every fragment stops at the end of the text or right after the last line of a
recorded construct.  With a single recorded construct and no `SLline` line in
the text the run does split. -/
theorem analyze_single_module (env : Env) (cfg : Config) (c : FileChunk)
    (rest : List FileChunk)
    (hproc : cfg.nbMaxProcesses = 0)
    (hsize : cfg.nbLinesForFileSpliting ≤
      (scan (mkAllLines env cfg.m_ppFileId cfg.m_text)).lineNb)
    (hchunks : 2 ≤ cfg.m_nbChunks)
    (hcomment : (scan (mkAllLines env cfg.m_ppFileId cfg.m_text)).inComment = false)
    (hstring : (scan (mkAllLines env cfg.m_ppFileId cfg.m_text)).inString = false)
    (hfirst : (scan (mkAllLines env cfg.m_ppFileId cfg.m_text)).fileChunks = c :: rest)
    (hkind : c.m_chunkType = ElemType.Package ∨ c.m_chunkType = ElemType.Module)
    (hbig : c.m_toLine - c.m_fromLine >
      (scan (mkAllLines env cfg.m_ppFileId cfg.m_text)).lineNb / cfg.m_nbChunks)
    (hlen : (mkAllLines env cfg.m_ppFileId cfg.m_text).length < 2 ^ 32) :
    (∀ a, analyze env cfg {} = Outcome.split a →
      1 ≤ a.written.length ∧
      (2 ≤ a.written.length ↔
        firstToIndex ((scan (mkAllLines env cfg.m_ppFileId cfg.m_text)).lineNb /
          cfg.m_nbChunks) c rest < rest.length) ∧
      (∀ f, a.written[0]? = some f →
        f.fromLine = 1 ∧ f.file = env.getChunkFile cfg.m_ppFileId 0) ∧
      (∀ f ∈ a.written, f.toLine = (mkAllLines env cfg.m_ppFileId cfg.m_text).length ∨
        ∃ c1 ∈ c :: rest, f.toLine = c1.m_toLine + 1) ∧
      (rest = [] → a.written.map (fun f => (f.fromLine, f.toLine)) =
        [(1, (mkAllLines env cfg.m_ppFileId cfg.m_text).length)])) ∧
    (rest = [] → (∀ line ∈ mkAllLines env cfg.m_ppFileId cfg.m_text, NoDirective line) →
      ∃ a, analyze env cfg {} = Outcome.split a) := by
  obtain ⟨hnb, _, hch⟩ := scanBounds_scan (mkAllLines env cfg.m_ppFileId cfg.m_text)
  have hc := hch c (by rw [hfirst]; exact List.mem_cons_self _ _)
  have hlt : c.m_fromLine < c.m_toLine := by
    have := Nat.zero_le ((scan (mkAllLines env cfg.m_ppFileId cfg.m_text)).lineNb / cfg.m_nbChunks)
    omega
  have hsub : sub32 c.m_toLine c.m_fromLine = c.m_toLine - c.m_fromLine :=
    sub32_of_le (by omega) (by omega)
  refine ⟨?_, ?_⟩
  · intro a h0
    have hfiles := analyze_split_files env cfg a h0
    have h := h0
    unfold analyze at h
    simp only at h
    split at h
    · exact absurd h (by simp)
    · split at h
      · exact absurd h (by simp)
      · obtain ⟨r1, r2, r3⟩ := splitLoop_first_big _ _ c rest hfirst hkind
          (by rw [hsub]; exact hbig) rfl rfl rfl rfl rfl a _ h
        obtain ⟨se, ⟨hpe, hce⟩, rfl, hnone⟩ :=
          splitLoop_split_end (fun s => ProgressInv s ∧ CutInv _ s)
            (fun s c2 s2 hp hget hit =>
              ⟨(progressInv_step s c2 s2 hp.1 hit).1, cutInv_step s c2 s2 hp.2 hget hit⟩)
            _ _ a
            ⟨⟨rfl, fun _ => ⟨rfl, rfl⟩, fun f hf => absurd hf (by simp)⟩,
              fun f hf => absurd hf (by simp)⟩ h
        have hpos : 1 ≤ se.a.written.length := by
          rw [hpe.1]
          by_contra hcon
          have hi0 := (hpe.2.1 (by omega)).1
          rw [hi0] at hnone
          simp only at hnone
          rw [hfirst] at hnone
          simp at hnone
        refine ⟨hpos, r2, ?_, ?_, r3⟩
        · intro f hf
          refine ⟨hpe.2.2 f hf, ?_⟩
          have h1 := congrArg (fun l => l[0]?) hfiles.1
          simp only [List.getElem?_map, hf, Option.map_some', List.getElem?_range hpos] at h1
          simpa using h1
        · intro f hf
          have := hce f hf
          simp only at this
          rw [hfirst] at this
          exact this
  · intro hrest hno
    obtain ⟨a, ha, _, _⟩ := single_module_one_fragment env cfg c hproc hsize hchunks hcomment
      hstring (by rw [hfirst, hrest]) hkind hbig hlen hno
    exact ⟨a, ha⟩

set_option maxRecDepth 100000 in
/-- Witness for C2 (amended): the module of `moduleWithImport` holds two
classes; the first fragment ends at the first of them, before the last chunk,
and the run writes two fragments. -/
theorem analyze_single_module_witness :
    firstToIndex
        ((scan (mkAllLines sampleEnv moduleWithImport.m_ppFileId
          moduleWithImport.m_text)).lineNb / moduleWithImport.m_nbChunks)
        { m_chunkType := ElemType.Module, m_fromLine := 2, m_toLine := 8, m_startChar := 18
          m_endChar := 73 }
        [{ m_chunkType := ElemType.Class, m_fromLine := 4, m_toLine := 5, m_startChar := 38
           m_endChar := 48 },
         { m_chunkType := ElemType.Class, m_fromLine := 6, m_toLine := 7, m_startChar := 54
           m_endChar := 64 }] = 1 ∧
      (analyze sampleEnv moduleWithImport {}).ranges = some [(1, 6), (6, 8)] ∧
      2 ≤ (analyze sampleEnv moduleWithImport {}).final.written.length :=
  ⟨by decide, by decide,
   (((analyze_single_module sampleEnv moduleWithImport
      { m_chunkType := ElemType.Module, m_fromLine := 2, m_toLine := 8, m_startChar := 18
        m_endChar := 73 }
      [{ m_chunkType := ElemType.Class, m_fromLine := 4, m_toLine := 5, m_startChar := 38
         m_endChar := 48 },
       { m_chunkType := ElemType.Class, m_fromLine := 6, m_toLine := 7, m_startChar := 54
         m_endChar := 64 }]
      (by decide) (by decide) (by decide) (by decide) (by decide) (by decide) (by decide)
      (by decide) (by decide)).1
      (analyze sampleEnv moduleWithImport {}).final (by decide)).2.1).2 (by decide)⟩

/-! ### The provenance stack and the directive at the head of a fragment -/

theorem copyPlain_stackAfter {env : Env} {allLines : List (List Char)} {toLine : Nat} :
    ∀ (n l : Nat) (cs cs1 : CopyState),
      copyPlain env allLines toLine n l cs = some cs1 →
      stackAfterLines env allLines n l cs.stack = some cs1.stack := by
  intro n
  induction n with
  | zero =>
    intro l cs cs1 h
    simp only [copyPlain, Option.some.injEq] at h
    subst h
    rfl
  | succ k ih =>
    intro l cs cs1 h
    unfold copyPlain at h
    unfold stackAfterLines
    cases hline : allLines[l]? with
    | none => rw [hline] at h; exact absurd h (by simp)
    | some line =>
      rw [hline] at h
      simp only at h ⊢
      cases hstack : checkSLlineDirective_ env cs.stack line l with
      | none => rw [hstack] at h; exact absurd h (by simp)
      | some stack =>
        rw [hstack] at h
        simp only at h ⊢
        exact ih _ _ _ h

theorem copyBig_stackAfter {env : Env} {allLines : List (List Char)} {ty : ElemType}
    {imp : List Char} {hd toLine : Nat} :
    ∀ (n l : Nat) (cs cs1 : BigCopyState),
      copyBig env allLines ty imp hd toLine n l cs = some cs1 →
      stackAfterLines env allLines n l cs.stack = some cs1.stack := by
  intro n
  induction n with
  | zero =>
    intro l cs cs1 h
    simp only [copyBig, Option.some.injEq] at h
    subst h
    rfl
  | succ k ih =>
    intro l cs cs1 h
    unfold copyBig at h
    unfold stackAfterLines
    cases hline : allLines[l]? with
    | none => rw [hline] at h; exact absurd h (by simp)
    | some line =>
      rw [hline] at h
      simp only at h ⊢
      cases hstack : checkSLlineDirective_ env cs.stack line l with
      | none => rw [hstack] at h; exact absurd h (by simp)
      | some stack =>
        rw [hstack] at h
        simp only at h ⊢
        exact ih _ _ _ h

theorem stackAfterLines_noDirective {env : Env} {allLines : List (List Char)}
    (hno : ∀ line ∈ allLines, NoDirective line) :
    ∀ (n l : Nat) (stack stack1 : List IncludeFileInfo),
      stackAfterLines env allLines n l stack = some stack1 → stack1 = stack := by
  intro n
  induction n with
  | zero =>
    intro l stack stack1 h
    simp only [stackAfterLines, Option.some.injEq] at h
    exact h.symm
  | succ k ih =>
    intro l stack stack1 h
    unfold stackAfterLines at h
    split at h
    · exact absurd h (by simp)
    · rename_i line hline
      rw [checkSLlineDirective_of_noDirective env stack l
        (hno line (List.getElem?_mem hline))] at h
      exact ih _ _ _ h

theorem stackAfterFragments_noDirective {env : Env} {allLines : List (List Char)}
    (hno : ∀ line ∈ allLines, NoDirective line) :
    ∀ (ws : List Fragment) (stack stack1 : List IncludeFileInfo),
      stackAfterFragments env allLines ws stack = some stack1 → stack1 = stack := by
  intro ws
  induction ws with
  | nil =>
    intro stack stack1 h
    simp only [stackAfterFragments, Option.some.injEq] at h
    exact h.symm
  | cons f fs ih =>
    intro stack stack1 h
    unfold stackAfterFragments at h
    split at h
    · exact absurd h (by simp)
    · rename_i st hst
      rw [ih _ _ h]
      exact stackAfterLines_noDirective hno _ _ _ _ hst

theorem stackAfterFragments_append {env : Env} {allLines : List (List Char)} (f : Fragment) :
    ∀ (ws : List Fragment) (stack stack1 stack2 : List IncludeFileInfo),
      stackAfterFragments env allLines ws stack = some stack1 →
      stackAfterLines env allLines (f.toLine - f.fromLine) f.fromLine stack1 = some stack2 →
      stackAfterFragments env allLines (ws ++ [f]) stack = some stack2 := by
  intro ws
  induction ws with
  | nil =>
    intro stack stack1 stack2 h1 h2
    simp only [stackAfterFragments, Option.some.injEq] at h1
    subst h1
    simp only [List.nil_append, stackAfterFragments, h2]
  | cons w ws ih =>
    intro stack stack1 stack2 h1 h2
    unfold stackAfterFragments at h1
    split at h1
    · exact absurd h1 (by simp)
    · rename_i st hst
      simp only [List.cons_append]
      unfold stackAfterFragments
      rw [hst]
      exact ih _ _ _ h1 h2

theorem anchor_append_old {env : Env} {allLines : List (List Char)}
    {stack0 : List IncludeFileInfo} {bound : Nat} {ws : List Fragment} {k : Nat}
    {d : List Char} (f : Fragment) (h : Anchor env allLines stack0 bound ws k d)
    (hk : k < ws.length) : Anchor env allLines stack0 bound (ws ++ [f]) k d := by
  obtain ⟨j, g, st, hjk, hg, hsp, hbetween, h1, h2, hst, hd⟩ := h
  refine ⟨j, g, st, hjk, ?_, hsp, ?_, h1, h2, ?_, hd⟩
  · rw [List.getElem?_append_left (by omega)]; exact hg
  · intro m f1 hjm hmk hf1
    rw [List.getElem?_append_left (by omega)] at hf1
    exact hbetween m f1 hjm hmk hf1
  · rw [List.take_append_of_le_length (by omega)]; exact hst

theorem anchor_append_fresh {env : Env} {allLines : List (List Char)}
    {stack0 stack : List IncludeFileInfo} {bound : Nat} (ws : List Fragment) {f : Fragment}
    (hsp : f.splitted = false) (h1 : 1 ≤ f.fromLine) (h2 : f.fromLine ≤ bound)
    (hst : stackAfterFragments env allLines ws stack0 = some stack) :
    Anchor env allLines stack0 bound (ws ++ [f]) ws.length
      (setSLlineDirective_ env stack f.fromLine) := by
  refine ⟨ws.length, f, stack, Nat.le_refl _, by simp, hsp, ?_, h1, h2, ?_, rfl⟩
  · intro m f1 hjm hmk _
    omega
  · rw [List.take_append_of_le_length (Nat.le_refl _), List.take_length]; exact hst

theorem anchor_append_repeat {env : Env} {allLines : List (List Char)}
    {stack0 : List IncludeFileInfo} {bound : Nat} {ws : List Fragment}
    {f : Fragment} {d : List Char} (hsp : f.splitted = true) (hne : ws ≠ [])
    (h : Anchor env allLines stack0 bound ws (ws.length - 1) d) :
    Anchor env allLines stack0 bound (ws ++ [f]) ws.length d := by
  have hpos : 0 < ws.length := List.length_pos.mpr hne
  obtain ⟨j, g, st, hjk, hg, hgsp, hbetween, h1, h2, hst, hd⟩ := h
  refine ⟨j, g, st, by omega, ?_, hgsp, ?_, h1, h2, ?_, hd⟩
  · rw [List.getElem?_append_left (by omega)]; exact hg
  · intro m f1 hjm hmk hf1
    by_cases hm : m < ws.length
    · rw [List.getElem?_append_left hm] at hf1
      exact hbetween m f1 hjm (by omega) hf1
    · have hm' : m = ws.length := by omega
      subst hm'
      simp at hf1
      rw [← hf1]; exact hsp
  · rw [List.take_append_of_le_length (by omega)]; exact hst

theorem directivesOk_append {env : Env} {allLines : List (List Char)}
    {stack0 : List IncludeFileInfo} {bound : Nat} {ws : List Fragment}
    {f : Fragment} {d t : List Char} (h : DirectivesOk env allLines stack0 bound ws)
    (ha : Anchor env allLines stack0 bound (ws ++ [f]) ws.length d) (hc : f.content = d ++ t) :
    DirectivesOk env allLines stack0 bound (ws ++ [f]) := by
  intro k f1 hf1
  by_cases hk : k < ws.length
  · rw [List.getElem?_append_left hk] at hf1
    obtain ⟨d1, t1, ha1, hc1⟩ := h k f1 hf1
    exact ⟨d1, t1, anchor_append_old f ha1 hk, hc1⟩
  · have hlen : k < (ws ++ [f]).length := by
      by_contra hcon
      rw [List.getElem?_eq_none (by omega)] at hf1
      exact absurd hf1 (by simp)
    have hk' : k = ws.length := by
      simp only [List.length_append, List.length_singleton] at hlen
      omega
    subst hk'
    simp at hf1
    subst hf1
    exact ⟨d, t, ha, hc⟩

theorem dirInv_classAfter {ctx : SplitCtx} {stack0 : List IncludeFileInfo} {s : SplitState}
    {toChunk : FileChunk} {cs : CopyState}
    (hch : ∀ c ∈ ctx.fileChunks, c.m_toLine ≤ ctx.allLines.length)
    (h : DirInv ctx stack0 s)
    (hto : ctx.fileChunks[classToIndex ctx s]? = some toChunk)
    (hcs : copyPlain ctx.env ctx.allLines (classToLine ctx (classToIndex ctx s) toChunk)
        (classToLine ctx (classToIndex ctx s) toChunk - s.fromLine) s.fromLine
        { content := setSLlineDirective_ ctx.env s.a.m_includeFileInfo s.fromLine ++
            ("  ".toList ++ ctx.fileLevelImportSection)
          stack := s.a.m_includeFileInfo, linesWriten := s.linesWriten } = some cs) :
    DirInv ctx stack0 (classAfter ctx s toChunk cs) := by
  obtain ⟨hst, h1, h2, hok⟩ := h
  have hstack := copyPlain_stackAfter _ _ _ _ hcs
  obtain ⟨_, t, ht⟩ := copyPlain_content _ _ _ _ hcs
  have hmem := hch toChunk (List.getElem?_mem hto)
  refine ⟨?_, ?_, ?_, ?_⟩
  · simp only [classAfter]
    exact stackAfterFragments_append _ _ _ _ _ hst hstack
  · simp only [classAfter]; omega
  · simp only [classAfter]; omega
  · simp only [classAfter]
    refine directivesOk_append
      (d := setSLlineDirective_ ctx.env s.a.m_includeFileInfo s.fromLine)
      (t := ("  ".toList ++ ctx.fileLevelImportSection) ++ t) hok
      (anchor_append_fresh _ rfl h1 h2 hst) ?_
    simp only at ht
    rw [ht, List.append_assoc]

theorem dirInv_smallAfter {ctx : SplitCtx} {stack0 : List IncludeFileInfo} {s : SplitState}
    {c : FileChunk} {cs : CopyState}
    (hc : c.m_toLine ≤ ctx.allLines.length)
    (h : DirInv ctx stack0 s)
    (hcs : copyPlain ctx.env ctx.allLines (smallToLine ctx s c)
        (smallToLine ctx s c - s.fromLine) s.fromLine
        { content := setSLlineDirective_ ctx.env s.a.m_includeFileInfo s.fromLine
          stack := s.a.m_includeFileInfo, linesWriten := s.linesWriten } = some cs) :
    DirInv ctx stack0 (smallAfter ctx s c cs) := by
  obtain ⟨hst, h1, h2, hok⟩ := h
  have hstack := copyPlain_stackAfter _ _ _ _ hcs
  obtain ⟨_, t, ht⟩ := copyPlain_content _ _ _ _ hcs
  refine ⟨?_, ?_, ?_, ?_⟩
  · simp only [smallAfter]
    exact stackAfterFragments_append _ _ _ _ _ hst hstack
  · simp only [smallAfter]; omega
  · simp only [smallAfter]; omega
  · simp only [smallAfter]
    refine directivesOk_append
      (d := setSLlineDirective_ ctx.env s.a.m_includeFileInfo s.fromLine)
      (t := t) hok (anchor_append_fresh _ rfl h1 h2 hst) ?_
    simp only at ht
    rw [ht]

theorem dirInv_bigAfter {ctx : SplitCtx} {bc : BigCtx} {stack0 : List IncludeFileInfo}
    {b : BigState} {fin : Bool} {ti : Nat} {tc ic : FileChunk} {cs : BigCopyState}
    (hpos : 1 ≤ ctx.allLines.length)
    (hpl : bc.packagelastLine ≤ ctx.allLines.length)
    (htc : tc.m_toLine ≤ ctx.allLines.length)
    (h : DirInv ctx stack0 b.s)
    (hsp : b.splitted = true → b.s.a.written ≠ [] ∧
      Anchor ctx.env ctx.allLines stack0 (ctx.allLines.length + 1) b.s.a.written
        (b.s.a.written.length - 1) b.sllineInfo)
    (hcs : copyBig ctx.env ctx.allLines bc.chunkType bc.importSection ic.m_fromLine
        (bigToLine ctx bc fin ti tc) (bigToLine ctx bc fin ti tc - b.s.fromLine) b.s.fromLine
        { content := bigHead ctx bc b, stack := b.s.a.m_includeFileInfo
          linesWriten := b.s.linesWriten, actualContent := false
          closer := { inString := false, inComment := false
                      endPackageDetected := b.endPackageDetected } } = some cs) :
    DirInv ctx stack0 (bigAfter ctx bc b fin ti tc cs) ∧
      (bigAfter ctx bc b fin ti tc cs).a.written ≠ [] ∧
      Anchor ctx.env ctx.allLines stack0 (ctx.allLines.length + 1)
        (bigAfter ctx bc b fin ti tc cs).a.written
        ((bigAfter ctx bc b fin ti tc cs).a.written.length - 1) (bigDirective ctx b) := by
  obtain ⟨hst, h1, h2, hok⟩ := h
  have hstack := copyBig_stackAfter _ _ _ _ hcs
  obtain ⟨_, t, ht⟩ := copyBig_content _ _ _ _ hcs
  simp only at ht hstack
  have hanchor : Anchor ctx.env ctx.allLines stack0 (ctx.allLines.length + 1)
      (b.s.a.written ++
        [{ file := ctx.env.getChunkFile ctx.m_ppFileId b.s.chunkNb
           content := bigContent ctx bc cs, fromLine := b.s.fromLine
           toLine := bigToLine ctx bc fin ti tc, splitted := b.splitted }])
      b.s.a.written.length (bigDirective ctx b) := by
    cases hb : b.splitted with
    | false =>
      have : bigDirective ctx b =
          setSLlineDirective_ ctx.env b.s.a.m_includeFileInfo b.s.fromLine := by
        simp [bigDirective, hb]
      rw [this]
      exact anchor_append_fresh (f := { file := _, content := _, fromLine := b.s.fromLine
                                        toLine := _, splitted := false }) _ rfl h1 h2 hst
    | true =>
      have : bigDirective ctx b = b.sllineInfo := by simp [bigDirective, hb]
      rw [this]
      obtain ⟨hne, ha⟩ := hsp hb
      exact anchor_append_repeat rfl hne ha
  have hcontent : ∃ t1, bigContent ctx bc cs = bigDirective ctx b ++ t1 := by
    unfold bigContent
    rw [ht]
    unfold bigHead
    split <;> split <;> simp only [List.append_assoc] <;> exact ⟨_, rfl⟩
  obtain ⟨t1, ht1⟩ := hcontent
  refine ⟨⟨?_, ?_, ?_, ?_⟩, ?_, ?_⟩
  · simp only [bigAfter]
    exact stackAfterFragments_append _ _ _ _ _ hst hstack
  · simp only [bigAfter, bigToLine]; split_ifs <;> omega
  · simp only [bigAfter, bigToLine]; split_ifs <;> omega
  · simp only [bigAfter]
    exact directivesOk_append hok hanchor ht1
  · simp [bigAfter]
  · simp only [bigAfter, List.length_append, List.length_singleton, Nat.add_sub_cancel]
    exact hanchor

theorem dirInv_step {ctx : SplitCtx} {stack0 : List IncludeFileInfo}
    (hpos : 1 ≤ ctx.allLines.length)
    (hch : ∀ c ∈ ctx.fileChunks, c.m_toLine ≤ ctx.allLines.length)
    (s : SplitState) (c : FileChunk) (s1 : SplitState) (h : DirInv ctx stack0 s)
    (hget : ctx.fileChunks[s.i]? = some c) (hit : splitIter ctx s c = Step.next s1) :
    DirInv ctx stack0 { s1 with i := s1.i + 1 } := by
  have key : DirInv ctx stack0 s1 := by
    rcases splitIter_next hit with ⟨_, hcl⟩ | ⟨_, decl, imp, _, _, ⟨_, hsm⟩ | ⟨_, hbig⟩⟩
    · obtain ⟨toChunk, cs, hto, hcs, _, rfl⟩ := classBranch_next hcl
      exact dirInv_classAfter hch h hto hcs
    · obtain ⟨cs, hcs, _, rfl⟩ := smallBranch_next hsm
      exact dirInv_smallAfter (hch c (List.getElem?_mem hget)) h hcs
    · refine bigLoop_next_inv
        (fun b => DirInv ctx stack0 b.s ∧ (b.splitted = true → b.s.a.written ≠ [] ∧
          Anchor ctx.env ctx.allLines stack0 (ctx.allLines.length + 1) b.s.a.written
            (b.s.a.written.length - 1) b.sllineInfo))
        (DirInv ctx stack0) (fun b hq _ => hq.1) ?_ ?_ 1002 _ s1 ⟨h, by simp⟩ hbig
      · intro b b1 hq _ hb
        obtain ⟨fin, ti, tc, ic, cs, _, _, htc, _, hcs, _, _, rfl⟩ := bigIter_again hb
        obtain ⟨r1, r2, r3⟩ := dirInv_bigAfter hpos (hch c (List.getElem?_mem hget))
          (hch tc (List.getElem?_mem htc)) hq.1 hq.2 hcs
        exact ⟨r1, fun _ => ⟨r2, r3⟩⟩
      · intro b s2 hq _ hb
        obtain ⟨fin, ti, tc, ic, cs, _, _, htc, _, hcs, _, _, rfl⟩ := bigIter_leave hb
        exact (dirInv_bigAfter hpos (hch c (List.getElem?_mem hget))
          (hch tc (List.getElem?_mem htc)) hq.1 hq.2 hcs).1
  exact key

/-- C6 (amended): every fragment written by a run of `analyze` on a fresh
analyzer that splits begins with the text `setSLlineDirective_` makes, under a
provenance stack and for a line number.  For a fragment begun with `splitted`
false (the fragments of the class branch and of the whole-package branch, the
first fragment of a package or module that is broken up, and there a fragment
that follows an empty one) these are the stack that the lines of the fragments
before it leave behind and its own first line `fromLine`: with a frame on the
stack the directive carries `fromLine - m_originalStartLine +
m_sectionStartLine` of the top frame, and on a text without `SLline` lines it
carries `fromLine` itself.  A fragment begun with `splitted` true repeats
`sllineInfo`, the directive of the fragment before it, so it carries the
directive of the last fragment before it that was begun with `splitted`
false. -/
theorem analyze_fragment_directive (env : Env) (cfg : Config) (a : Analyzer)
    (h : analyze env cfg {} = Outcome.split a) :
    ∀ (k : Nat) (f : Fragment), a.written[k]? = some f →
      ∃ (j : Nat) (g : Fragment) (stack : List IncludeFileInfo) (t : List Char),
        j ≤ k ∧ a.written[j]? = some g ∧ g.splitted = false ∧
        (∀ (m : Nat) (f1 : Fragment), j < m → m ≤ k → a.written[m]? = some f1 →
          f1.splitted = true) ∧
        (f.splitted = false → j = k) ∧
        stackAfterFragments env (mkAllLines env cfg.m_ppFileId cfg.m_text) (a.written.take j)
          [initialFrame cfg.m_fileId] = some stack ∧
        f.content = setSLlineDirective_ env stack g.fromLine ++ t ∧
        (∀ (top : IncludeFileInfo) (below : List IncludeFileInfo), stack = top :: below →
          setSLlineDirective_ env stack g.fromLine =
            "SLline ".toList ++
              Nat.toDigits 10
                ((sub32 g.fromLine top.m_originalStartLine + top.m_sectionStartLine) % 2 ^ 32) ++
              " ".toList ++ env.getSymbol top.m_sectionSymbolId ++ "^".toList ++
              env.toPath top.m_sectionFileId ++ " 1".toList ++ [lineFeed]) ∧
        ((∀ line ∈ mkAllLines env cfg.m_ppFileId cfg.m_text, NoDirective line) →
          (mkAllLines env cfg.m_ppFileId cfg.m_text).length + 1 < 2 ^ 32 →
          setSLlineDirective_ env stack g.fromLine =
            "SLline ".toList ++ Nat.toDigits 10 g.fromLine ++ " ".toList ++
              env.getSymbol BadSymbolId ++ "^".toList ++ env.toPath cfg.m_fileId ++
              " 1".toList ++ [lineFeed]) := by
  obtain ⟨_, _, hch⟩ := scanBounds_scan (mkAllLines env cfg.m_ppFileId cfg.m_text)
  unfold analyze at h
  simp only at h
  split at h
  · exact absurd h (by simp)
  · split at h
    · exact absurd h (by simp)
    · obtain ⟨s1, ⟨_, _, _, hok⟩, rfl⟩ :=
        splitLoop_split_inv (DirInv _ [initialFrame cfg.m_fileId])
          (fun s c s1 hp hget hit =>
            dirInv_step (by simp [mkAllLines]) (fun c hc => (hch c hc).2) s c s1 hp hget hit)
          _ _ a ⟨by rfl, Nat.le_refl _, by simp, by intro k f hf; simp at hf⟩ h
      intro k f hf
      obtain ⟨d, t, ⟨j, g, stack, hjk, hg, hsp, hbetween, h1, h2, hst, hd⟩, hc⟩ := hok k f hf
      refine ⟨j, g, stack, t, hjk, hg, hsp, hbetween, ?_, hst, by rw [hc, hd], ?_, ?_⟩
      · intro hfs
        by_contra hne
        have := hbetween k f (by omega) (Nat.le_refl _) hf
        rw [hfs] at this
        exact absurd this (by simp)
      · intro top below hs
        rw [hs]
        rfl
      · intro hno hlen
        have hs := stackAfterFragments_noDirective hno _ _ _ hst
        rw [hs]
        have h2' : g.fromLine ≤ (mkAllLines env cfg.m_ppFileId cfg.m_text).length + 1 := h2
        exact setSLlineDirective_initialFrame env cfg.m_fileId [] h1
          (show g.fromLine < 2 ^ 32 by omega)

set_option maxRecDepth 100000 in
/-- Witness for C6 (amended): the second fragment of `directiveThenClasses`
starts at line 6, under the frame that the directive at line 1 pushes for line
10, and carries the number 15. -/
theorem analyze_fragment_directive_witness :
    (analyze sampleEnv directiveThenClasses {}).ranges = some [(1, 6), (6, 8)] ∧
      (analyze sampleEnv directiveThenClasses {}).contents =
        some ["SLline 1 @@BAD_SYMBOL@@^top.sv 1\n  SLline 10 top.sv^top.sv 1\nclass A;\n  int x;\nendclass\nclass B;",
              "SLline 15 top.sv^top.sv 1\n    int y;\nendclass"] ∧
      ∃ (j : Nat) (g : Fragment) (stack : List IncludeFileInfo) (t : List Char),
        j ≤ 1 ∧ (analyze sampleEnv directiveThenClasses {}).final.written[j]? = some g ∧
        g.splitted = false ∧
        (((analyze sampleEnv directiveThenClasses {}).fragment 1).splitted = false → j = 1) ∧
        stackAfterFragments sampleEnv
          (mkAllLines sampleEnv directiveThenClasses.m_ppFileId directiveThenClasses.m_text)
          ((analyze sampleEnv directiveThenClasses {}).final.written.take j)
          [initialFrame directiveThenClasses.m_fileId] = some stack ∧
        ((analyze sampleEnv directiveThenClasses {}).fragment 1).content =
          setSLlineDirective_ sampleEnv stack g.fromLine ++ t := by
  refine ⟨by decide, by decide, ?_⟩
  obtain ⟨j, g, stack, t, h1, h2, h3, _, h5, h6, h7, _⟩ :=
    analyze_fragment_directive sampleEnv directiveThenClasses
      (analyze sampleEnv directiveThenClasses {}).final (by decide) 1
      ((analyze sampleEnv directiveThenClasses {}).fragment 1) (by decide)
  exact ⟨j, g, stack, t, h1, h2, h3, h5, h6, h7⟩

/-! ### The expansion of any function-like macro -/

theorem isNameChar_ne {c d : Char} (hc : isNameChar c = true) (hd : isNameChar d = false) :
    c ≠ d := by
  rintro rfl
  rw [hc] at hd
  exact absurd hd (by simp)

/-- A run of name characters is read into the word. -/
theorem substituteFormals_word (formals actuals : List (List Char)) :
    ∀ (w cs acc : List Char), (∀ c ∈ w, isNameChar c = true) →
      substituteFormals formals actuals (w ++ cs) acc =
        substituteFormals formals actuals cs (w.reverse ++ acc) := by
  intro w
  induction w with
  | nil => intro cs acc _; rfl
  | cons c w ih =>
    intro cs acc hw
    have hc := hw c (List.mem_cons_self _ _)
    simp only [List.cons_append, substituteFormals, hc, if_true]
    show substituteFormals formals actuals (w ++ cs) (c :: acc) = _
    rw [ih cs (c :: acc) (fun a ha => hw a (List.mem_cons_of_mem _ ha))]
    simp

theorem replaceWord_nil (formals actuals : List (List Char))
    (hf : ∀ x ∈ formals, IsName x) : replaceWord formals actuals [] = [] := by
  unfold replaceWord
  rw [if_neg]
  intro h
  exact (hf [] h).1 rfl

theorem indexOf_of_nodup :
    ∀ (l : List (List Char)) (k : Nat) (hk : k < l.length), l.Nodup →
      l.indexOf (l.get ⟨k, hk⟩) = k := by
  intro l
  induction l with
  | nil => intro k hk; exact absurd hk (Nat.not_lt_zero _)
  | cons b l ih =>
    intro k hk hnd
    cases k with
    | zero => simp [List.indexOf_cons]
    | succ k =>
      have hk1 : k < l.length := by simpa using hk
      have hne : b ≠ l.get ⟨k, hk1⟩ := by
        intro h
        exact (List.nodup_cons.mp hnd).1 (h ▸ List.get_mem l k hk1)
      have hb : (b == l.get ⟨k, hk1⟩) = false := by simpa using hne
      simp only [List.get_cons_succ, List.indexOf_cons, hb, cond_false]
      rw [ih k hk1 (List.nodup_cons.mp hnd).2]

theorem replaceWord_formal (formals actuals : List (List Char)) (hnd : formals.Nodup)
    (k : Nat) (hk : k < formals.length) :
    replaceWord formals actuals (formals.getD k []) = actuals.getD k [] := by
  have hget : formals.getD k [] = formals.get ⟨k, hk⟩ := by
    simp [List.getD, List.getElem?_eq_getElem hk]
  unfold replaceWord
  rw [hget, if_pos (List.get_mem formals k hk), indexOf_of_nodup formals k hk hnd]

/-- The substitution of the model, on the body with the formal arguments in
it, gives the body with the actual arguments in their places. -/
theorem substituteFormals_render (formals actuals : List (List Char))
    (hf : ∀ x ∈ formals, IsName x) (hnd : formals.Nodup) :
    ∀ (ps : List BodyPiece) (b : Bool) (acc : List Char),
      wellFormedBody formals b ps = true → (b = false → acc = []) →
      substituteFormals formals actuals (renderBody formals ps) acc =
        replaceWord formals actuals acc.reverse ++ renderBody actuals ps := by
  intro ps
  induction ps with
  | nil => intro b acc _ _; simp [renderBody, substituteFormals]
  | cons p ps ih =>
    intro b acc hwf hacc
    cases p with
    | sep c =>
      simp only [wellFormedBody, Bool.and_eq_true, Bool.not_eq_true', decide_eq_true_eq] at hwf
      obtain ⟨⟨⟨hc, _⟩, _⟩, hps⟩ := hwf
      simp only [renderBody, substituteFormals, hc, Bool.false_eq_true, if_false]
      rw [ih false [] hps (fun _ => rfl)]
      simp [replaceWord_nil formals actuals hf]
    | word w =>
      simp only [wellFormedBody, Bool.and_eq_true, Bool.not_eq_true', decide_eq_true_eq] at hwf
      obtain ⟨⟨⟨hb, hw⟩, hnot⟩, hps⟩ := hwf
      rw [hacc hb]
      simp only [renderBody]
      rw [substituteFormals_word formals actuals w _ [] hw.2, ih true _ hps (by simp)]
      simp only [List.append_nil, List.reverse_reverse, List.reverse_nil]
      have hrw : replaceWord formals actuals w = w := by
        unfold replaceWord
        rw [if_neg hnot]
      rw [hrw, replaceWord_nil formals actuals hf]
      rfl
    | formal k =>
      simp only [wellFormedBody, Bool.and_eq_true, Bool.not_eq_true', decide_eq_true_eq] at hwf
      obtain ⟨⟨hb, hk⟩, hps⟩ := hwf
      rw [hacc hb]
      simp only [renderBody]
      have hname : IsName (formals.getD k []) := by
        have hget : formals.getD k [] = formals[k] := by
          simp [List.getD, List.getElem?_eq_getElem hk]
        rw [hget]
        exact hf _ (List.getElem_mem hk)
      rw [substituteFormals_word formals actuals _ _ [] hname.2, ih true _ hps (by simp)]
      simp only [List.append_nil, List.reverse_reverse, List.reverse_nil]
      rw [replaceWord_formal formals actuals hnd k hk, replaceWord_nil formals actuals hf]
      rfl

/-- The body with plain actual arguments in it holds no backtick. -/
theorem renderBody_no_backtick (formals actuals : List (List Char))
    (ha : ∀ x ∈ actuals, PlainArg x) :
    ∀ (ps : List BodyPiece) (b : Bool), wellFormedBody formals b ps = true →
      ∀ c ∈ renderBody actuals ps, c ≠ backtick := by
  intro ps
  induction ps with
  | nil => intro b _ c hc; simp [renderBody] at hc
  | cons p ps ih =>
    intro b hwf c hc
    cases p with
    | sep d =>
      simp only [wellFormedBody, Bool.and_eq_true, Bool.not_eq_true', decide_eq_true_eq] at hwf
      obtain ⟨⟨⟨_, hd⟩, _⟩, hps⟩ := hwf
      simp only [renderBody, List.mem_cons] at hc
      rcases hc with rfl | hc
      · exact hd
      · exact ih false hps c hc
    | word w =>
      simp only [wellFormedBody, Bool.and_eq_true, Bool.not_eq_true', decide_eq_true_eq] at hwf
      obtain ⟨⟨⟨_, hw⟩, _⟩, hps⟩ := hwf
      simp only [renderBody, List.mem_append] at hc
      rcases hc with hc | hc
      · exact isNameChar_ne (hw.2 c hc) (by decide)
      · exact ih true hps c hc
    | formal k =>
      simp only [wellFormedBody, Bool.and_eq_true, Bool.not_eq_true', decide_eq_true_eq] at hwf
      obtain ⟨_, hps⟩ := hwf
      simp only [renderBody, List.mem_append] at hc
      rcases hc with hc | hc
      · by_cases hk : k < actuals.length
        · have hget : actuals.getD k [] = actuals[k] := by
            simp [List.getD, List.getElem?_eq_getElem hk]
          rw [hget] at hc
          exact (ha _ (List.getElem_mem hk) c hc).2.2.2.1
        · have hget : actuals.getD k [] = [] := by
            simp [List.getD, List.getElem?_eq_none (Nat.le_of_not_lt hk)]
          rw [hget] at hc
          exact absurd hc (by simp)
      · exact ih true hps c hc

theorem trimBlanks_of_ends (x : List Char) (h1 : x.head? ≠ some ' ')
    (h2 : x.getLast? ≠ some ' ') : trimBlanks x = x := by
  have hd : ∀ l : List Char, l.head? ≠ some ' ' → l.dropWhile (fun c => c == ' ') = l := by
    intro l hl
    cases l with
    | nil => rfl
    | cons a l1 =>
      have : (a == ' ') = false := by simpa using hl
      simp [List.dropWhile_cons, this]
  have h3 : x.reverse.head? ≠ some ' ' := by rw [List.head?_reverse]; exact h2
  simp only [trimBlanks, hd x h1, hd _ h3, List.reverse_reverse]

theorem trimBlanks_name (x : List Char) (h : IsName x) : trimBlanks x = x := by
  have hb : ∀ c ∈ x, c ≠ ' ' := fun c hc => isNameChar_ne (h.2 c hc) (by decide)
  refine trimBlanks_of_ends x ?_ ?_
  · intro hh
    exact hb ' ' (List.mem_of_mem_head? hh) rfl
  · intro hh
    exact hb ' ' (List.mem_of_mem_getLast? hh) rfl

/-- The characters of a name are added to the name of the directive or
invocation being read. -/
theorem unitStep_name (policy : MacroPolicy) (child : ChildUnit) (chain : List (List Char)) :
    ∀ (w acc : List Char) (st : UnitState), st.mode = ScanMode.name acc →
      (∀ c ∈ w, isNameChar c = true) →
      w.foldl (unitStep policy child chain) st =
        { st with mode := ScanMode.name (acc ++ w) } := by
  intro w
  induction w with
  | nil => intro acc st hm _; simp [← hm]
  | cons c w ih =>
    intro acc st hm hw
    have hc := hw c (List.mem_cons_self _ _)
    have h1 : unitStep policy child chain st c =
        { st with mode := ScanMode.name (acc ++ [c]) } := by
      simp [unitStep, hm, hc]
    have h2 := ih (acc ++ [c]) { st with mode := ScanMode.name (acc ++ [c]) } rfl
      (fun a ha => hw a (List.mem_cons_of_mem _ ha))
    rw [List.foldl_cons, h1, h2]
    simp

/-- The characters of a name are added to the name of the macro being
defined. -/
theorem unitStep_defineName (policy : MacroPolicy) (child : ChildUnit)
    (chain : List (List Char)) :
    ∀ (w acc : List Char) (st : UnitState), st.mode = ScanMode.defineName acc →
      (∀ c ∈ w, isNameChar c = true) →
      w.foldl (unitStep policy child chain) st =
        { st with mode := ScanMode.defineName (acc ++ w) } := by
  intro w
  induction w with
  | nil => intro acc st hm _; simp [← hm]
  | cons c w ih =>
    intro acc st hm hw
    have hc := hw c (List.mem_cons_self _ _)
    have h1 : unitStep policy child chain st c =
        { st with mode := ScanMode.defineName (acc ++ [c]) } := by
      simp [unitStep, hm, hc]
    have h2 := ih (acc ++ [c]) { st with mode := ScanMode.defineName (acc ++ [c]) } rfl
      (fun a ha => hw a (List.mem_cons_of_mem _ ha))
    rw [List.foldl_cons, h1, h2]
    simp

/-- The characters of a name are added to the formal argument being read. -/
theorem unitStep_formal (policy : MacroPolicy) (child : ChildUnit) (chain : List (List Char))
    (name : List Char) (acc : List (List Char)) :
    ∀ (w cur : List Char) (st : UnitState), st.mode = ScanMode.defineFormals name cur acc →
      (∀ c ∈ w, isNameChar c = true) →
      w.foldl (unitStep policy child chain) st =
        { st with mode := ScanMode.defineFormals name (cur ++ w) acc } := by
  intro w
  induction w with
  | nil => intro cur st hm _; simp [← hm]
  | cons c w ih =>
    intro cur st hm hw
    have hc := hw c (List.mem_cons_self _ _)
    have hc1 : c ≠ ',' := isNameChar_ne hc (by decide)
    have hc2 : c ≠ ')' := isNameChar_ne hc (by decide)
    have h1 : unitStep policy child chain st c =
        { st with mode := ScanMode.defineFormals name (cur ++ [c]) acc } := by
      simp [unitStep, hm, hc1, hc2]
    have h2 := ih (cur ++ [c]) { st with mode := ScanMode.defineFormals name (cur ++ [c]) acc }
      rfl (fun a ha => hw a (List.mem_cons_of_mem _ ha))
    rw [List.foldl_cons, h1, h2]
    simp

/-- The list of the formal arguments, up to the closing parenthesis. -/
theorem unitStep_formals (policy : MacroPolicy) (child : ChildUnit) (chain : List (List Char))
    (name : List Char) :
    ∀ (fs : List (List Char)) (acc : List (List Char)) (st : UnitState), fs ≠ [] →
      (∀ x ∈ fs, IsName x) → st.mode = ScanMode.defineFormals name [] acc →
      (commaSeparated fs ++ [')']).foldl (unitStep policy child chain) st =
        { st with mode := ScanMode.defineBody name (acc ++ fs) [] } := by
  intro fs
  induction fs with
  | nil => intro acc st h; exact absurd rfl h
  | cons x fs ih =>
    intro acc st _ hfs hm
    have hx := hfs x (List.mem_cons_self _ _)
    have h1 := unitStep_formal policy child chain name acc x [] st hm hx.2
    cases fs with
    | nil =>
      simp only [commaSeparated, List.foldl_append, h1, List.foldl_cons, List.foldl_nil,
        List.nil_append]
      simp [unitStep, trimBlanks_name x hx]
    | cons y rest =>
      have h2 := ih (acc ++ [x])
        { st with mode := ScanMode.defineFormals name [] (acc ++ [x]) } (by simp)
        (fun a ha => hfs a (List.mem_cons_of_mem _ ha)) rfl
      simp only [commaSeparated, List.foldl_append, List.foldl_cons, h1, List.nil_append]
      have h3 : unitStep policy child chain
          { st with mode := ScanMode.defineFormals name x acc } ',' =
          { st with mode := ScanMode.defineFormals name [] (acc ++ [x]) } := by
        simp [unitStep, trimBlanks_name x hx]
      rw [h3]
      simp only [List.foldl_append, List.foldl_cons, List.foldl_nil] at h2
      rw [h2]
      simp

/-- The characters of the body of a definition, up to the end of the line. -/
theorem unitStep_body (policy : MacroPolicy) (child : ChildUnit) (chain : List (List Char))
    (name : List Char) (formals : List (List Char)) :
    ∀ (t body : List Char) (st : UnitState), st.mode = ScanMode.defineBody name formals body →
      (∀ c ∈ t, c ≠ lineFeed) →
      t.foldl (unitStep policy child chain) st =
        { st with mode := ScanMode.defineBody name formals (body ++ t) } := by
  intro t
  induction t with
  | nil => intro body st hm _; simp [← hm]
  | cons c t ih =>
    intro body st hm ht
    have hc := ht c (List.mem_cons_self _ _)
    have h1 : unitStep policy child chain st c =
        { st with mode := ScanMode.defineBody name formals (body ++ [c]) } := by
      simp [unitStep, hm, hc]
    have h2 := ih (body ++ [c])
      { st with mode := ScanMode.defineBody name formals (body ++ [c]) } rfl
      (fun a ha => ht a (List.mem_cons_of_mem _ ha))
    rw [List.foldl_cons, h1, h2]
    simp

/-- Plain text without backticks, double quotes and slashes is copied to the
output, and the scan stays outside comments and strings. -/
theorem unitStep_clean (policy : MacroPolicy) (child : ChildUnit) (chain : List (List Char)) :
    ∀ (t : List Char) (st : UnitState), CleanText st →
      (∀ c ∈ t, c ≠ backtick ∧ c ≠ dquote ∧ c ≠ '/') →
      CleanText (t.foldl (unitStep policy child chain) st) ∧
      (t.foldl (unitStep policy child chain) st).out = st.out ++ t ∧
      (t.foldl (unitStep policy child chain) st).table = st.table := by
  intro t
  induction t with
  | nil => intro st hcl _; exact ⟨hcl, by simp, rfl⟩
  | cons c t ih =>
    intro st hcl ht
    obtain ⟨hm, hs, hcm, hlc, hp⟩ := hcl
    obtain ⟨hc1, hc2, hc3⟩ := ht c (List.mem_cons_self _ _)
    have hpb : (st.prev == '/') = false := by simpa using hp
    have hcq : (c == dquote) = false := by simpa using hc2
    have h1 : unitStep policy child chain st c =
        { st with out := st.out ++ [c], prev := c } := by
      simp [unitStep, hm, textStep, hs, hcm, hlc, hc1, hpb, hcq]
    have hcl1 : CleanText { st with out := st.out ++ [c], prev := c } :=
      ⟨hm, hs, hcm, hlc, hc3⟩
    obtain ⟨r1, r2, r3⟩ := ih { st with out := st.out ++ [c], prev := c } hcl1
      (fun a ha => ht a (List.mem_cons_of_mem _ ha))
    rw [List.foldl_cons, h1]
    exact ⟨r1, by rw [r2]; simp, r3⟩

/-- The list of the actual arguments, up to the closing parenthesis: the macro
is expanded with them. -/
theorem unitStep_actualList (policy : MacroPolicy) (child : ChildUnit)
    (chain : List (List Char)) (m : MacroDefinition) :
    ∀ (xs : List (List Char)) (acc : List (List Char)) (st : UnitState), xs ≠ [] →
      (∀ x ∈ xs, PlainArg x) → st.mode = ScanMode.actuals m 0 [] acc →
      (commaSeparated xs ++ [')']).foldl (unitStep policy child chain) st =
        { st with out := st.out ++ expandMacro policy child st.table chain m (acc ++ xs)
                  mode := ScanMode.text } := by
  intro xs
  induction xs with
  | nil => intro acc st h; exact absurd rfl h
  | cons x xs ih =>
    intro acc st _ hxs hm
    have hx := hxs x (List.mem_cons_self _ _)
    have h1 := unitStep_actuals policy child chain m acc x [] st hm hx
    cases xs with
    | nil =>
      simp only [commaSeparated, List.foldl_append, h1, List.foldl_cons, List.foldl_nil,
        List.nil_append]
      simp [unitStep, trimBlanks_plain x hx]
    | cons y rest =>
      have h2 := ih (acc ++ [x])
        { st with mode := ScanMode.actuals m 0 [] (acc ++ [x]) } (by simp)
        (fun a ha => hxs a (List.mem_cons_of_mem _ ha)) rfl
      simp only [commaSeparated, List.foldl_append, List.foldl_cons, h1, List.nil_append]
      have h3 : unitStep policy child chain
          { st with mode := ScanMode.actuals m 0 x acc } ',' =
          { st with mode := ScanMode.actuals m 0 [] (acc ++ [x]) } := by
        simp [unitStep, trimBlanks_plain x hx]
      rw [h3]
      simp only [List.foldl_append, List.foldl_cons, List.foldl_nil] at h2
      rw [h2]
      simp

theorem renderBody_no_lineFeed (formals : List (List Char)) (hf : ∀ x ∈ formals, IsName x) :
    ∀ (ps : List BodyPiece) (b : Bool), wellFormedBody formals b ps = true →
      ∀ c ∈ renderBody formals ps, c ≠ lineFeed := by
  intro ps
  induction ps with
  | nil => intro b _ c hc; simp [renderBody] at hc
  | cons p ps ih =>
    intro b hwf c hc
    cases p with
    | sep d =>
      simp only [wellFormedBody, Bool.and_eq_true, Bool.not_eq_true', decide_eq_true_eq] at hwf
      obtain ⟨⟨⟨_, _⟩, hd⟩, hps⟩ := hwf
      simp only [renderBody, List.mem_cons] at hc
      rcases hc with rfl | hc
      · exact hd
      · exact ih false hps c hc
    | word w =>
      simp only [wellFormedBody, Bool.and_eq_true, Bool.not_eq_true', decide_eq_true_eq] at hwf
      obtain ⟨⟨⟨_, hw⟩, _⟩, hps⟩ := hwf
      simp only [renderBody, List.mem_append] at hc
      rcases hc with hc | hc
      · exact isNameChar_ne (hw.2 c hc) (by decide)
      · exact ih true hps c hc
    | formal k =>
      simp only [wellFormedBody, Bool.and_eq_true, Bool.not_eq_true', decide_eq_true_eq] at hwf
      obtain ⟨⟨_, hk⟩, hps⟩ := hwf
      simp only [renderBody, List.mem_append] at hc
      rcases hc with hc | hc
      · have hget : formals.getD k [] = formals.get ⟨k, hk⟩ := by
          simp [List.getD, List.getElem?_eq_getElem hk]
        rw [hget] at hc
        exact isNameChar_ne ((hf _ (List.get_mem formals k hk)).2 c hc) (by decide)
      · exact ih true hps c hc

/-- The expansion of a macro whose body is given by its pieces, with plain
actual arguments: the body with the actual arguments in the places of the
formal arguments. -/
theorem expandMacro_render (policy : MacroPolicy) (d : Nat) (table : List MacroDefinition)
    (name : List Char) (formals actuals : List (List Char)) (pieces : List BodyPiece)
    (hf : ∀ x ∈ formals, IsName x) (hnd : formals.Nodup)
    (hwf : wellFormedBody formals false pieces = true) (ha : ∀ x ∈ actuals, PlainArg x) :
    expandMacro policy (fun tb ch body => (preprocessUnit policy d tb ch body).2) table []
        { name := name, formals := formals, body := renderBody formals pieces } actuals =
      renderBody actuals pieces := by
  have hargs : (if policy.evaluate = true then
      actuals.map (fun body => (preprocessUnit policy d table [] body).2)
      else actuals) = actuals := by
    split_ifs
    · conv_rhs => rw [← List.map_id actuals]
      apply List.map_congr_left
      intro x hx
      exact preprocessUnit_plain policy d table [] x (fun c hc => (ha x hx c hc).2.2.2.1)
    · rfl
  simp only [expandMacro, List.not_mem_nil, if_false, hargs]
  rw [substituteFormals_render formals actuals hf hnd pieces false [] hwf (fun _ => rfl)]
  simp only [List.reverse_nil, replaceWord_nil formals actuals hf, List.nil_append]
  exact preprocessUnit_plain policy d _ _ _ (renderBody_no_backtick formals actuals ha pieces
    false hwf)

theorem defineLine_parts (name : List Char) (formals : List (List Char)) (body : List Char) :
    defineLine name formals body =
      (backtick :: "define ".toList) ++ (name ++ ('(' :: ((commaSeparated formals ++ [')']) ++
        ((' ' :: body) ++ [lineFeed])))) := by
  simp [defineLine]

theorem invocation_parts (name : List Char) (actuals : List (List Char)) :
    invocation name actuals =
      backtick :: (name ++ ('(' :: (commaSeparated actuals ++ [')']))) := by
  simp [invocation]

/-- The scan of the line that defines a macro: the macro is in the table,
nothing is put out, and the scan is in plain text. -/
theorem unitStep_defineLine (policy : MacroPolicy) (child : ChildUnit)
    (name : List Char) (formals : List (List Char)) (body : List Char)
    (hname : IsName name) (hfs : formals ≠ []) (hf : ∀ x ∈ formals, IsName x)
    (hlf : ∀ c ∈ body, c ≠ lineFeed) (h1 : body.head? ≠ some ' ')
    (h2 : body.getLast? ≠ some ' ') (h3 : body.getLast? ≠ some backslash) :
    (defineLine name formals body).foldl (unitStep policy child []) (UnitState.start []) =
      { table := [{ name := name, formals := formals, body := body }], out := []
        inString := false, inComment := false, inLineComment := false, prev := backtick
        mode := ScanMode.text } := by
  have hhead : "define ".toList.foldl (unitStep policy child [])
      (unitStep policy child [] (UnitState.start []) backtick) =
      { table := [], out := [], inString := false, inComment := false, inLineComment := false
        prev := backtick, mode := ScanMode.defineName [] } := by
    simp +decide [String.toList, List.foldl, unitStep, textStep, isNameChar, backtick,
      UnitState.start]
  have hparen : ∀ st : UnitState, st.mode = ScanMode.defineName name →
      unitStep policy child [] st '(' = { st with mode := ScanMode.defineFormals name [] [] } := by
    intro st hm
    simp +decide [unitStep, hm, isNameChar]
  have hlast : (' ' :: body).getLast? ≠ some backslash := by
    cases body with
    | nil => decide
    | cons b bs => rw [List.getLast?_cons_cons]; exact h3
  have htrim : trimBlanks (' ' :: body) = body := by
    have : trimBlanks (' ' :: body) = trimBlanks body := by
      simp [trimBlanks, List.dropWhile_cons]
    rw [this]
    exact trimBlanks_of_ends body h1 h2
  have hend : ∀ st : UnitState, st.mode = ScanMode.defineBody name formals (' ' :: body) →
      unitStep policy child [] st lineFeed =
        { st with table := { name := name, formals := formals, body := body } :: st.table
                  mode := ScanMode.text } := by
    intro st hm
    simp [unitStep, hm, hlast, htrim]
  rw [defineLine_parts]
  simp only [List.foldl_append, List.foldl_cons, List.foldl_nil]
  rw [hhead, unitStep_defineName policy child [] name [] _ rfl hname.2]
  simp only [List.nil_append]
  rw [hparen _ rfl]
  have hformals := unitStep_formals policy child [] name formals []
    { table := [], out := [], inString := false, inComment := false, inLineComment := false
      prev := backtick, mode := ScanMode.defineFormals name [] [] } hfs hf rfl
  simp only [List.foldl_append, List.foldl_cons, List.foldl_nil, List.nil_append] at hformals
  rw [hformals]
  have hbody := unitStep_body policy child [] name formals (' ' :: body) []
    { table := [], out := [], inString := false, inComment := false, inLineComment := false
      prev := backtick, mode := ScanMode.defineBody name formals [] } rfl
    (by
      intro c hc
      rcases List.mem_cons.mp hc with rfl | hc
      · decide
      · exact hlf c hc)
  simp only [List.foldl_cons, List.nil_append] at hbody
  rw [hbody, hend _ rfl]

/-- C20: the expansion of an invocation of a function-like macro substitutes
every formal argument in the body by the actual argument at its position,
textually.  For every macro name, every list of distinct formal arguments,
every body on one line given by its words (separators, words that are no formal
argument, and formal arguments), and all plain actual arguments, as many as
formal arguments, the text that defines the macro and then holds `pre`, the
invocation and `post` is preprocessed, under every policy, to `pre`, the body
with every formal argument replaced by its actual argument, and `post`. -/
theorem preprocess_function_macro (policy : MacroPolicy) (name : List Char)
    (formals actuals : List (List Char)) (pieces : List BodyPiece) (pre post : List Char)
    (hname : IsName name) (hdef : name ≠ "define".toList)
    (hfs : formals ≠ []) (hnd : formals.Nodup) (hf : ∀ x ∈ formals, IsName x)
    (hwf : wellFormedBody formals false pieces = true)
    (hends : (renderBody formals pieces).head? ≠ some ' ' ∧
      (renderBody formals pieces).getLast? ≠ some ' ' ∧
      (renderBody formals pieces).getLast? ≠ some backslash)
    (hlen : actuals.length = formals.length) (ha : ∀ x ∈ actuals, PlainArg x)
    (hpre : ∀ c ∈ pre, c ≠ backtick ∧ c ≠ dquote ∧ c ≠ '/')
    (hpost : ∀ c ∈ post, c ≠ backtick) :
    preprocess policy
        (defineLine name formals (renderBody formals pieces) ++ pre ++
          invocation name actuals ++ post) =
      pre ++ renderBody actuals pieces ++ post := by
  have has : actuals ≠ [] := by
    intro h
    rw [h] at hlen
    exact hfs (List.length_eq_zero.mp hlen.symm)
  unfold preprocess
  rw [preprocessUnit_succ]
  obtain ⟨d, hd⟩ : ∃ d : Nat, d = (defineLine name formals (renderBody formals pieces) ++ pre ++
      invocation name actuals ++ post).count backtick := ⟨_, rfl⟩
  rw [← hd]
  obtain ⟨child, hchild⟩ : ∃ child : ChildUnit,
      child = fun tb ch body => (preprocessUnit policy d tb ch body).2 := ⟨_, rfl⟩
  rw [← hchild]
  obtain ⟨m, hm⟩ : ∃ m : MacroDefinition,
      m = { name := name, formals := formals, body := renderBody formals pieces } := ⟨_, rfl⟩
  have hexp : expandMacro policy child [m] [] m actuals = renderBody actuals pieces := by
    rw [hchild, hm]
    exact expandMacro_render policy d _ name formals actuals pieces hf hnd hwf ha
  simp only [List.foldl_append]
  rw [unitStep_defineLine policy child name formals _ hname hfs hf
    (renderBody_no_lineFeed formals hf pieces false hwf) hends.1 hends.2.1 hends.2.2, ← hm]
  obtain ⟨hcl, hout, htab⟩ := unitStep_clean policy child [] pre
    { table := [m], out := [], inString := false, inComment := false, inLineComment := false
      prev := backtick, mode := ScanMode.text }
    ⟨rfl, rfl, rfl, rfl, by show backtick ≠ '/'; decide⟩ hpre
  obtain ⟨st, hst⟩ : ∃ st : UnitState, st = pre.foldl (unitStep policy child [])
      { table := [m], out := [], inString := false, inComment := false, inLineComment := false
        prev := backtick, mode := ScanMode.text } := ⟨_, rfl⟩
  rw [← hst] at hcl hout htab ⊢
  simp only [List.nil_append] at hout htab
  obtain ⟨hmode, hs, hcm, hlc, _⟩ := hcl
  have hbt : unitStep policy child [] st backtick =
      { st with prev := backtick, mode := ScanMode.name [] } := by
    simp [unitStep, textStep, hmode, hs, hcm, hlc]
  have hparen : unitStep policy child []
      { st with prev := backtick, mode := ScanMode.name name } '(' =
      { st with prev := backtick, mode := ScanMode.actuals m 0 [] [] } := by
    have hlook : lookupMacro [m] name = some m := by
      simp [lookupMacro, hm]
    have hnp : isNameChar '(' = false := by decide
    have hmf : m.formals ≠ [] := by rw [hm]; exact hfs
    have hdef1 : ¬ name = ['d', 'e', 'f', 'i', 'n', 'e'] := hdef
    simp [unitStep, endOfName, hnp, hdef1, htab, hlook, hmf]
  rw [invocation_parts]
  simp only [List.foldl_cons, List.foldl_append]
  rw [hbt, unitStep_name policy child [] name [] _ rfl hname.2]
  simp only [List.nil_append]
  rw [hparen]
  simp only [List.foldl_nil, htab, hout]
  have hact := unitStep_actualList policy child [] m actuals []
    { st with prev := backtick, mode := ScanMode.actuals m 0 [] [] } has ha rfl
  simp only [List.foldl_append, List.foldl_cons, List.foldl_nil, List.nil_append, htab, hexp,
    hout] at hact
  rw [hact]
  obtain ⟨r1, r2, _⟩ := unitStep_text policy child [] post
    { table := [m], out := pre ++ renderBody actuals pieces, inString := st.inString
      inComment := st.inComment, inLineComment := st.inLineComment, prev := backtick
      mode := ScanMode.text } rfl hpost
  simp only [unitFlush, r2]
  exact r1

set_option maxRecDepth 100000 in
/-- Witness for C20: the end-to-end scenario: the macro `ADD` with the formal
arguments `a` and `b` and the body `((a)+(b))`, invoked with `1` and `2` after
`wire x = `, under the policy of a plain run. -/
theorem preprocess_function_macro_witness :
    preprocess plainPolicy "`define ADD(a,b) ((a)+(b))\nwire x = `ADD(1,2);".toList =
      "wire x = ((1)+(2));".toList :=
  preprocess_function_macro plainPolicy "ADD".toList ["a".toList, "b".toList]
    ["1".toList, "2".toList]
    [BodyPiece.sep '(', BodyPiece.sep '(', BodyPiece.formal 0, BodyPiece.sep ')',
     BodyPiece.sep '+', BodyPiece.sep '(', BodyPiece.formal 1, BodyPiece.sep ')',
     BodyPiece.sep ')']
    "wire x = ".toList ";".toList
    (by decide) (by decide) (by decide) (by decide) (by decide) (by decide) (by decide)
    (by decide) (by decide) (by decide) (by decide)

end Surelog
